import Mathlib

/-!
# Konfet: the Lua 5.1 bytecode reader of `LuaParser.cpp`

A shallow embedding of `Konfet::LuaParser` and theorems about it.

* The buffer `m_data` is a list of bytes and `m_dataIterator` is an offset
  into it.  A member function of the parser is a `Reader`: a function of the
  buffer and of the offset at which it is called.
* The C++ code performs no bounds check.  A read that needs bytes at or past
  the end of the buffer is undefined behaviour in C++; the embedding stops
  there with `Outcome.outOfBounds`, which records the offset the iterator is
  moved to.
* The two `throw` statements of the parser are `Outcome.throws`.
* `readPod<bool>` copies one byte into a `bool` with no conversion.  The byte 0
  is `false` and the byte 1 is `true`; a `bool` that holds any other byte has
  no valid value and reading it is undefined behaviour in C++; the embedding
  stops there with `Outcome.invalidBool`.
* `int` is 32 bits wide, two's complement, and objects are little-endian
  (the parser copies buffer bytes into the object representation).
* `parseChunk` calls itself; the embedding bounds the nesting of calls with a
  fuel argument and `Parse` supplies the length of the buffer, which is never
  exhausted (`parseChunk_fuel_enough`).
-/

namespace Konfet

/-! ## Data model -/

/-- One element of `std::vector<uint8_t>`. -/
abbrev Byte := Fin 256

/-- The two exceptions of `LuaParser.cpp`: `std::exception("unsupported Lua header")`
(line 174) and `std::exception("non-recognized constant type")` (line 124). -/
inductive ParseError where
  | unsupportedHeader
  | unrecognizedConstant
  deriving DecidableEq, Repr

/-- The text passed to `std::exception` at the `throw`. -/
def ParseError.what : ParseError → String
  | .unsupportedHeader => "unsupported Lua header"
  | .unrecognizedConstant => "non-recognized constant type"

/-- What a call of a parser member function does.

* `ok value next`: it returns `value` and leaves `m_dataIterator` at offset `next`;
* `throws e`: it leaves by the exception `e`;
* `outOfBounds reached`: it reads bytes at or past `m_data.end()` with no check
  (undefined behaviour); `reached` is the offset the iterator is moved to by that read;
* `invalidBool byte`: it reads a `bool` whose byte, copied from the buffer, is neither 0
  nor 1 (undefined behaviour);
* `outOfFuel`: the bound of the embedding on nested `parseChunk` calls is used up. -/
inductive Outcome (α : Type) where
  | ok (value : α) (next : Nat)
  | throws (e : ParseError)
  | outOfBounds (reached : Nat)
  | invalidBool (byte : Byte)
  | outOfFuel
  deriving DecidableEq, Repr

/-- A member function of `LuaParser`, as a function of `m_data` and of the offset of
`m_dataIterator` when it is called. -/
def Reader (α : Type) : Type := List Byte → Nat → Outcome α

/-- A statement that returns `a` and reads nothing. -/
def Reader.pure {α : Type} (a : α) : Reader α := fun _ pos => .ok a pos

/-- Sequencing of two statements: an exception, an out-of-bounds read or the read of an
invalid `bool` in the first ends the function, otherwise the second runs at the offset the
first reached. -/
def Reader.bind {α β : Type} (r : Reader α) (f : α → Reader β) : Reader β := fun data pos =>
  match r data pos with
  | .ok a next => f a data next
  | .throws e => .throws e
  | .outOfBounds reached => .outOfBounds reached
  | .invalidBool byte => .invalidBool byte
  | .outOfFuel => .outOfFuel

/-- The statement `throw std::exception(...)`. -/
def Reader.throw {α : Type} (e : ParseError) : Reader α := fun _ _ => .throws e

/-- The read of a `bool` object that holds `byte`, neither 0 nor 1. -/
def Reader.invalidBool {α : Type} (byte : Byte) : Reader α := fun _ _ => .invalidBool byte

instance : Monad Reader where
  pure := Reader.pure
  bind := Reader.bind

/-- Modelled from the spec: `LuaHeader.h` is not among the sources.  The fields are those
assigned by `parseHeader`; they are all `uint8_t`, so the struct is 12 bytes with no padding. -/
structure LuaHeader where
  signature : List Byte
  version : Byte
  format : Byte
  endiannessFlag : Byte
  intSize : Byte
  sizeTypeSize : Byte
  instructionSize : Byte
  luaNumberSize : Byte
  integralFlag : Byte
  deriving DecidableEq, Repr

/-- Modelled from the spec: `LuaInstruction.h` is not among the sources.  An instruction is
built from one 32-bit word and keeps it as its raw value. -/
structure LuaInstruction where
  raw : Nat
  deriving DecidableEq, Repr

/-- Modelled from the spec: `LuaConstant.h` is not among the sources.  The parser assigns to a
`LuaConstant` a `std::monostate`, a `bool`, a `double` or a `std::string`.  A `double` is kept
as its 64-bit pattern. -/
inductive LuaConstant where
  | nil
  | boolean (b : Bool)
  | number (bits : Nat)
  | string (s : List Byte)
  deriving DecidableEq, Repr

/-- Modelled from the spec: `enum ConstantType` is declared in `LuaConstant.h`, which is not
among the sources.  A tag is one byte; the values of the four enumerators are parameters of the
development. -/
structure ConstantTags where
  LUA_TNIL : Nat
  LUA_TBOOLEAN : Nat
  LUA_TNUMBER : Nat
  LUA_TSTRING : Nat
  deriving DecidableEq, Repr

/-- The type tags of Lua 5.1 (`lua.h`): nil 0, boolean 1, number 3, string 4. -/
def lua51Tags : ConstantTags := ⟨0, 1, 3, 4⟩

/-- Modelled from the spec: `LuaLocal.h` is not among the sources.  A local has a name and two
instruction indices; the indices hold the `uint32_t` value of their initialiser. -/
structure LuaLocal where
  name : List Byte
  startPc : Nat
  endPc : Nat
  deriving DecidableEq, Repr

/-- Modelled from the spec: `LuaChunk.h` is not among the sources.  The fields are those
assigned by `parseChunk`, in the order of assignment. -/
inductive LuaChunk where
  | mk (sourceName : List Byte) (lineDefined lastLineDefined : Int)
      (numUpvalues numParameters varargFlags maxStackSize : Byte)
      (instructions : List LuaInstruction) (constants : List LuaConstant)
      (protos : List LuaChunk) (sourceLines : List Int) (locals : List LuaLocal)
      (upvalues : List (List Byte))

namespace LuaChunk

def sourceName : LuaChunk → List Byte
  | mk s _ _ _ _ _ _ _ _ _ _ _ _ => s

def lineDefined : LuaChunk → Int
  | mk _ l _ _ _ _ _ _ _ _ _ _ _ => l

def lastLineDefined : LuaChunk → Int
  | mk _ _ l _ _ _ _ _ _ _ _ _ _ => l

def numUpvalues : LuaChunk → Byte
  | mk _ _ _ n _ _ _ _ _ _ _ _ _ => n

def numParameters : LuaChunk → Byte
  | mk _ _ _ _ n _ _ _ _ _ _ _ _ => n

def varargFlags : LuaChunk → Byte
  | mk _ _ _ _ _ n _ _ _ _ _ _ _ => n

def maxStackSize : LuaChunk → Byte
  | mk _ _ _ _ _ _ n _ _ _ _ _ _ => n

def instructions : LuaChunk → List LuaInstruction
  | mk _ _ _ _ _ _ _ is _ _ _ _ _ => is

def constants : LuaChunk → List LuaConstant
  | mk _ _ _ _ _ _ _ _ cs _ _ _ _ => cs

def protos : LuaChunk → List LuaChunk
  | mk _ _ _ _ _ _ _ _ _ ps _ _ _ => ps

def sourceLines : LuaChunk → List Int
  | mk _ _ _ _ _ _ _ _ _ _ ls _ _ => ls

def locals : LuaChunk → List LuaLocal
  | mk _ _ _ _ _ _ _ _ _ _ _ ls _ => ls

def upvalues : LuaChunk → List (List Byte)
  | mk _ _ _ _ _ _ _ _ _ _ _ _ us => us

end LuaChunk

/-! ## Object representations -/

/-- The value of an unsigned integer object whose bytes are `bs`, on a little-endian machine. -/
def leValue : List Byte → Nat
  | [] => 0
  | b :: bs => b.val + 256 * leValue bs

/-- The value of an `int` whose 32-bit pattern is `v` (two's complement). -/
def toInt32 (v : Nat) : Int :=
  if v % 2 ^ 32 < 2 ^ 31 then ((v % 2 ^ 32 : Nat) : Int) else ((v % 2 ^ 32 : Nat) : Int) - 2 ^ 32

/-! ## The cursor: `readPod`, `readBytes`, `readLuaString`, `readPodList`, `readList` -/

/-- The function `LuaParser::readPod<T>` with `w = sizeof(T)`, lines 21-28: copies the `w`
bytes at the iterator into the object and advances the iterator by `w`.  The result is the
object representation. -/
def readPod (w : Nat) : Reader (List Byte) := fun data pos =>
  if pos + w ≤ data.length then .ok ((data.drop pos).take w) (pos + w)
  else .outOfBounds (pos + w)

/-- The function `LuaParser::readBytes(out, len)`, lines 30-34: copies `len` bytes and
advances the iterator by `len`. -/
def readBytes (len : Nat) : Reader (List Byte) := fun data pos =>
  if pos + len ≤ data.length then .ok ((data.drop pos).take len) (pos + len)
  else .outOfBounds (pos + len)

/-- The call `readPod<uint8_t>()`: the object is the byte itself. -/
def readPodUInt8 : Reader Byte := do
  let obj ← readPod 1
  pure (obj.headD 0)

/-- The call `readPod<uint32_t>()`: the value of the four bytes, little-endian. -/
def readPodUInt32 : Reader Nat := do
  let obj ← readPod 4
  pure (leValue obj)

/-- The call `readPod<int>()`: the value of the four bytes, two's complement. -/
def readPodInt : Reader Int := do
  let obj ← readPod 4
  pure (toInt32 (leValue obj))

/-- The call `readPod<bool>()`, lines 21-28 with `T = bool`: the byte is copied into the
`bool` object with no conversion, and `return ret` reads the object.  The byte 0 is `false`
and the byte 1 is `true`; with any other byte the object has no valid value. -/
def readPodBool : Reader Bool := do
  let obj ← readPod 1
  if leValue obj = 0 then
    pure false
  else if leValue obj = 1 then
    pure true
  else
    Reader.invalidBool (obj.headD 0)

/-- The call `readPod<double>()`: the 64-bit pattern of the `double`. -/
def readPodDouble : Reader Nat := do
  let obj ← readPod 8
  pure (leValue obj)

/-- The call `readPod<ConstantType>()`.  Modelled from the spec: the enum is declared in a
header that is not among the sources; a tag is one byte. -/
def readPodConstantType : Reader Nat := do
  let obj ← readPod 1
  pure (leValue obj)

/-- A loop `for (i = 0; i < n; i++) ret.push_back(body());` that runs `n` times. -/
def repeatRead {α : Type} (body : Reader α) : Nat → Reader (List α)
  | 0 => pure []
  | n + 1 => do
    let x ← body
    let xs ← repeatRead body n
    pure (x :: xs)

/-- The loop `for (int i = 0; i < size; i++) ret.push_back(body());` for an `int size`: a
negative `size` makes the condition false at once. -/
def forCount {α : Type} (size : Int) (body : Reader α) : Reader (List α) :=
  repeatRead body size.toNat

/-- One round of the loop of `readLuaString`, lines 42-43:
`ret.push_back(*m_dataIterator); m_dataIterator++;`. -/
def readChar : Reader Byte := fun data pos =>
  match data.get? pos with
  | some c => .ok c (pos + 1)
  | none => .outOfBounds (pos + 1)

/-- The function `LuaParser::readLuaString`, lines 36-46. -/
def readLuaString : Reader (List Byte) := do
  let len ← readPodUInt32
  repeatRead readChar len

/-- The function `LuaParser::readPodList<int>`, lines 48-58 (its only instance, line 135). -/
def readPodList : Reader (List Int) := do
  let size ← readPodInt
  forCount size readPodInt

/-- The function `LuaParser::readList<T, uint32_t>`, lines 60-70 (its only instance, line 103). -/
def readList {α : Type} (func : Nat → α) : Reader (List α) := do
  let size ← readPodInt
  forCount size (do
    let data ← readPodUInt32
    pure (func data))

/-! ## `parseHeader`, `parseChunk`, `Parse` -/

/-- The function `LuaParser::parseHeader`, lines 72-87. -/
def parseHeader : Reader LuaHeader := do
  let signature ← readBytes 4
  let version ← readPodUInt8
  let format ← readPodUInt8
  let endiannessFlag ← readPodUInt8
  let intSize ← readPodUInt8
  let sizeTypeSize ← readPodUInt8
  let instructionSize ← readPodUInt8
  let luaNumberSize ← readPodUInt8
  let integralFlag ← readPodUInt8
  pure ⟨signature, version, format, endiannessFlag, intSize, sizeTypeSize, instructionSize,
    luaNumberSize, integralFlag⟩

/-- The body of the constants loop of `parseChunk`, lines 108-126. -/
def parseConstant (T : ConstantTags) : Reader LuaConstant := do
  let constantType ← readPodConstantType
  if constantType = T.LUA_TNIL then
    pure LuaConstant.nil
  else if constantType = T.LUA_TBOOLEAN then do
    let b ← readPodBool
    pure (LuaConstant.boolean b)
  else if constantType = T.LUA_TNUMBER then do
    let d ← readPodDouble
    pure (LuaConstant.number d)
  else if constantType = T.LUA_TSTRING then do
    let s ← readLuaString
    pure (LuaConstant.string s)
  else
    Reader.throw ParseError.unrecognizedConstant

/-- The constants of a chunk, lines 105-127. -/
def parseConstants (T : ConstantTags) : Reader (List LuaConstant) := do
  let sizeConstants ← readPodInt
  forCount sizeConstants (parseConstant T)

/-- The nested chunks, lines 129-132; `self` is the recursive call `parseChunk()`. -/
def parseProtos (self : Reader LuaChunk) : Reader (List LuaChunk) := do
  let sizeChunks ← readPodInt
  forCount sizeChunks self

/-- The body of the locals loop, lines 140-145.  The additions are made in `uint32_t`. -/
def parseLocal : Reader LuaLocal := do
  let name ← readLuaString
  let startPc ← readPodUInt32
  let endPc ← readPodUInt32
  pure ⟨name, (1 + startPc) % 2 ^ 32, (1 + endPc) % 2 ^ 32⟩

/-- The locals of a chunk, lines 137-146. -/
def parseLocals : Reader (List LuaLocal) := do
  let sizeLocals ← readPodInt
  forCount sizeLocals parseLocal

/-- The upvalue names of a chunk, lines 148-151. -/
def parseUpvalues : Reader (List (List Byte)) := do
  let sizeUpvalues ← readPodInt
  forCount sizeUpvalues readLuaString

/-- The body of `LuaParser::parseChunk`, lines 89-154, with the recursive call as `self`. -/
def parseChunkWith (T : ConstantTags) (self : Reader LuaChunk) : Reader LuaChunk := do
  let sourceName ← readLuaString
  let lineDefined ← readPodInt
  let lastLineDefined ← readPodInt
  let numUpvalues ← readPodUInt8
  let numParameters ← readPodUInt8
  let varargFlags ← readPodUInt8
  let maxStackSize ← readPodUInt8
  let instructions ← readList LuaInstruction.mk
  let constants ← parseConstants T
  let protos ← parseProtos self
  let sourceLines ← readPodList
  let locals ← parseLocals
  let upvalues ← parseUpvalues
  pure (LuaChunk.mk sourceName lineDefined lastLineDefined numUpvalues numParameters
    varargFlags maxStackSize instructions constants protos sourceLines locals upvalues)

/-- The function `LuaParser::parseChunk`, lines 89-154; `fuel` bounds the nesting of
recursive calls. -/
def parseChunk (T : ConstantTags) : Nat → Reader LuaChunk
  | 0 => fun _ _ => Outcome.outOfFuel
  | fuel + 1 => parseChunkWith T (parseChunk T fuel)

/-- The object representation of a `LuaHeader`: the 12 bytes compared by `memcmp`. -/
def LuaHeader.bytes (h : LuaHeader) : List Byte :=
  h.signature ++ [h.version, h.format, h.endiannessFlag, h.intSize, h.sizeTypeSize,
    h.instructionSize, h.luaNumberSize, h.integralFlag]

/-- The `supportedHeader` of `Parse`, lines 162-172. -/
def supportedHeader : LuaHeader :=
  ⟨[0x1B, 0x4C, 0x75, 0x61], 0x51, 0, 1, 4, 4, 4, 8, 0⟩

/-- The function `LuaParser::Parse`, lines 156-178, with the fuel of its call of `parseChunk`. -/
def ParseWithFuel (T : ConstantTags) (fuel : Nat) : Reader LuaChunk := do
  let header ← parseHeader
  if header.bytes ≠ supportedHeader.bytes then
    Reader.throw ParseError.unsupportedHeader
  else
    parseChunk T fuel

/-- The function `LuaParser::Parse` on a parser constructed on `data` (lines 15-19: the
iterator starts at `m_data.begin()`).  The fuel is the length of the buffer, which is never
used up. -/
def Parse (T : ConstantTags) (data : List Byte) : Outcome LuaChunk :=
  ParseWithFuel T data.length data 0

/-! ## Buffers used in the examples -/

/-- The 52-byte buffer of a main chunk with nothing in it. -/
def minimalChunk : List Byte :=
  [0x1B, 0x4C, 0x75, 0x61, 0x51, 0, 1, 4, 4, 4, 8, 0,
   0, 0, 0, 0,  0, 0, 0, 0,  0, 0, 0, 0,  0, 0, 2, 2,
   0, 0, 0, 0,  0, 0, 0, 0,  0, 0, 0, 0,  0, 0, 0, 0,  0, 0, 0, 0,  0, 0, 0, 0]

/-! ## Properties of readers -/

/-- The reads of `r` go forward, stay inside the buffer, and depend only on the bytes they
consume: a successful call is unchanged on every buffer with the same bytes up to the offset it
reached, and on a buffer cut short before that offset the call reads past the end. -/
structure Reader.Sound {α : Type} (r : Reader α) : Prop where
  advance : ∀ data pos v next, r data pos = .ok v next → pos ≤ next
  inBounds : ∀ data pos v next, r data pos = .ok v next → pos ≤ data.length →
    next ≤ data.length
  extend : ∀ data pos v next, r data pos = .ok v next →
    ∀ data', data'.take next = data.take next → r data' pos = .ok v next
  truncate : ∀ data pos v next, r data pos = .ok v next →
    ∀ k, pos ≤ k → k < next → ∃ q, k < q ∧ r (data.take k) pos = .outOfBounds q

/-- The reader `r2` does what `r1` does wherever `r1` does not run out of fuel. -/
def Reader.FuelLe {α : Type} (r1 r2 : Reader α) : Prop :=
  ∀ data pos, r1 data pos = .outOfFuel ∨ r2 data pos = r1 data pos

/-- The reader `r` does not run out of fuel on `data` at the offsets from `lo` to the end. -/
def Reader.Fueled {α : Type} (r : Reader α) (data : List Byte) (lo : Nat) : Prop :=
  ∀ pos, lo ≤ pos → pos ≤ data.length → r data pos ≠ .outOfFuel

/-- The buffer `minimalChunk` with the version byte `0x52` in place of `0x51`. -/
def wrongVersionChunk : List Byte :=
  [0x1B, 0x4C, 0x75, 0x61, 0x52, 0, 1, 4, 4, 4, 8, 0,
   0, 0, 0, 0,  0, 0, 0, 0,  0, 0, 0, 0,  0, 0, 2, 2,
   0, 0, 0, 0,  0, 0, 0, 0,  0, 0, 0, 0,  0, 0, 0, 0,  0, 0, 0, 0,  0, 0, 0, 0]

/-- The buffer `minimalChunk` with each of the six counts set to `FF FF FF FF`, the `int` -1. -/
def negativeCountsChunk : List Byte :=
  [0x1B, 0x4C, 0x75, 0x61, 0x51, 0, 1, 4, 4, 4, 8, 0,
   0, 0, 0, 0,  0, 0, 0, 0,  0, 0, 0, 0,  0, 0, 2, 2,
   0xFF, 0xFF, 0xFF, 0xFF,  0xFF, 0xFF, 0xFF, 0xFF,  0xFF, 0xFF, 0xFF, 0xFF,
   0xFF, 0xFF, 0xFF, 0xFF,  0xFF, 0xFF, 0xFF, 0xFF,  0xFF, 0xFF, 0xFF, 0xFF]

/-- The buffer `minimalChunk` with the instruction count set to `FE FF FF FF`, the `int` -2. -/
def negativeInstructionCountChunk : List Byte :=
  [0x1B, 0x4C, 0x75, 0x61, 0x51, 0, 1, 4, 4, 4, 8, 0,
   0, 0, 0, 0,  0, 0, 0, 0,  0, 0, 0, 0,  0, 0, 2, 2,
   0xFE, 0xFF, 0xFF, 0xFF,  0, 0, 0, 0,  0, 0, 0, 0,  0, 0, 0, 0,  0, 0, 0, 0,  0, 0, 0, 0]

/-- A local record: an empty name, the start index `FF FF FF FF` and the end index 0. -/
def wrappingLocal : List Byte :=
  [0, 0, 0, 0,  0xFF, 0xFF, 0xFF, 0xFF,  0, 0, 0, 0]

/-- A local record: the name `x`, the start index 2 and the end index 7. -/
def sampleLocal : List Byte :=
  [1, 0, 0, 0, 0x78,  2, 0, 0, 0,  7, 0, 0, 0]

/-! ## The stages of `parseChunk` -/

/-- The values read by `parseChunk` before the constants, lines 93-103. -/
structure ChunkHead where
  sourceName : List Byte
  lineDefined : Int
  lastLineDefined : Int
  numUpvalues : Byte
  numParameters : Byte
  varargFlags : Byte
  maxStackSize : Byte
  instructions : List LuaInstruction

/-- The statements of `parseChunk` before the constants, lines 93-103. -/
def chunkHead : Reader ChunkHead := do
  let sourceName ← readLuaString
  let lineDefined ← readPodInt
  let lastLineDefined ← readPodInt
  let numUpvalues ← readPodUInt8
  let numParameters ← readPodUInt8
  let varargFlags ← readPodUInt8
  let maxStackSize ← readPodUInt8
  let instructions ← readList LuaInstruction.mk
  pure ⟨sourceName, lineDefined, lastLineDefined, numUpvalues, numParameters, varargFlags,
    maxStackSize, instructions⟩

/-- The call of `parseChunk` at `pos` with fuel `fuel + 1` makes a recursive call at `p`: the
statements before the nested chunks return, the count of nested chunks is `n`, and `k < n`
nested chunks have been read when the cursor is at `p`. -/
def CallsAt (T : ConstantTags) (data : List Byte) (fuel pos p : Nat) : Prop :=
  ∃ (hd : ChunkHead) (p0 : Nat) (cs : List LuaConstant) (p1 : Nat) (n : Int) (p2 : Nat)
    (k : Nat) (ps : List LuaChunk),
    chunkHead data pos = .ok hd p0 ∧ parseConstants T data p0 = .ok cs p1 ∧
    readPodInt data p1 = .ok n p2 ∧ (k : Int) < n ∧
    repeatRead (parseChunk T fuel) k data p2 = .ok ps p

/-- The call of `parseChunk` at `pos` with fuel `fuel` encloses, at some depth, the call at
`p` with fuel `fuel'`. -/
inductive Nested (T : ConstantTags) (data : List Byte) : Nat → Nat → Nat → Nat → Prop where
  | child {fuel pos p : Nat} : CallsAt T data fuel pos p → Nested T data (fuel + 1) pos fuel p
  | deeper {fuel pos p fuel' p' : Nat} : CallsAt T data fuel pos p →
      Nested T data fuel p fuel' p' → Nested T data (fuel + 1) pos fuel' p'

/-- The chunk `c` is `root` or one of its nested prototypes, at any depth. -/
inductive LuaChunk.Within : LuaChunk → LuaChunk → Prop where
  | root (c : LuaChunk) : LuaChunk.Within c c
  | nested {c c1 c2 : LuaChunk} : c1 ∈ c.protos → LuaChunk.Within c2 c1 → LuaChunk.Within c2 c

/-- A main chunk whose constant list declares two constants, `nil` and one of tag `0xFF`. -/
def badTagChunk : List Byte :=
  [0x1B, 0x4C, 0x75, 0x61, 0x51, 0, 1, 4, 4, 4, 8, 0,
   0, 0, 0, 0,  0, 0, 0, 0,  0, 0, 0, 0,  0, 0, 2, 2,
   0, 0, 0, 0,  2, 0, 0, 0,  0,  0xFF,  0, 0, 0, 0]

/-- A main chunk with one nested prototype, whose constant list has one constant of tag
`0xFF`. -/
def nestedBadTagChunk : List Byte :=
  [0x1B, 0x4C, 0x75, 0x61, 0x51, 0, 1, 4, 4, 4, 8, 0,
   0, 0, 0, 0,  0, 0, 0, 0,  0, 0, 0, 0,  0, 0, 2, 2,
   0, 0, 0, 0,  0, 0, 0, 0,  1, 0, 0, 0,
   0, 0, 0, 0,  0, 0, 0, 0,  0, 0, 0, 0,  0, 0, 2, 2,
   0, 0, 0, 0,  1, 0, 0, 0,  0xFF,  0, 0, 0, 0]

/-- A main chunk of 28 bytes after the 12-byte header: an empty name, no instruction, no
constant, and a count of nested chunks of `0x7FFFFFFF`, with which the buffer ends. -/
def hugeProtoCountChunk : List Byte :=
  [0x1B, 0x4C, 0x75, 0x61, 0x51, 0, 1, 4, 4, 4, 8, 0,
   0, 0, 0, 0,  0, 0, 0, 0,  0, 0, 0, 0,  0, 0, 2, 2,
   0, 0, 0, 0,  0, 0, 0, 0,  0xFF, 0xFF, 0xFF, 0x7F]

/-- The call has ended as C++ defines it: it has returned or it has thrown.  In the other
outcomes the code has read past the end of the buffer or has read an invalid `bool`, and its
behaviour from there on is undefined (or the fuel of the embedding is used up). -/
def Outcome.ended {α : Type} : Outcome α → Bool
  | .ok _ _ => true
  | .throws _ => true
  | .outOfBounds _ => false
  | .invalidBool _ => false
  | .outOfFuel => false

/-! ## The encoder of the round trip

The repository has no encoder.  The functions below write a chunk tree in the layout read by
`parseChunk`, step by step. -/

/-- The byte of value `n mod 256`. -/
def byteOf (n : Nat) : Byte := ⟨n % 256, Nat.mod_lt _ (by decide)⟩

/-- The `w` bytes of the unsigned value `v`, least significant first. -/
def leBytes : Nat → Nat → List Byte
  | 0, _ => []
  | w + 1, v => byteOf v :: leBytes w (v / 256)

/-- The four bytes of an `int` (two's complement, little-endian). -/
def encodeInt (v : Int) : List Byte := leBytes 4 (v % 2 ^ 32).toNat

/-- A string: its length in four bytes, then its bytes. -/
def encodeString (s : List Byte) : List Byte := leBytes 4 s.length ++ s

/-- The encodings of the elements of a list, one after the other. -/
def encodeAll {α : Type} (enc : α → List Byte) : List α → List Byte
  | [] => []
  | x :: xs => enc x ++ encodeAll enc xs

/-- A list: its length as a 4-byte signed count, then its elements. -/
def encodeList {α : Type} (enc : α → List Byte) (xs : List α) : List Byte :=
  encodeInt xs.length ++ encodeAll enc xs

/-- An instruction: its 32-bit word. -/
def encodeInstruction (i : LuaInstruction) : List Byte := leBytes 4 i.raw

/-- A constant: its tag byte, then its payload. -/
def encodeConstant (T : ConstantTags) : LuaConstant → List Byte
  | .nil => [byteOf T.LUA_TNIL]
  | .boolean b => [byteOf T.LUA_TBOOLEAN, if b then 1 else 0]
  | .number bits => byteOf T.LUA_TNUMBER :: leBytes 8 bits
  | .string s => byteOf T.LUA_TSTRING :: encodeString s

/-- A local: its name, then each instruction index written as the stored value minus one, in
unsigned 32-bit arithmetic. -/
def encodeLocal (l : LuaLocal) : List Byte :=
  encodeString l.name ++ (leBytes 4 ((l.startPc + (2 ^ 32 - 1)) % 2 ^ 32) ++
    leBytes 4 ((l.endPc + (2 ^ 32 - 1)) % 2 ^ 32))

mutual

/-- A chunk, in the order of the nine steps of `parseChunk`. -/
def encodeChunk (T : ConstantTags) : LuaChunk → List Byte
  | .mk sourceName lineDefined lastLineDefined numUpvalues numParameters varargFlags
      maxStackSize instructions constants protos sourceLines locals upvalues =>
    encodeString sourceName ++ (encodeInt lineDefined ++ (encodeInt lastLineDefined ++
    ([numUpvalues] ++ ([numParameters] ++ ([varargFlags] ++ ([maxStackSize] ++
    (encodeList encodeInstruction instructions ++
    (encodeList (encodeConstant T) constants ++
    ((encodeInt protos.length ++ encodeChunks T protos) ++
    (encodeList encodeInt sourceLines ++
    (encodeList encodeLocal locals ++
    encodeList encodeString upvalues)))))))))))

/-- The nested chunks of a chunk, one after the other. -/
def encodeChunks (T : ConstantTags) : List LuaChunk → List Byte
  | [] => []
  | p :: ps => encodeChunk T p ++ encodeChunks T ps

end

/-- A file: the supported header, then the main chunk. -/
def encodeFile (T : ConstantTags) (c : LuaChunk) : List Byte :=
  supportedHeader.bytes ++ encodeChunk T c

/-- The four enumerators of `ConstantType` are distinct byte values. -/
def ConstantTags.Distinct (T : ConstantTags) : Prop :=
  T.LUA_TNIL < 256 ∧ T.LUA_TBOOLEAN < 256 ∧ T.LUA_TNUMBER < 256 ∧ T.LUA_TSTRING < 256 ∧
  T.LUA_TNIL ≠ T.LUA_TBOOLEAN ∧ T.LUA_TNIL ≠ T.LUA_TNUMBER ∧ T.LUA_TNIL ≠ T.LUA_TSTRING ∧
  T.LUA_TBOOLEAN ≠ T.LUA_TNUMBER ∧ T.LUA_TBOOLEAN ≠ T.LUA_TSTRING ∧
  T.LUA_TNUMBER ≠ T.LUA_TSTRING

/-- The value is one that an `int` holds. -/
def IsInt32 (v : Int) : Prop := -2 ^ 31 ≤ v ∧ v < 2 ^ 31

/-- The constant is one that a `LuaConstant` holds: a `double` has 64 bits and the length of a
string is below 2^32. -/
def LuaConstant.Representable : LuaConstant → Prop
  | .nil => True
  | .boolean _ => True
  | .number bits => bits < 2 ^ 64
  | .string s => s.length < 2 ^ 32

/-- The local is one that a `LuaLocal` holds: the length of the name is below 2^32 and the
indices are `uint32_t` values. -/
def LuaLocal.Representable (l : LuaLocal) : Prop :=
  l.name.length < 2 ^ 32 ∧ l.startPc < 2 ^ 32 ∧ l.endPc < 2 ^ 32

/-- The chunk tree is one that the C++ types hold, with all list lengths below 2^31 and all
string lengths below 2^32. -/
inductive LuaChunk.Representable : LuaChunk → Prop where
  | mk (sourceName : List Byte) (lineDefined lastLineDefined : Int)
      (numUpvalues numParameters varargFlags maxStackSize : Byte)
      (instructions : List LuaInstruction) (constants : List LuaConstant)
      (protos : List LuaChunk) (sourceLines : List Int) (locals : List LuaLocal)
      (upvalues : List (List Byte)) :
      sourceName.length < 2 ^ 32 → IsInt32 lineDefined → IsInt32 lastLineDefined →
      instructions.length < 2 ^ 31 → (∀ i ∈ instructions, i.raw < 2 ^ 32) →
      constants.length < 2 ^ 31 → (∀ c ∈ constants, c.Representable) →
      protos.length < 2 ^ 31 → (∀ p, p ∈ protos → LuaChunk.Representable p) →
      sourceLines.length < 2 ^ 31 → (∀ l ∈ sourceLines, IsInt32 l) →
      locals.length < 2 ^ 31 → (∀ l ∈ locals, l.Representable) →
      upvalues.length < 2 ^ 31 → (∀ u ∈ upvalues, u.length < 2 ^ 32) →
      LuaChunk.Representable (LuaChunk.mk sourceName lineDefined lastLineDefined numUpvalues
        numParameters varargFlags maxStackSize instructions constants protos sourceLines
        locals upvalues)

/-- On a buffer that holds `bytes` at the cursor, whatever comes before and after, the reader
returns `v` and stops just after `bytes`. -/
def Reader.Decodes {α : Type} (r : Reader α) (bytes : List Byte) (v : α) : Prop :=
  ∀ pre post : List Byte,
    r (pre ++ bytes ++ post) pre.length = .ok v (pre.length + bytes.length)

/-- A nested prototype of the sample tree: one instruction, a string constant, one local. -/
def sampleProto : LuaChunk :=
  .mk [0x66] 3 5 1 2 0 4 [⟨0x0000001E⟩] [.string [0x68, 0x69, 0]] [] [4] [⟨[0x78, 0], 0, 1⟩]
    [[0x75, 0]]

/-- A sample tree: two instructions, four constants, one nested prototype. -/
def sampleTree : LuaChunk :=
  .mk [0x40, 0x61, 0] 0 0 0 0 2 2 [⟨0x00000024⟩, ⟨0x0080001E⟩]
    [.nil, .boolean true, .number 0x400C000000000000, .string [0x61, 0]] [sampleProto]
    [1, 1] [] []

/-- A string whose length prefix is `FF FF FF FF`, followed by two bytes. -/
def hugeLengthString : List Byte :=
  [0xFF, 0xFF, 0xFF, 0xFF, 0x41, 0x42]

/-- A string whose length prefix declares three bytes, followed by one byte. -/
def shortString : List Byte :=
  [3, 0, 0, 0, 0x41]

/-- The rational value of the IEEE-754 binary64 pattern `bits` of a normal number: sign in bit
63, biased exponent in bits 52-62, fraction in bits 0-51. -/
def normalDoubleValue (bits : Nat) : ℚ :=
  (-1) ^ (bits / 2 ^ 63) * ((2 ^ 52 + bits % 2 ^ 52 : Nat) : ℚ) *
    2 ^ (((bits / 2 ^ 52 % 2 ^ 11 : Nat) : Int) - 1075)

/-- The buffer `minimalChunk` with a source-line count of 1 and the source line 7: no
instruction, one source line. -/
def mismatchChunk : List Byte :=
  [0x1B, 0x4C, 0x75, 0x61, 0x51, 0, 1, 4, 4, 4, 8, 0,
   0, 0, 0, 0,  0, 0, 0, 0,  0, 0, 0, 0,  0, 0, 2, 2,
   0, 0, 0, 0,  0, 0, 0, 0,  0, 0, 0, 0,  1, 0, 0, 0,  7, 0, 0, 0,  0, 0, 0, 0,  0, 0, 0, 0]

mutual

/-- The number of chunks of a tree: the root and all nested prototypes, at every depth. -/
def LuaChunk.size : LuaChunk → Nat
  | .mk _ _ _ _ _ _ _ _ _ protos _ _ _ => 1 + LuaChunk.sizeAll protos

/-- The number of chunks of the trees of a list. -/
def LuaChunk.sizeAll : List LuaChunk → Nat
  | [] => 0
  | p :: ps => p.size + LuaChunk.sizeAll ps

end

mutual

/-- The nesting depth of a tree: the number of chunks on its longest chain from the root. -/
def LuaChunk.depth : LuaChunk → Nat
  | .mk _ _ _ _ _ _ _ _ _ protos _ _ _ => 1 + LuaChunk.depthAll protos

/-- The largest nesting depth among the trees of a list. -/
def LuaChunk.depthAll : List LuaChunk → Nat
  | [] => 0
  | p :: ps => max p.depth (LuaChunk.depthAll ps)

end

/-! ## Buffers that differ in the instruction words -/

/-- The reader reads nothing before the cursor: its result depends only on the length of the
buffer and on the bytes from the cursor on. -/
def Reader.Forward {α : Type} (r : Reader α) : Prop :=
  ∀ (data data' : List Byte) (pos : Nat), data'.length = data.length →
    data'.drop pos = data.drop pos → r data' pos = r data pos

/-- The values read by `parseChunk` after the instructions, lines 105-151. -/
structure ChunkTail where
  constants : List LuaConstant
  protos : List LuaChunk
  sourceLines : List Int
  locals : List LuaLocal
  upvalues : List (List Byte)

/-- The statements of `parseChunk` after the instructions, lines 105-151. -/
def chunkTail (T : ConstantTags) (self : Reader LuaChunk) : Reader ChunkTail := do
  let constants ← parseConstants T
  let protos ← parseProtos self
  let sourceLines ← readPodList
  let locals ← parseLocals
  let upvalues ← parseUpvalues
  pure ⟨constants, protos, sourceLines, locals, upvalues⟩

/-- The chunk returned by `parseChunk`, from the values read before and after the constant
count. -/
def LuaChunk.assemble (hd : ChunkHead) (tl : ChunkTail) : LuaChunk :=
  LuaChunk.mk hd.sourceName hd.lineDefined hd.lastLineDefined hd.numUpvalues hd.numParameters
    hd.varargFlags hd.maxStackSize hd.instructions tl.constants tl.protos tl.sourceLines
    tl.locals tl.upvalues

/-- The chunk with its instructions replaced. -/
def LuaChunk.withInstructions : LuaChunk → List LuaInstruction → LuaChunk
  | .mk sourceName lineDefined lastLineDefined numUpvalues numParameters varargFlags
      maxStackSize _ constants protos sourceLines locals upvalues, is =>
    .mk sourceName lineDefined lastLineDefined numUpvalues numParameters varargFlags
      maxStackSize is constants protos sourceLines locals upvalues

/-- The outcome with its value, if any, changed by `f`. -/
def Outcome.map {α β : Type} (f : α → β) : Outcome α → Outcome β
  | .ok a next => .ok (f a) next
  | .throws e => .throws e
  | .outOfBounds reached => .outOfBounds reached
  | .invalidBool byte => .invalidBool byte
  | .outOfFuel => .outOfFuel

/-- The encoding of `sampleTree` with its two instruction words replaced by `FF FF FF FF` (the
opcode field 63 names no Lua 5.1 opcode) and `00 00 00 00`. -/
def patchedSample : List Byte :=
  (encodeFile lua51Tags sampleTree).take 35 ++
    [0xFF, 0xFF, 0xFF, 0xFF, 0x00, 0x00, 0x00, 0x00] ++
    (encodeFile lua51Tags sampleTree).drop 43

/-- The elements built by `func` from the `n` 4-byte words of `data` that start at `start`. -/
def wordsAt {α : Type} (func : Nat → α) (data : List Byte) : Nat → Nat → List α
  | _, 0 => []
  | start, n + 1 => func (leValue ((data.drop start).take 4)) :: wordsAt func data (start + 4) n

/-! # Theorems -/

/-! ## Sequencing -/

theorem Reader.bind_apply {α β : Type} (r : Reader α) (f : α → Reader β) (data : List Byte)
    (pos : Nat) : (r >>= f) data pos = Reader.bind r f data pos := rfl

theorem Reader.pure_apply {α : Type} (a : α) (data : List Byte) (pos : Nat) :
    (Pure.pure a : Reader α) data pos = .ok a pos := rfl

theorem Reader.bind_ok {α β : Type} {r : Reader α} {f : α → Reader β} {data : List Byte}
    {pos : Nat} {a : α} {next : Nat} (h : r data pos = .ok a next) :
    (r >>= f) data pos = f a data next := by
  simp [Reader.bind_apply, Reader.bind, h]

theorem Reader.bind_throws {α β : Type} {r : Reader α} {f : α → Reader β} {data : List Byte}
    {pos : Nat} {e : ParseError} (h : r data pos = .throws e) :
    (r >>= f) data pos = .throws e := by
  simp [Reader.bind_apply, Reader.bind, h]

theorem Reader.bind_outOfBounds {α β : Type} {r : Reader α} {f : α → Reader β}
    {data : List Byte} {pos : Nat} {q : Nat} (h : r data pos = .outOfBounds q) :
    (r >>= f) data pos = .outOfBounds q := by
  simp [Reader.bind_apply, Reader.bind, h]

theorem Reader.bind_invalidBool {α β : Type} {r : Reader α} {f : α → Reader β}
    {data : List Byte} {pos : Nat} {b : Byte} (h : r data pos = .invalidBool b) :
    (r >>= f) data pos = .invalidBool b := by
  simp [Reader.bind_apply, Reader.bind, h]

theorem Reader.bind_outOfFuel {α β : Type} {r : Reader α} {f : α → Reader β}
    {data : List Byte} {pos : Nat} (h : r data pos = .outOfFuel) :
    (r >>= f) data pos = .outOfFuel := by
  simp [Reader.bind_apply, Reader.bind, h]

/-- A sequence returns only if its first statement returns and the rest returns. -/
theorem Reader.bind_eq_ok {α β : Type} {r : Reader α} {f : α → Reader β} {data : List Byte}
    {pos : Nat} {b : β} {next : Nat} (h : (r >>= f) data pos = .ok b next) :
    ∃ a mid, r data pos = .ok a mid ∧ f a data mid = .ok b next := by
  rw [Reader.bind_apply, Reader.bind] at h
  cases hr : r data pos with
  | ok a mid => rw [hr] at h; exact ⟨a, mid, rfl, h⟩
  | throws e => rw [hr] at h; cases h
  | outOfBounds q => rw [hr] at h; cases h
  | invalidBool b => rw [hr] at h; cases h
  | outOfFuel => rw [hr] at h; cases h

theorem Reader.bind_assoc {α β γ : Type} (r : Reader α) (f : α → Reader β)
    (g : β → Reader γ) : (r >>= f) >>= g = r >>= fun a => f a >>= g := by
  funext data pos
  cases hr : r data pos with
  | ok a mid => rw [Reader.bind_ok hr, Reader.bind_apply, Reader.bind, Reader.bind_ok hr]; rfl
  | throws e => rw [Reader.bind_throws hr, Reader.bind_throws (Reader.bind_throws hr)]
  | outOfBounds q =>
    rw [Reader.bind_outOfBounds hr, Reader.bind_outOfBounds (Reader.bind_outOfBounds hr)]
  | invalidBool b =>
    rw [Reader.bind_invalidBool hr, Reader.bind_invalidBool (Reader.bind_invalidBool hr)]
  | outOfFuel => rw [Reader.bind_outOfFuel hr, Reader.bind_outOfFuel (Reader.bind_outOfFuel hr)]

theorem Reader.pure_bind {α β : Type} (a : α) (f : α → Reader β) :
    (Pure.pure a : Reader α) >>= f = f a := rfl

/-! ## Soundness of the reads -/

theorem sound_pure {α : Type} (a : α) : Reader.Sound (Pure.pure a : Reader α) where
  advance := by
    intro data pos v next h
    rw [Reader.pure_apply] at h; cases h; exact Nat.le_refl _
  inBounds := by
    intro data pos v next h hp
    rw [Reader.pure_apply] at h; cases h; exact hp
  extend := by
    intro data pos v next h data' _
    rw [Reader.pure_apply] at h; cases h; rfl
  truncate := by
    intro data pos v next h k h1 h2
    rw [Reader.pure_apply] at h; cases h; omega

theorem sound_throw {α : Type} (e : ParseError) :
    Reader.Sound (Reader.throw e : Reader α) where
  advance := by intro data pos v next h; cases h
  inBounds := by intro data pos v next h; cases h
  extend := by intro data pos v next h; cases h
  truncate := by intro data pos v next h; cases h

theorem sound_invalidBool {α : Type} (b : Byte) :
    Reader.Sound (Reader.invalidBool b : Reader α) where
  advance := by intro data pos v next h; cases h
  inBounds := by intro data pos v next h; cases h
  extend := by intro data pos v next h; cases h
  truncate := by intro data pos v next h; cases h

theorem sound_bind {α β : Type} {r : Reader α} {f : α → Reader β}
    (hr : Reader.Sound r) (hf : ∀ a, Reader.Sound (f a)) : Reader.Sound (r >>= f) where
  advance := by
    intro data pos v next h
    obtain ⟨a, mid, h1, h2⟩ := Reader.bind_eq_ok h
    exact Nat.le_trans (hr.advance _ _ _ _ h1) ((hf a).advance _ _ _ _ h2)
  inBounds := by
    intro data pos v next h hp
    obtain ⟨a, mid, h1, h2⟩ := Reader.bind_eq_ok h
    exact (hf a).inBounds _ _ _ _ h2 (hr.inBounds _ _ _ _ h1 hp)
  extend := by
    intro data pos v next h data' hd
    obtain ⟨a, mid, h1, h2⟩ := Reader.bind_eq_ok h
    have hmid : mid ≤ next := (hf a).advance _ _ _ _ h2
    have hd1 : data'.take mid = data.take mid := by
      have := congrArg (List.take mid) hd
      simpa [List.take_take, Nat.min_eq_left hmid] using this
    rw [Reader.bind_ok (hr.extend _ _ _ _ h1 data' hd1)]
    exact (hf a).extend _ _ _ _ h2 data' hd
  truncate := by
    intro data pos v next h k hk1 hk2
    obtain ⟨a, mid, h1, h2⟩ := Reader.bind_eq_ok h
    by_cases hkm : k < mid
    · obtain ⟨q, hq, hq2⟩ := hr.truncate _ _ _ _ h1 k hk1 hkm
      exact ⟨q, hq, Reader.bind_outOfBounds hq2⟩
    · have hmk : mid ≤ k := Nat.le_of_not_lt hkm
      have hd1 : (data.take k).take mid = data.take mid := by
        simp [List.take_take, Nat.min_eq_left hmk]
      rw [Reader.bind_ok (hr.extend _ _ _ _ h1 _ hd1)]
      exact (hf a).truncate _ _ _ _ h2 k hmk hk2

theorem sound_ite {α : Type} {c : Prop} [Decidable c] {r1 r2 : Reader α}
    (h1 : Reader.Sound r1) (h2 : Reader.Sound r2) : Reader.Sound (if c then r1 else r2) := by
  split
  · exact h1
  · exact h2

theorem sound_readPod (w : Nat) : Reader.Sound (readPod w) where
  advance := by
    intro data pos v next h
    unfold Konfet.readPod at h
    split at h
    · cases h; omega
    · cases h
  inBounds := by
    intro data pos v next h _
    unfold Konfet.readPod at h
    split at h
    · cases h; assumption
    · cases h
  extend := by
    intro data pos v next h data' hd
    unfold Konfet.readPod at h ⊢
    split at h
    · rename_i hle
      cases h
      have hlen : pos + w ≤ data'.length := by
        have := congrArg List.length hd
        simp only [List.length_take] at this
        omega
      rw [if_pos hlen]
      have e1 : ∀ l : List Byte, (l.drop pos).take w = (l.take (pos + w)).drop pos := by
        intro l; rw [List.drop_take]; simp
      rw [e1, e1, hd]
    · cases h
  truncate := by
    intro data pos v next h k hk1 hk2
    unfold Konfet.readPod at h ⊢
    split at h
    · cases h
      refine ⟨pos + w, hk2, ?_⟩
      rw [if_neg]
      simp only [List.length_take]
      omega
    · cases h

theorem sound_readBytes (len : Nat) : Reader.Sound (readBytes len) :=
  sound_readPod len

theorem sound_readChar : Reader.Sound readChar where
  advance := by
    intro data pos v next h
    unfold Konfet.readChar at h
    split at h
    · cases h; omega
    · cases h
  inBounds := by
    intro data pos v next h _
    unfold Konfet.readChar at h
    split at h
    · rename_i c hc
      cases h
      have := (List.get?_eq_some.mp hc).1
      omega
    · cases h
  extend := by
    intro data pos v next h data' hd
    unfold Konfet.readChar at h ⊢
    split at h
    · rename_i c hc
      cases h
      have e1 : ∀ l : List Byte, l.get? pos = (l.take (pos + 1)).get? pos := by
        intro l; simp [List.getElem?_take]
      rw [e1, hd, ← e1, hc]
    · cases h
  truncate := by
    intro data pos v next h k hk1 hk2
    unfold Konfet.readChar at h ⊢
    split at h
    · cases h
      have hk : k = pos := by omega
      subst hk
      refine ⟨k + 1, hk2, ?_⟩
      have : (List.take k data).get? k = none := by
        simp [List.getElem?_take]
      rw [this]
    · cases h

theorem sound_repeatRead {α : Type} {body : Reader α} (hb : Reader.Sound body)
    (n : Nat) : Reader.Sound (repeatRead body n) := by
  induction n with
  | zero => exact sound_pure _
  | succ n ih =>
    exact sound_bind hb (fun x => sound_bind ih (fun xs => sound_pure _))

theorem sound_forCount {α : Type} {body : Reader α} (hb : Reader.Sound body)
    (size : Int) : Reader.Sound (forCount size body) :=
  sound_repeatRead hb _

theorem readPod_eq_ok {w : Nat} {data : List Byte} {pos : Nat} {v : List Byte} {next : Nat}
    (h : readPod w data pos = .ok v next) :
    pos + w ≤ data.length ∧ v = (data.drop pos).take w ∧ next = pos + w := by
  unfold readPod at h
  split at h
  · rename_i hle
    cases h
    exact ⟨hle, rfl, rfl⟩
  · cases h

theorem readPod_of_le {w : Nat} {data : List Byte} {pos : Nat} (h : pos + w ≤ data.length) :
    readPod w data pos = .ok ((data.drop pos).take w) (pos + w) := by
  unfold readPod
  rw [if_pos h]

theorem readPod_of_lt {w : Nat} {data : List Byte} {pos : Nat} (h : data.length < pos + w) :
    readPod w data pos = .outOfBounds (pos + w) := by
  unfold readPod
  rw [if_neg (by omega)]

theorem sound_readPodUInt8 : Reader.Sound readPodUInt8 :=
  sound_bind (sound_readPod 1) (fun _ => sound_pure _)

theorem sound_readPodUInt32 : Reader.Sound readPodUInt32 :=
  sound_bind (sound_readPod 4) (fun _ => sound_pure _)

theorem sound_readPodInt : Reader.Sound readPodInt :=
  sound_bind (sound_readPod 4) (fun _ => sound_pure _)

theorem sound_readPodBool : Reader.Sound readPodBool :=
  sound_bind (sound_readPod 1)
    (fun _ => sound_ite (sound_pure _) (sound_ite (sound_pure _) (sound_invalidBool _)))

theorem sound_readPodDouble : Reader.Sound readPodDouble :=
  sound_bind (sound_readPod 8) (fun _ => sound_pure _)

theorem sound_readPodConstantType : Reader.Sound readPodConstantType :=
  sound_bind (sound_readPod 1) (fun _ => sound_pure _)

theorem sound_readLuaString : Reader.Sound readLuaString :=
  sound_bind sound_readPodUInt32
    (fun _ => sound_repeatRead sound_readChar _)

theorem sound_readPodList : Reader.Sound readPodList :=
  sound_bind sound_readPodInt
    (fun _ => sound_forCount sound_readPodInt _)

theorem sound_readList {α : Type} (func : Nat → α) : Reader.Sound (readList func) :=
  sound_bind sound_readPodInt
    (fun _ => sound_forCount
      (sound_bind sound_readPodUInt32 (fun _ => sound_pure _)) _)

theorem sound_parseHeader : Reader.Sound parseHeader := by
  unfold Konfet.parseHeader
  repeat' first
    | exact sound_pure _
    | exact sound_readBytes _
    | exact sound_readPodUInt8
    | refine sound_bind ?_ (fun _ => ?_)

theorem sound_parseConstant (T : ConstantTags) : Reader.Sound (parseConstant T) := by
  unfold Konfet.parseConstant
  repeat' first
    | exact sound_pure _
    | exact sound_throw _
    | exact sound_readPodConstantType
    | exact sound_readPodBool
    | exact sound_readPodDouble
    | exact sound_readLuaString
    | refine sound_ite ?_ ?_
    | refine sound_bind ?_ (fun _ => ?_)

theorem sound_parseConstants (T : ConstantTags) : Reader.Sound (parseConstants T) :=
  sound_bind sound_readPodInt
    (fun _ => sound_forCount (sound_parseConstant T) _)

theorem sound_parseProtos {self : Reader LuaChunk} (hs : Reader.Sound self) :
    Reader.Sound (parseProtos self) :=
  sound_bind sound_readPodInt (fun _ => sound_forCount hs _)

theorem sound_parseLocal : Reader.Sound parseLocal := by
  unfold Konfet.parseLocal
  repeat' first
    | exact sound_pure _
    | exact sound_readPodUInt32
    | exact sound_readLuaString
    | refine sound_bind ?_ (fun _ => ?_)

theorem sound_parseLocals : Reader.Sound parseLocals :=
  sound_bind sound_readPodInt
    (fun _ => sound_forCount sound_parseLocal _)

theorem sound_parseUpvalues : Reader.Sound parseUpvalues :=
  sound_bind sound_readPodInt
    (fun _ => sound_forCount sound_readLuaString _)

theorem sound_parseChunkWith (T : ConstantTags) {self : Reader LuaChunk}
    (hs : Reader.Sound self) : Reader.Sound (parseChunkWith T self) := by
  unfold Konfet.parseChunkWith
  repeat' first
    | exact sound_pure _
    | exact sound_readLuaString
    | exact sound_readPodInt
    | exact sound_readPodUInt8
    | exact sound_readList _
    | exact sound_parseConstants T
    | exact sound_parseProtos hs
    | exact sound_readPodList
    | exact sound_parseLocals
    | exact sound_parseUpvalues
    | refine sound_bind ?_ (fun _ => ?_)

theorem sound_parseChunk (T : ConstantTags) (fuel : Nat) :
    Reader.Sound (parseChunk T fuel) := by
  induction fuel with
  | zero =>
    exact ⟨fun _ _ _ _ h => (by cases h), fun _ _ _ _ h => (by cases h),
      fun _ _ _ _ h => (by cases h), fun _ _ _ _ h => (by cases h)⟩
  | succ fuel ih => exact sound_parseChunkWith T ih

/-! ## Fuel -/

theorem fuelLe_refl {α : Type} (r : Reader α) : Reader.FuelLe r r :=
  fun _ _ => Or.inr rfl

theorem fuelLe_trans {α : Type} {r1 r2 r3 : Reader α} (h12 : Reader.FuelLe r1 r2)
    (h23 : Reader.FuelLe r2 r3) : Reader.FuelLe r1 r3 := by
  intro data pos
  rcases h12 data pos with h | h
  · exact Or.inl h
  · rcases h23 data pos with h2 | h2
    · exact Or.inl (by rw [← h, h2])
    · exact Or.inr (by rw [h2, h])

theorem fuelLe_bind {α β : Type} {r1 r2 : Reader α} {f1 f2 : α → Reader β}
    (hr : Reader.FuelLe r1 r2) (hf : ∀ a, Reader.FuelLe (f1 a) (f2 a)) :
    Reader.FuelLe (r1 >>= f1) (r2 >>= f2) := by
  intro data pos
  rcases hr data pos with h | h
  · exact Or.inl (Reader.bind_outOfFuel h)
  · cases h1 : r1 data pos with
    | ok a mid =>
      rw [h1] at h
      rw [Reader.bind_ok h1, Reader.bind_ok h]
      exact hf a data mid
    | throws e =>
      rw [h1] at h
      rw [Reader.bind_throws h1, Reader.bind_throws h]
      exact Or.inr rfl
    | outOfBounds q =>
      rw [h1] at h
      rw [Reader.bind_outOfBounds h1, Reader.bind_outOfBounds h]
      exact Or.inr rfl
    | invalidBool b =>
      rw [h1] at h
      rw [Reader.bind_invalidBool h1, Reader.bind_invalidBool h]
      exact Or.inr rfl
    | outOfFuel => exact Or.inl (Reader.bind_outOfFuel h1)

theorem fuelLe_repeatRead {α : Type} {b1 b2 : Reader α} (hb : Reader.FuelLe b1 b2)
    (n : Nat) : Reader.FuelLe (repeatRead b1 n) (repeatRead b2 n) := by
  induction n with
  | zero => exact fuelLe_refl _
  | succ n ih =>
    exact fuelLe_bind hb (fun x => fuelLe_bind ih (fun xs => fuelLe_refl _))

theorem fuelLe_parseProtos {s1 s2 : Reader LuaChunk} (hs : Reader.FuelLe s1 s2) :
    Reader.FuelLe (parseProtos s1) (parseProtos s2) :=
  fuelLe_bind (fuelLe_refl _) (fun _ => fuelLe_repeatRead hs _)

theorem fuelLe_parseChunkWith (T : ConstantTags) {s1 s2 : Reader LuaChunk}
    (hs : Reader.FuelLe s1 s2) :
    Reader.FuelLe (parseChunkWith T s1) (parseChunkWith T s2) := by
  unfold Konfet.parseChunkWith
  repeat' first
    | with_reducible exact fuelLe_refl _
    | exact fuelLe_parseProtos hs
    | refine fuelLe_bind ?_ (fun _ => ?_)

theorem parseChunk_fuel_succ (T : ConstantTags) (fuel : Nat) :
    Reader.FuelLe (parseChunk T fuel) (parseChunk T (fuel + 1)) := by
  induction fuel with
  | zero => exact fun _ _ => Or.inl rfl
  | succ fuel ih => exact fuelLe_parseChunkWith T ih

/-- More fuel does not change what `parseChunk` does, once it has enough. -/
theorem parseChunk_fuel_mono (T : ConstantTags) {f1 f2 : Nat} (h : f1 ≤ f2) :
    Reader.FuelLe (parseChunk T f1) (parseChunk T f2) := by
  induction f2 with
  | zero =>
    have : f1 = 0 := by omega
    subst this
    exact fuelLe_refl _
  | succ f2 ih =>
    by_cases h2 : f1 ≤ f2
    · exact fuelLe_trans (ih h2) (parseChunk_fuel_succ T f2)
    · have : f1 = f2 + 1 := by omega
      subst this
      exact fuelLe_refl _

theorem fueled_mono_lo {α : Type} {r : Reader α} {data : List Byte} {lo lo' : Nat}
    (h : lo ≤ lo') (hr : Reader.Fueled r data lo) : Reader.Fueled r data lo' :=
  fun pos h1 h2 => hr pos (Nat.le_trans h h1) h2

theorem fueled_bind_of {α β : Type} {r : Reader α} {f : α → Reader β}
    {data : List Byte} {lo lo' : Nat} (hr : Reader.Fueled r data lo)
    (hadv : ∀ (pos : Nat) (v : α) (next : Nat), lo ≤ pos → pos ≤ data.length →
      r data pos = .ok v next → lo' ≤ next ∧ next ≤ data.length)
    (hf : ∀ a, Reader.Fueled (f a) data lo') : Reader.Fueled (r >>= f) data lo := by
  intro pos h1 h2
  cases h : r data pos with
  | ok a mid =>
    rw [Reader.bind_ok h]
    obtain ⟨h3, h4⟩ := hadv pos a mid h1 h2 h
    exact hf a mid h3 h4
  | throws e => rw [Reader.bind_throws h]; exact fun h => by cases h
  | outOfBounds q => rw [Reader.bind_outOfBounds h]; exact fun h => by cases h
  | invalidBool b => rw [Reader.bind_invalidBool h]; exact fun h => by cases h
  | outOfFuel => exact absurd h (hr pos h1 h2)

theorem fueled_bind {α β : Type} {r : Reader α} {f : α → Reader β}
    {data : List Byte} {lo : Nat} (hr : Reader.Fueled r data lo) (hs : Reader.Sound r)
    (hf : ∀ a, Reader.Fueled (f a) data lo) : Reader.Fueled (r >>= f) data lo :=
  fueled_bind_of hr
    (fun _ _ _ h1 h2 h =>
      ⟨Nat.le_trans h1 (hs.advance _ _ _ _ h), hs.inBounds _ _ _ _ h h2⟩) hf

theorem fueled_pure {α : Type} (a : α) (data : List Byte) (lo : Nat) :
    Reader.Fueled (Pure.pure a : Reader α) data lo :=
  fun _ _ _ h => by cases h

theorem fueled_throw {α : Type} (e : ParseError) (data : List Byte) (lo : Nat) :
    Reader.Fueled (Reader.throw e : Reader α) data lo :=
  fun _ _ _ h => by cases h

theorem fueled_invalidBool {α : Type} (b : Byte) (data : List Byte) (lo : Nat) :
    Reader.Fueled (Reader.invalidBool b : Reader α) data lo :=
  fun _ _ _ h => by cases h

theorem fueled_ite {α : Type} {c : Prop} [Decidable c] {r1 r2 : Reader α}
    {data : List Byte} {lo : Nat} (h1 : Reader.Fueled r1 data lo)
    (h2 : Reader.Fueled r2 data lo) : Reader.Fueled (if c then r1 else r2) data lo := by
  split
  · exact h1
  · exact h2

theorem fueled_readPod (w : Nat) (data : List Byte) (lo : Nat) :
    Reader.Fueled (readPod w) data lo := by
  intro pos _ _ h
  unfold Konfet.readPod at h
  split at h <;> cases h

theorem fueled_readChar (data : List Byte) (lo : Nat) :
    Reader.Fueled readChar data lo := by
  intro pos _ _ h
  unfold Konfet.readChar at h
  split at h <;> cases h

theorem fueled_repeatRead {α : Type} {body : Reader α} {data : List Byte} {lo : Nat}
    (hb : Reader.Fueled body data lo) (hs : Reader.Sound body) (n : Nat) :
    Reader.Fueled (repeatRead body n) data lo := by
  induction n with
  | zero => exact fueled_pure _ _ _
  | succ n ih =>
    exact fueled_bind hb hs
      (fun x => fueled_bind ih (sound_repeatRead hs n)
        (fun xs => fueled_pure _ _ _))

theorem fueled_readPodUInt8 (data : List Byte) (lo : Nat) :
    Reader.Fueled readPodUInt8 data lo :=
  fueled_bind (fueled_readPod 1 _ _) (sound_readPod 1)
    (fun _ => fueled_pure _ _ _)

theorem fueled_readPodUInt32 (data : List Byte) (lo : Nat) :
    Reader.Fueled readPodUInt32 data lo :=
  fueled_bind (fueled_readPod 4 _ _) (sound_readPod 4)
    (fun _ => fueled_pure _ _ _)

theorem fueled_readPodInt (data : List Byte) (lo : Nat) :
    Reader.Fueled readPodInt data lo :=
  fueled_bind (fueled_readPod 4 _ _) (sound_readPod 4)
    (fun _ => fueled_pure _ _ _)

theorem fueled_readPodBool (data : List Byte) (lo : Nat) :
    Reader.Fueled readPodBool data lo :=
  fueled_bind (fueled_readPod 1 _ _) (sound_readPod 1)
    (fun _ => fueled_ite (fueled_pure _ _ _)
      (fueled_ite (fueled_pure _ _ _) (fueled_invalidBool _ _ _)))

theorem fueled_readPodDouble (data : List Byte) (lo : Nat) :
    Reader.Fueled readPodDouble data lo :=
  fueled_bind (fueled_readPod 8 _ _) (sound_readPod 8)
    (fun _ => fueled_pure _ _ _)

theorem fueled_readPodConstantType (data : List Byte) (lo : Nat) :
    Reader.Fueled readPodConstantType data lo :=
  fueled_bind (fueled_readPod 1 _ _) (sound_readPod 1)
    (fun _ => fueled_pure _ _ _)

theorem fueled_readLuaString (data : List Byte) (lo : Nat) :
    Reader.Fueled readLuaString data lo :=
  fueled_bind (fueled_readPodUInt32 _ _) sound_readPodUInt32
    (fun _ => fueled_repeatRead (fueled_readChar _ _) sound_readChar _)

theorem fueled_readPodList (data : List Byte) (lo : Nat) :
    Reader.Fueled readPodList data lo :=
  fueled_bind (fueled_readPodInt _ _) sound_readPodInt
    (fun _ => fueled_repeatRead (fueled_readPodInt _ _) sound_readPodInt _)

theorem fueled_readList {α : Type} (func : Nat → α) (data : List Byte) (lo : Nat) :
    Reader.Fueled (readList func) data lo :=
  fueled_bind (fueled_readPodInt _ _) sound_readPodInt
    (fun _ => fueled_repeatRead
      (fueled_bind (fueled_readPodUInt32 _ _) sound_readPodUInt32
        (fun _ => fueled_pure _ _ _))
      (sound_bind sound_readPodUInt32 (fun _ => sound_pure _)) _)

theorem fueled_parseConstant (T : ConstantTags) (data : List Byte) (lo : Nat) :
    Reader.Fueled (parseConstant T) data lo := by
  unfold Konfet.parseConstant
  repeat' first
    | exact fueled_pure _ _ _
    | exact fueled_throw _ _ _
    | exact fueled_readPodConstantType _ _
    | exact fueled_readPodBool _ _
    | exact fueled_readPodDouble _ _
    | exact fueled_readLuaString _ _
    | exact sound_readPodConstantType
    | exact sound_readPodBool
    | exact sound_readPodDouble
    | exact sound_readLuaString
    | refine fueled_ite ?_ ?_
    | refine fueled_bind ?_ ?_ (fun _ => ?_)

theorem fueled_parseConstants (T : ConstantTags) (data : List Byte) (lo : Nat) :
    Reader.Fueled (parseConstants T) data lo :=
  fueled_bind (fueled_readPodInt _ _) sound_readPodInt
    (fun _ => fueled_repeatRead (fueled_parseConstant T _ _)
      (sound_parseConstant T) _)

theorem fueled_parseProtos {self : Reader LuaChunk} {data : List Byte} {lo : Nat}
    (hf : Reader.Fueled self data lo) (hs : Reader.Sound self) :
    Reader.Fueled (parseProtos self) data lo :=
  fueled_bind (fueled_readPodInt _ _) sound_readPodInt
    (fun _ => fueled_repeatRead hf hs _)

theorem fueled_parseLocal (data : List Byte) (lo : Nat) :
    Reader.Fueled parseLocal data lo := by
  unfold Konfet.parseLocal
  repeat' first
    | exact fueled_pure _ _ _
    | exact fueled_readPodUInt32 _ _
    | exact fueled_readLuaString _ _
    | exact sound_readPodUInt32
    | exact sound_readLuaString
    | refine fueled_bind ?_ ?_ (fun _ => ?_)

theorem fueled_parseLocals (data : List Byte) (lo : Nat) :
    Reader.Fueled parseLocals data lo :=
  fueled_bind (fueled_readPodInt _ _) sound_readPodInt
    (fun _ => fueled_repeatRead (fueled_parseLocal _ _) sound_parseLocal _)

theorem fueled_parseUpvalues (data : List Byte) (lo : Nat) :
    Reader.Fueled parseUpvalues data lo :=
  fueled_bind (fueled_readPodInt _ _) sound_readPodInt
    (fun _ => fueled_repeatRead (fueled_readLuaString _ _)
      sound_readLuaString _)

/-- A string takes at least the four bytes of its length. -/
theorem readLuaString_advance {data : List Byte} {pos : Nat} {v : List Byte} {next : Nat}
    (h : readLuaString data pos = .ok v next) : pos + 4 ≤ next := by
  obtain ⟨len, mid, h1, h2⟩ := Reader.bind_eq_ok h
  obtain ⟨obj, mid2, h3, h4⟩ := Reader.bind_eq_ok h1
  rw [Reader.pure_apply] at h4
  cases h4
  have := (readPod_eq_ok h3).2.2
  have := (sound_repeatRead sound_readChar _).advance _ _ _ _ h2
  omega

theorem fueled_parseChunkWith (T : ConstantTags) {self : Reader LuaChunk}
    {data : List Byte} {lo : Nat} (hf : Reader.Fueled self data (lo + 4))
    (hs : Reader.Sound self) : Reader.Fueled (parseChunkWith T self) data lo := by
  unfold Konfet.parseChunkWith
  refine fueled_bind_of (fueled_readLuaString _ _)
    (fun pos v next h1 h2 h => ⟨Nat.le_trans (Nat.add_le_add_right h1 4)
      (readLuaString_advance h), sound_readLuaString.inBounds _ _ _ _ h h2⟩)
    (fun _ => ?_)
  repeat' first
    | exact fueled_pure _ _ _
    | exact fueled_readPodInt _ _
    | exact fueled_readPodUInt8 _ _
    | exact fueled_readList _ _ _
    | exact fueled_parseConstants T _ _
    | exact fueled_parseProtos hf hs
    | exact fueled_readPodList _ _
    | exact fueled_parseLocals _ _
    | exact fueled_parseUpvalues _ _
    | exact sound_readPodInt
    | exact sound_readPodUInt8
    | exact sound_readList _
    | exact sound_parseConstants T
    | exact sound_parseProtos hs
    | exact sound_readPodList
    | exact sound_parseLocals
    | exact sound_parseUpvalues
    | refine fueled_bind ?_ ?_ (fun _ => ?_)

theorem parseChunk_fueled (T : ConstantTags) (data : List Byte) (fuel : Nat) :
    Reader.Fueled (parseChunk T fuel) data (data.length + 1 - fuel) := by
  induction fuel with
  | zero => intro pos h1 h2; omega
  | succ fuel ih =>
    exact fueled_parseChunkWith T (fueled_mono_lo (by omega) ih)
      (sound_parseChunk T fuel)

/-- The fuel is never used up when it exceeds the number of bytes left: every nested call of
`parseChunk` is made after at least four more bytes have been consumed. -/
theorem parseChunk_fuel_enough (T : ConstantTags) (data : List Byte) (fuel pos : Nat)
    (hpos : pos ≤ data.length) (hfuel : data.length < pos + fuel) :
    parseChunk T fuel data pos ≠ .outOfFuel :=
  parseChunk_fueled T data fuel pos (by omega) hpos

/-- With enough fuel for the bytes left, the result is that of every larger fuel. -/
theorem parseChunk_fuel_irrelevant (T : ConstantTags) (data : List Byte) (f1 f2 pos : Nat)
    (hpos : pos ≤ data.length) (h1 : data.length < pos + f1) (h2 : data.length < pos + f2) :
    parseChunk T f1 data pos = parseChunk T f2 data pos := by
  rcases Nat.le_total f1 f2 with h | h
  · rcases parseChunk_fuel_mono T h data pos with h3 | h3
    · exact absurd h3 (parseChunk_fuel_enough T data f1 pos hpos h1)
    · exact h3.symm
  · rcases parseChunk_fuel_mono T h data pos with h3 | h3
    · exact absurd h3 (parseChunk_fuel_enough T data f2 pos hpos h2)
    · exact h3

/-! ## The header gate -/

theorem parseHeader_of_le (data : List Byte) (h : 12 ≤ data.length) :
    ∃ hdr, parseHeader data 0 = .ok hdr 12 ∧ hdr.bytes = data.take 12 := by
  rcases data with _ | ⟨b0, _ | ⟨b1, _ | ⟨b2, _ | ⟨b3, _ | ⟨b4, _ | ⟨b5, _ | ⟨b6, _ | ⟨b7,
    _ | ⟨b8, _ | ⟨b9, _ | ⟨b10, _ | ⟨b11, rest⟩⟩⟩⟩⟩⟩⟩⟩⟩⟩⟩⟩ <;>
    simp only [List.length_cons, List.length_nil] at h <;> try omega
  refine ⟨⟨[b0, b1, b2, b3], b4, b5, b6, b7, b8, b9, b10, b11⟩, ?_, rfl⟩
  simp [parseHeader, readPodUInt8, Reader.bind_apply, Reader.bind, readBytes, readPod,
    Reader.pure_apply]

theorem ParseWithFuel_eq (T : ConstantTags) (fuel : Nat) (data : List Byte)
    (h : 12 ≤ data.length) :
    ParseWithFuel T fuel data 0 =
      if data.take 12 = supportedHeader.bytes then parseChunk T fuel data 12
      else .throws ParseError.unsupportedHeader := by
  obtain ⟨hdr, h1, h2⟩ := parseHeader_of_le data h
  unfold ParseWithFuel
  rw [Reader.bind_ok h1, h2]
  by_cases hc : data.take 12 = supportedHeader.bytes
  · simp [hc]
  · simp [hc, Reader.throw]

/-- C1: on a buffer of at least 12 bytes, `Parse` goes on to `parseChunk` at offset 12 when the
first 12 bytes are those of the supported header, and throws "unsupported Lua header" for every
other 12-byte prefix, whatever follows. -/
theorem Parse_header_gate (T : ConstantTags) (data : List Byte) (h : 12 ≤ data.length) :
    (data.take 12 = [0x1B, 0x4C, 0x75, 0x61, 0x51, 0x00, 0x01, 0x04, 0x04, 0x04, 0x08, 0x00] →
      Parse T data = parseChunk T data.length data 12) ∧
    (data.take 12 ≠ [0x1B, 0x4C, 0x75, 0x61, 0x51, 0x00, 0x01, 0x04, 0x04, 0x04, 0x08, 0x00] →
      Parse T data = .throws ParseError.unsupportedHeader) := by
  have hs : supportedHeader.bytes =
      [0x1B, 0x4C, 0x75, 0x61, 0x51, 0x00, 0x01, 0x04, 0x04, 0x04, 0x08, 0x00] := rfl
  unfold Parse
  rw [ParseWithFuel_eq T _ data h, hs]
  constructor
  · intro hc; rw [if_pos hc]
  · intro hc; rw [if_neg hc]

theorem Parse_header_gate_witness :
    Parse lua51Tags minimalChunk = parseChunk lua51Tags minimalChunk.length minimalChunk 12 ∧
    Parse lua51Tags wrongVersionChunk = .throws ParseError.unsupportedHeader :=
  ⟨(Parse_header_gate lua51Tags minimalChunk (by decide)).1 (by decide),
   (Parse_header_gate lua51Tags wrongVersionChunk (by decide)).2 (by decide)⟩

/-! ## The minimal chunk -/

/-- C6: `Parse` on the 52-byte buffer of the minimal chunk returns a root chunk with an empty
source name, both line fields 0, numUpvalues 0, numParameters 0, varargFlags 2, maxStackSize 2
and six empty sequences, having consumed the 52 bytes. -/
theorem Parse_minimalChunk (T : ConstantTags) :
    minimalChunk.length = 52 ∧
    Parse T minimalChunk = .ok (LuaChunk.mk [] 0 0 0 0 2 2 [] [] [] [] [] []) 52 :=
  ⟨rfl, rfl⟩

/-! ## Negative counts -/

theorem forCount_of_neg {α : Type} (body : Reader α) {n : Int} (hn : n < 0) :
    forCount n body = Pure.pure [] := by
  unfold forCount
  rw [Int.toNat_eq_zero.mpr (Int.le_of_lt hn)]
  rfl

/-- C4 (as stated, refuted): on `negativeCountsChunk` each of the six counts is the `int` -1,
and `Parse` succeeds with six empty lists. -/
theorem negative_counts_accepted :
    (List.map (fun p => readPodInt negativeCountsChunk p) [28, 32, 36, 40, 44, 48] =
      [.ok (-1) 32, .ok (-1) 36, .ok (-1) 40, .ok (-1) 44, .ok (-1) 48, .ok (-1) 52]) ∧
    Parse lua51Tags negativeCountsChunk =
      .ok (LuaChunk.mk [] 0 0 0 0 2 2 [] [] [] [] [] []) 52 :=
  ⟨rfl, rfl⟩

/-- C4 (amended): when the 4-byte signed count in front of a list is negative, the list is
decoded as empty and the cursor stops just after the count; this holds for the instructions,
the constants, the nested prototypes, the source lines, the locals and the upvalue names. -/
theorem negative_count_is_empty_list (T : ConstantTags) (self : Reader LuaChunk)
    (data : List Byte) (pos : Nat) (n : Int) (next : Nat)
    (hcount : readPodInt data pos = .ok n next) (hneg : n < 0) :
    readList LuaInstruction.mk data pos = .ok [] next ∧
    parseConstants T data pos = .ok [] next ∧
    parseProtos self data pos = .ok [] next ∧
    readPodList data pos = .ok [] next ∧
    parseLocals data pos = .ok [] next ∧
    parseUpvalues data pos = .ok [] next := by
  refine ⟨?_, ?_, ?_, ?_, ?_, ?_⟩
  · unfold readList; rw [Reader.bind_ok hcount, forCount_of_neg _ hneg]; rfl
  · unfold parseConstants; rw [Reader.bind_ok hcount, forCount_of_neg _ hneg]; rfl
  · unfold parseProtos; rw [Reader.bind_ok hcount, forCount_of_neg _ hneg]; rfl
  · unfold readPodList; rw [Reader.bind_ok hcount, forCount_of_neg _ hneg]; rfl
  · unfold parseLocals; rw [Reader.bind_ok hcount, forCount_of_neg _ hneg]; rfl
  · unfold parseUpvalues; rw [Reader.bind_ok hcount, forCount_of_neg _ hneg]; rfl

theorem negative_count_is_empty_list_witness :
    readPodInt negativeCountsChunk 28 = .ok (-1) 32 ∧
    readList LuaInstruction.mk negativeCountsChunk 28 = .ok [] 32 ∧
    parseLocals negativeCountsChunk 28 = .ok [] 32 :=
  have h := negative_count_is_empty_list lua51Tags (parseChunk lua51Tags 0)
    negativeCountsChunk 28 (-1) 32 (by rfl) (by decide)
  ⟨rfl, h.1, h.2.2.2.2.1⟩

/-! ## The instruction indices of a local -/

/-- C7 (as stated, refuted): a raw start index `FF FF FF FF` is stored as 0, not as
4294967296, and the stored difference 1 - 0 is not the raw difference 0 - 4294967295. -/
theorem local_pc_wraps :
    readPodUInt32 wrappingLocal 4 = .ok 4294967295 8 ∧
    readPodUInt32 wrappingLocal 8 = .ok 0 12 ∧
    parseLocal wrappingLocal 0 = .ok ⟨[], 0, 1⟩ 12 ∧
    (0 : Nat) ≠ 4294967295 + 1 ∧
    ((1 : Int) - 0 ≠ 0 - 4294967295) :=
  ⟨rfl, rfl, rfl, by decide, by decide⟩

/-- C7 (amended): a local read from a name and the raw values `rawStart` and `rawEnd`, in this
order, stores `(rawStart + 1) mod 2^32` and `(rawEnd + 1) mod 2^32`; the difference of the
stored indices is the difference of the raw values modulo 2^32, and both indices are the raw
values plus one, with the same difference, when neither raw value is `0xFFFFFFFF`. -/
theorem local_pc_shift (data : List Byte) (pos p1 p2 p3 : Nat) (name : List Byte)
    (rawStart rawEnd : Nat)
    (hname : readLuaString data pos = .ok name p1)
    (hstart : readPodUInt32 data p1 = .ok rawStart p2)
    (hend : readPodUInt32 data p2 = .ok rawEnd p3) :
    ∃ l, parseLocal data pos = .ok l p3 ∧ l.name = name ∧
      l.startPc = (rawStart + 1) % 2 ^ 32 ∧ l.endPc = (rawEnd + 1) % 2 ^ 32 ∧
      ((l.endPc : Int) - l.startPc) % 2 ^ 32 = ((rawEnd : Int) - rawStart) % 2 ^ 32 ∧
      (rawStart < 2 ^ 32 - 1 → rawEnd < 2 ^ 32 - 1 →
        l.startPc = rawStart + 1 ∧ l.endPc = rawEnd + 1 ∧
        (l.endPc : Int) - l.startPc = (rawEnd : Int) - rawStart) := by
  refine ⟨⟨name, (1 + rawStart) % 2 ^ 32, (1 + rawEnd) % 2 ^ 32⟩, ?_, rfl, ?_, ?_, ?_, ?_⟩
  · unfold parseLocal
    rw [Reader.bind_ok hname, Reader.bind_ok hstart, Reader.bind_ok hend]
    rfl
  · show (1 + rawStart) % 2 ^ 32 = (rawStart + 1) % 2 ^ 32
    rw [Nat.add_comm]
  · show (1 + rawEnd) % 2 ^ 32 = (rawEnd + 1) % 2 ^ 32
    rw [Nat.add_comm]
  · show ((((1 + rawEnd) % 2 ^ 32 : Nat) : Int) - (((1 + rawStart) % 2 ^ 32 : Nat) : Int))
      % 2 ^ 32 = ((rawEnd : Int) - rawStart) % 2 ^ 32
    omega
  · intro h1 h2
    show (1 + rawStart) % 2 ^ 32 = rawStart + 1 ∧ (1 + rawEnd) % 2 ^ 32 = rawEnd + 1 ∧
      (((1 + rawEnd) % 2 ^ 32 : Nat) : Int) - (((1 + rawStart) % 2 ^ 32 : Nat) : Int)
        = (rawEnd : Int) - rawStart
    omega

theorem local_pc_shift_witness :
    ∃ l, parseLocal sampleLocal 0 = .ok l 13 ∧ l.name = [0x78] ∧
      l.startPc = (2 + 1) % 2 ^ 32 ∧ l.endPc = (7 + 1) % 2 ^ 32 ∧
      ((l.endPc : Int) - l.startPc) % 2 ^ 32 = (((7 : Nat) : Int) - (2 : Nat)) % 2 ^ 32 ∧
      (2 < 2 ^ 32 - 1 → 7 < 2 ^ 32 - 1 →
        l.startPc = 2 + 1 ∧ l.endPc = 7 + 1 ∧
        (l.endPc : Int) - l.startPc = ((7 : Nat) : Int) - (2 : Nat)) :=
  local_pc_shift sampleLocal 0 5 9 13 [0x78] 2 7 (by rfl) (by rfl) (by rfl)

/-! ## The cursor -/

theorem readChar_of_lt {data : List Byte} {pos : Nat} (h : pos < data.length) :
    readChar data pos = .ok (data.get ⟨pos, h⟩) (pos + 1) := by
  unfold readChar
  rw [List.get?_eq_get h]

theorem readChar_of_le {data : List Byte} {pos : Nat} (h : data.length ≤ pos) :
    readChar data pos = .outOfBounds (pos + 1) := by
  unfold readChar
  rw [List.get?_eq_none.mpr h]

/-- The loop of `readLuaString` returns the next `n` bytes when that many are left. -/
theorem repeatRead_readChar_of_le (data : List Byte) (n pos : Nat)
    (h : pos + n ≤ data.length) :
    repeatRead readChar n data pos = .ok ((data.drop pos).take n) (pos + n) := by
  induction n generalizing pos with
  | zero => simp [repeatRead, Reader.pure_apply]
  | succ n ih =>
    have hlt : pos < data.length := by omega
    unfold repeatRead
    rw [Reader.bind_ok (readChar_of_lt hlt), Reader.bind_ok (ih (pos + 1) (by omega)),
      Reader.pure_apply]
    have e : pos + 1 + n = pos + (n + 1) := by omega
    rw [e, List.drop_eq_getElem_cons hlt, List.take_succ_cons]
    rfl

/-- The loop of `readLuaString` reads past the end when fewer than `n` bytes are left. -/
theorem repeatRead_readChar_of_lt (data : List Byte) (n pos : Nat) (hpos : pos ≤ data.length)
    (h : data.length < pos + n) :
    repeatRead readChar n data pos = .outOfBounds (data.length + 1) := by
  induction n generalizing pos with
  | zero => omega
  | succ n ih =>
    unfold repeatRead
    by_cases hlt : pos < data.length
    · rw [Reader.bind_ok (readChar_of_lt hlt),
        Reader.bind_outOfBounds (ih (pos + 1) (by omega) (by omega))]
    · rw [Reader.bind_outOfBounds (readChar_of_le (by omega))]
      congr 1
      omega

theorem readPodUInt32_eq (data : List Byte) (pos : Nat) :
    readPodUInt32 data pos =
      if pos + 4 ≤ data.length then .ok (leValue ((data.drop pos).take 4)) (pos + 4)
      else .outOfBounds (pos + 4) := by
  unfold readPodUInt32
  split
  · rename_i h
    rw [Reader.bind_ok (readPod_of_le h)]; rfl
  · rename_i h
    rw [Reader.bind_outOfBounds (readPod_of_lt (by omega))]

theorem readPodInt_eq (data : List Byte) (pos : Nat) :
    readPodInt data pos =
      if pos + 4 ≤ data.length then .ok (toInt32 (leValue ((data.drop pos).take 4))) (pos + 4)
      else .outOfBounds (pos + 4) := by
  unfold readPodInt
  split
  · rename_i h
    rw [Reader.bind_ok (readPod_of_le h)]; rfl
  · rename_i h
    rw [Reader.bind_outOfBounds (readPod_of_lt (by omega))]

/-- What `readLuaString` does, by the length declared in the four bytes at the cursor. -/
theorem readLuaString_eq (data : List Byte) (pos : Nat) :
    readLuaString data pos =
      if pos + 4 + leValue ((data.drop pos).take 4) ≤ data.length then
        .ok ((data.drop (pos + 4)).take (leValue ((data.drop pos).take 4)))
          (pos + 4 + leValue ((data.drop pos).take 4))
      else if pos + 4 ≤ data.length then .outOfBounds (data.length + 1)
      else .outOfBounds (pos + 4) := by
  unfold readLuaString
  by_cases h4 : pos + 4 ≤ data.length
  · have h := readPodUInt32_eq data pos
    rw [if_pos h4] at h
    rw [Reader.bind_ok h]
    split
    · rename_i hle
      exact repeatRead_readChar_of_le data _ _ hle
    · rename_i hle
      exact repeatRead_readChar_of_lt data _ _ (by omega) (by omega)
  · have h := readPodUInt32_eq data pos
    rw [if_neg h4] at h
    rw [Reader.bind_outOfBounds h, if_neg (by omega), if_neg h4]

/-- C10 (as stated, refuted): `readPod` of width 1 on the empty buffer, at offset 0, moves the
cursor to offset 1, past the end of the buffer: the read is made with no check. -/
theorem cursor_passes_end :
    readPod 1 ([] : List Byte) 0 = .outOfBounds 1 ∧
    readBytes 4 ([0x1B, 0x4C] : List Byte) 0 = .outOfBounds 4 ∧
    readLuaString ([2, 0, 0, 0, 0x41] : List Byte) 0 = .outOfBounds 6 ∧
    ¬ 1 ≤ ([] : List Byte).length :=
  ⟨rfl, rfl, rfl, by decide⟩

/-- C10 (amended): a read for which enough bytes are left (`w` for `readPod`, `len` for
`readBytes`, 4 plus the declared length for `readLuaString`) returns, leaves the cursor at
most at the buffer length and advances it by exactly that number of bytes; a read that
returns has found that many bytes. -/
theorem cursor_invariant (data : List Byte) (pos w len : Nat) :
    (pos + w ≤ data.length → ∃ v, readPod w data pos = .ok v (pos + w)) ∧
    (pos + len ≤ data.length → ∃ v, readBytes len data pos = .ok v (pos + len)) ∧
    (pos + 4 + leValue ((data.drop pos).take 4) ≤ data.length →
      ∃ v, readLuaString data pos = .ok v (pos + 4 + leValue ((data.drop pos).take 4))) ∧
    (∀ v next, readPod w data pos = .ok v next → next = pos + w ∧ next ≤ data.length) ∧
    (∀ v next, readBytes len data pos = .ok v next → next = pos + len ∧ next ≤ data.length) ∧
    (∀ v next, readLuaString data pos = .ok v next →
      next = pos + 4 + leValue ((data.drop pos).take 4) ∧ next ≤ data.length ∧
      v.length = leValue ((data.drop pos).take 4)) := by
  refine ⟨?_, ?_, ?_, ?_, ?_, ?_⟩
  · intro h
    exact ⟨_, readPod_of_le h⟩
  · intro h
    exact ⟨_, readPod_of_le h⟩
  · intro h
    rw [readLuaString_eq, if_pos h]
    exact ⟨_, rfl⟩
  · intro v next h
    obtain ⟨h1, _, h3⟩ := readPod_eq_ok h
    omega
  · intro v next h
    have h : readPod len data pos = .ok v next := h
    obtain ⟨h1, _, h3⟩ := readPod_eq_ok h
    omega
  · intro v next h
    rw [readLuaString_eq] at h
    split at h
    · rename_i hle
      cases h
      refine ⟨rfl, hle, ?_⟩
      rw [List.length_take, List.length_drop]
      omega
    · split at h <;> cases h

theorem cursor_invariant_witness :
    (∃ v, readPod 4 minimalChunk 12 = .ok v 16) ∧
    (∃ v, readBytes 4 minimalChunk 0 = .ok v 4) ∧
    (∃ v, readLuaString sampleLocal 0 = .ok v 5) :=
  have h1 := cursor_invariant minimalChunk 12 4 4
  have h2 := cursor_invariant minimalChunk 0 4 4
  have h3 := cursor_invariant sampleLocal 0 4 4
  ⟨h1.1 (by decide), h2.2.1 (by decide), h3.2.2.1 (by decide)⟩

/-! ## The stages of `parseChunk` -/

theorem parseChunkWith_eq (T : ConstantTags) (self : Reader LuaChunk) :
    parseChunkWith T self =
      chunkHead >>= fun hd =>
      parseConstants T >>= fun constants =>
      parseProtos self >>= fun protos =>
      readPodList >>= fun sourceLines =>
      parseLocals >>= fun locals =>
      parseUpvalues >>= fun upvalues =>
      Pure.pure (LuaChunk.mk hd.sourceName hd.lineDefined hd.lastLineDefined hd.numUpvalues
        hd.numParameters hd.varargFlags hd.maxStackSize hd.instructions constants protos
        sourceLines locals upvalues) := by
  unfold chunkHead parseChunkWith
  simp only [Reader.bind_assoc, Reader.pure_bind]

/-- A loop stops with the exception of the first round that throws. -/
theorem repeatRead_throws {α : Type} (body : Reader α) (data : List Byte) (e : ParseError) :
    ∀ (k n start p : Nat) (xs : List α), k < n →
      repeatRead body k data start = .ok xs p → body data p = .throws e →
      repeatRead body n data start = .throws e := by
  intro k
  induction k with
  | zero =>
    intro n start p xs hk hprev hbody
    obtain ⟨m, rfl⟩ : ∃ m, n = m + 1 := ⟨n - 1, by omega⟩
    simp only [repeatRead, Reader.pure_apply] at hprev
    cases hprev
    unfold repeatRead
    exact Reader.bind_throws hbody
  | succ k ih =>
    intro n start p xs hk hprev hbody
    obtain ⟨m, rfl⟩ : ∃ m, n = m + 1 := ⟨n - 1, by omega⟩
    unfold repeatRead at hprev
    obtain ⟨x, mid, h1, h2⟩ := Reader.bind_eq_ok hprev
    obtain ⟨ys, mid2, h3, h4⟩ := Reader.bind_eq_ok h2
    rw [Reader.pure_apply] at h4
    cases h4
    unfold repeatRead
    rw [Reader.bind_ok h1]
    exact Reader.bind_throws (ih m mid p ys (by omega) h3 hbody)

theorem forCount_throws {α : Type} (body : Reader α) (data : List Byte) (e : ParseError)
    (k : Nat) (n : Int) (start p : Nat) (xs : List α) (hk : (k : Int) < n)
    (hprev : repeatRead body k data start = .ok xs p) (hbody : body data p = .throws e) :
    forCount n body data start = .throws e :=
  repeatRead_throws body data e k n.toNat start p xs (by omega) hprev hbody

theorem readPodConstantType_of_get (data : List Byte) (p : Nat) (t : Byte)
    (h : data.get? p = some t) : readPodConstantType data p = .ok t.val (p + 1) := by
  have hlt : p < data.length := (List.get?_eq_some.mp h).1
  have hget : data[p] = t := by
    have := (List.get?_eq_some.mp h).2
    simpa using this
  unfold readPodConstantType
  rw [Reader.bind_ok (readPod_of_le (show p + 1 ≤ data.length by omega)), Reader.pure_apply,
    List.drop_eq_getElem_cons hlt, hget]
  simp [leValue]

/-- The body of the constants loop throws on a tag that is none of the four enumerators. -/
theorem parseConstant_unknown (T : ConstantTags) (data : List Byte) (p : Nat) (t : Byte)
    (h : data.get? p = some t)
    (hunknown : t.val ≠ T.LUA_TNIL ∧ t.val ≠ T.LUA_TBOOLEAN ∧ t.val ≠ T.LUA_TNUMBER ∧
      t.val ≠ T.LUA_TSTRING) :
    parseConstant T data p = .throws ParseError.unrecognizedConstant := by
  unfold parseConstant
  rw [Reader.bind_ok (readPodConstantType_of_get data p t h), if_neg hunknown.1,
    if_neg hunknown.2.1, if_neg hunknown.2.2.1, if_neg hunknown.2.2.2]
  rfl

/-- C3: when the statements of `parseChunk` before the constants return, the constant count is
`n`, and after `k < n` constants the byte at the cursor is none of the four tags, `parseChunk`
throws "non-recognized constant type", whatever the earlier constants and the following bytes
are. -/
theorem unrecognized_constant_tag (T : ConstantTags) (fuel : Nat) (data : List Byte)
    (pos p0 p1 p : Nat) (hd : ChunkHead) (n : Int) (k : Nat) (cs : List LuaConstant)
    (t : Byte)
    (hhead : chunkHead data pos = .ok hd p0)
    (hcount : readPodInt data p0 = .ok n p1)
    (hk : (k : Int) < n)
    (hprev : repeatRead (parseConstant T) k data p1 = .ok cs p)
    (htag : data.get? p = some t)
    (hunknown : t.val ≠ T.LUA_TNIL ∧ t.val ≠ T.LUA_TBOOLEAN ∧ t.val ≠ T.LUA_TNUMBER ∧
      t.val ≠ T.LUA_TSTRING) :
    parseChunk T (fuel + 1) data pos = .throws ParseError.unrecognizedConstant := by
  have hc : parseConstants T data p0 = .throws ParseError.unrecognizedConstant := by
    unfold parseConstants
    rw [Reader.bind_ok hcount]
    exact forCount_throws _ data _ k n p1 p cs hk hprev
      (parseConstant_unknown T data p t htag hunknown)
  show parseChunkWith T (parseChunk T fuel) data pos = _
  rw [parseChunkWith_eq, Reader.bind_ok hhead]
  exact Reader.bind_throws hc

theorem unrecognized_constant_tag_witness :
    parseChunk lua51Tags 1 badTagChunk 12 = .throws ParseError.unrecognizedConstant :=
  unrecognized_constant_tag lua51Tags 0 badTagChunk 12 32 36 37 ⟨[], 0, 0, 0, 0, 2, 2, []⟩ 2 1
    [LuaConstant.nil] 0xFF (by rfl) (by rfl) (by decide) (by rfl) (by rfl) (by decide)

/-! ## Errors of nested prototypes -/

theorem callsAt_throws (T : ConstantTags) (data : List Byte) (fuel pos p : Nat)
    (e : ParseError) (hc : CallsAt T data fuel pos p)
    (he : parseChunk T fuel data p = .throws e) :
    parseChunk T (fuel + 1) data pos = .throws e := by
  obtain ⟨hd, p0, cs, p1, n, p2, k, ps, h1, h2, h3, h4, h5⟩ := hc
  have hp : parseProtos (parseChunk T fuel) data p1 = .throws e := by
    unfold parseProtos
    rw [Reader.bind_ok h3]
    exact forCount_throws _ data e k n p2 p ps h4 h5 he
  show parseChunkWith T (parseChunk T fuel) data pos = _
  rw [parseChunkWith_eq, Reader.bind_ok h1, Reader.bind_ok h2]
  exact Reader.bind_throws hp

theorem Parse_eq_of_header (T : ConstantTags) (data : List Byte)
    (h : data.take 12 = supportedHeader.bytes) :
    Parse T data = parseChunk T data.length data 12 := by
  have hlen : 12 ≤ data.length := by
    have := congrArg List.length h
    simp only [List.length_take] at this
    have h12 : supportedHeader.bytes.length = 12 := rfl
    omega
  unfold Parse
  rw [ParseWithFuel_eq T _ data hlen, if_pos h]

/-- C9: when the call of `parseChunk` for a nested prototype, at any depth, throws `e`, every
enclosing call of `parseChunk` throws `e`, and so does `Parse` when the enclosing call is the
one it makes for the root chunk; no chunk is returned. -/
theorem nested_error_propagates (T : ConstantTags) (data : List Byte) (f pos f' p' : Nat)
    (e : ParseError) (hn : Nested T data f pos f' p')
    (he : parseChunk T f' data p' = .throws e) :
    parseChunk T f data pos = .throws e ∧
    (f = data.length → pos = 12 → data.take 12 = supportedHeader.bytes →
      Parse T data = .throws e) := by
  have key : parseChunk T f data pos = .throws e := by
    induction hn with
    | child hc => exact callsAt_throws T data _ _ _ e hc he
    | deeper hc _ ih => exact callsAt_throws T data _ _ _ e hc (ih he)
  refine ⟨key, ?_⟩
  intro hf hpos hhdr
  subst hf hpos
  rw [Parse_eq_of_header T data hhdr]
  exact key

theorem nested_error_propagates_witness :
    parseChunk lua51Tags 69 nestedBadTagChunk 12 = .throws ParseError.unrecognizedConstant ∧
    Parse lua51Tags nestedBadTagChunk = .throws ParseError.unrecognizedConstant :=
  have h := nested_error_propagates lua51Tags nestedBadTagChunk 69 12 68 40
    ParseError.unrecognizedConstant
    (Nested.child ⟨⟨[], 0, 0, 0, 0, 2, 2, []⟩, 32, [], 36, 1, 40, 0, [],
      by rfl, by rfl, by rfl, by decide, by rfl⟩)
    (by rfl)
  ⟨h.1, h.2 (by rfl) rfl (by rfl)⟩

/-! ## What a successful `parseChunk` has read -/

theorem readPodInt_eq_ok {data : List Byte} {pos : Nat} {v : Int} {next : Nat}
    (h : readPodInt data pos = .ok v next) :
    pos + 4 ≤ data.length ∧ v = toInt32 (leValue ((data.drop pos).take 4)) ∧
      next = pos + 4 := by
  rw [readPodInt_eq] at h
  split at h
  · rename_i hle
    cases h
    exact ⟨hle, rfl, rfl⟩
  · cases h

theorem readPodUInt32_eq_ok {data : List Byte} {pos : Nat} {v : Nat} {next : Nat}
    (h : readPodUInt32 data pos = .ok v next) :
    pos + 4 ≤ data.length ∧ v = leValue ((data.drop pos).take 4) ∧ next = pos + 4 := by
  rw [readPodUInt32_eq] at h
  split at h
  · rename_i hle
    cases h
    exact ⟨hle, rfl, rfl⟩
  · cases h

theorem readPodUInt8_eq_ok {data : List Byte} {pos : Nat} {v : Byte} {next : Nat}
    (h : readPodUInt8 data pos = .ok v next) : pos + 1 ≤ data.length ∧ next = pos + 1 := by
  obtain ⟨obj, mid, h1, h2⟩ := Reader.bind_eq_ok h
  rw [Reader.pure_apply] at h2
  cases h2
  exact ⟨(readPod_eq_ok h1).1, (readPod_eq_ok h1).2.2⟩

theorem readLuaString_eq_ok {data : List Byte} {pos : Nat} {v : List Byte} {next : Nat}
    (h : readLuaString data pos = .ok v next) :
    next = pos + 4 + v.length ∧ next ≤ data.length ∧
      v.length = leValue ((data.drop pos).take 4) ∧ v = (data.drop (pos + 4)).take v.length := by
  rw [readLuaString_eq] at h
  split at h
  · rename_i hle
    cases h
    have hl : ((data.drop (pos + 4)).take (leValue ((data.drop pos).take 4))).length
        = leValue ((data.drop pos).take 4) := by
      rw [List.length_take, List.length_drop]
      omega
    refine ⟨by rw [hl], hle, hl, by rw [hl]⟩
  · split at h <;> cases h

/-- The values returned by a loop are the values returned by its rounds. -/
theorem repeatRead_mem {α : Type} (body : Reader α) (data : List Byte) :
    ∀ (n start next : Nat) (xs : List α), repeatRead body n data start = .ok xs next →
      xs.length = n ∧ ∀ x ∈ xs, ∃ p q, body data p = .ok x q := by
  intro n
  induction n with
  | zero =>
    intro start next xs h
    simp only [repeatRead, Reader.pure_apply] at h
    cases h
    exact ⟨rfl, fun x hx => by cases hx⟩
  | succ n ih =>
    intro start next xs h
    unfold repeatRead at h
    obtain ⟨x, mid, h1, h2⟩ := Reader.bind_eq_ok h
    obtain ⟨ys, mid2, h3, h4⟩ := Reader.bind_eq_ok h2
    rw [Reader.pure_apply] at h4
    cases h4
    obtain ⟨hl, hmem⟩ := ih mid _ ys h3
    refine ⟨by simp [hl], ?_⟩
    intro y hy
    rcases List.mem_cons.mp hy with rfl | hy
    · exact ⟨start, mid, h1⟩
    · exact hmem y hy

/-- The loop of `readList`: round `i` builds its element from the `i`-th 4-byte word. -/
theorem repeatRead_words {α : Type} (func : Nat → α) (data : List Byte) :
    ∀ (n start next : Nat) (xs : List α),
      repeatRead (readPodUInt32 >>= fun w => Pure.pure (func w)) n data start = .ok xs next →
      xs.length = n ∧ next = start + 4 * n ∧
      ∀ i, i < n → xs.get? i = some (func (leValue ((data.drop (start + 4 * i)).take 4))) := by
  intro n
  induction n with
  | zero =>
    intro start next xs h
    simp only [repeatRead, Reader.pure_apply] at h
    cases h
    exact ⟨rfl, rfl, fun i hi => by omega⟩
  | succ n ih =>
    intro start next xs h
    unfold repeatRead at h
    obtain ⟨x, mid, h1, h2⟩ := Reader.bind_eq_ok h
    obtain ⟨ys, mid2, h3, h4⟩ := Reader.bind_eq_ok h2
    rw [Reader.pure_apply] at h4
    cases h4
    obtain ⟨w, mid3, h5, h6⟩ := Reader.bind_eq_ok h1
    rw [Reader.pure_apply] at h6
    cases h6
    obtain ⟨_, hw, hmid⟩ := readPodUInt32_eq_ok h5
    subst hmid
    obtain ⟨hl, hnext, hget⟩ := ih _ _ ys h3
    refine ⟨by simp [hl], by omega, ?_⟩
    intro i hi
    cases i with
    | zero => simp [hw]
    | succ i =>
      have := hget i (by omega)
      have e : start + 4 + 4 * i = start + 4 * (i + 1) := by omega
      rw [e] at this
      simpa using this

theorem readList_eq_ok {α : Type} {func : Nat → α} {data : List Byte} {pos : Nat}
    {xs : List α} {next : Nat} (h : readList func data pos = .ok xs next) :
    ∃ n : Int, readPodInt data pos = .ok n (pos + 4) ∧ xs.length = n.toNat ∧
      next = pos + 4 + 4 * xs.length ∧
      ∀ i, i < xs.length →
        xs.get? i = some (func (leValue ((data.drop (pos + 4 + 4 * i)).take 4))) := by
  unfold readList at h
  obtain ⟨n, mid, h1, h2⟩ := Reader.bind_eq_ok h
  obtain ⟨_, _, hmid⟩ := readPodInt_eq_ok h1
  subst hmid
  obtain ⟨hl, hnext, hget⟩ := repeatRead_words func data _ _ _ _ h2
  refine ⟨n, h1, hl, by omega, ?_⟩
  intro i hi
  exact hget i (by omega)

/-- The reads of a call of `parseChunk` that returns `c`, in order. -/
theorem parseChunkWith_eq_ok {T : ConstantTags} {self : Reader LuaChunk} {data : List Byte}
    {pos : Nat} {c : LuaChunk} {next : Nat} (h : parseChunkWith T self data pos = .ok c next) :
    ∃ p1 p2 p3 p4 p5 p6 p7 p8 p9 p10 p11 p12,
      readLuaString data pos = .ok c.sourceName p1 ∧
      readPodInt data p1 = .ok c.lineDefined p2 ∧
      readPodInt data p2 = .ok c.lastLineDefined p3 ∧
      readPodUInt8 data p3 = .ok c.numUpvalues p4 ∧
      readPodUInt8 data p4 = .ok c.numParameters p5 ∧
      readPodUInt8 data p5 = .ok c.varargFlags p6 ∧
      readPodUInt8 data p6 = .ok c.maxStackSize p7 ∧
      readList LuaInstruction.mk data p7 = .ok c.instructions p8 ∧
      parseConstants T data p8 = .ok c.constants p9 ∧
      parseProtos self data p9 = .ok c.protos p10 ∧
      readPodList data p10 = .ok c.sourceLines p11 ∧
      parseLocals data p11 = .ok c.locals p12 ∧
      parseUpvalues data p12 = .ok c.upvalues next := by
  unfold parseChunkWith at h
  obtain ⟨v1, p1, h1, h⟩ := Reader.bind_eq_ok h
  obtain ⟨v2, p2, h2, h⟩ := Reader.bind_eq_ok h
  obtain ⟨v3, p3, h3, h⟩ := Reader.bind_eq_ok h
  obtain ⟨v4, p4, h4, h⟩ := Reader.bind_eq_ok h
  obtain ⟨v5, p5, h5, h⟩ := Reader.bind_eq_ok h
  obtain ⟨v6, p6, h6, h⟩ := Reader.bind_eq_ok h
  obtain ⟨v7, p7, h7, h⟩ := Reader.bind_eq_ok h
  obtain ⟨v8, p8, h8, h⟩ := Reader.bind_eq_ok h
  obtain ⟨v9, p9, h9, h⟩ := Reader.bind_eq_ok h
  obtain ⟨v10, p10, h10, h⟩ := Reader.bind_eq_ok h
  obtain ⟨v11, p11, h11, h⟩ := Reader.bind_eq_ok h
  obtain ⟨v12, p12, h12, h⟩ := Reader.bind_eq_ok h
  obtain ⟨v13, p13, h13, h⟩ := Reader.bind_eq_ok h
  rw [Reader.pure_apply] at h
  cases h
  exact ⟨p1, p2, p3, p4, p5, p6, p7, p8, p9, p10, p11, p12, h1, h2, h3, h4, h5, h6, h7, h8,
    h9, h10, h11, h12, h13⟩

theorem parseChunk_eq_ok {T : ConstantTags} {fuel : Nat} {data : List Byte} {pos : Nat}
    {c : LuaChunk} {next : Nat} (h : parseChunk T fuel data pos = .ok c next) :
    ∃ f, fuel = f + 1 ∧ parseChunkWith T (parseChunk T f) data pos = .ok c next := by
  cases fuel with
  | zero => cases h
  | succ f => exact ⟨f, rfl, h⟩

/-- The instruction count of a chunk returned by `parseChunk` is in the four bytes that
follow the source name, the two line numbers and the four flag bytes. -/
theorem parseChunk_instructions {T : ConstantTags} {fuel : Nat} {data : List Byte} {pos : Nat}
    {c : LuaChunk} {next : Nat} (h : parseChunk T fuel data pos = .ok c next) :
    ∃ n : Int,
      readPodInt data (pos + 4 + c.sourceName.length + 12) =
        .ok n (pos + 4 + c.sourceName.length + 16) ∧
      c.instructions.length = n.toNat ∧
      ∀ i, i < c.instructions.length → c.instructions.get? i =
        some ⟨leValue ((data.drop (pos + 4 + c.sourceName.length + 16 + 4 * i)).take 4)⟩ := by
  obtain ⟨f, _, h⟩ := parseChunk_eq_ok h
  obtain ⟨p1, p2, p3, p4, p5, p6, p7, p8, p9, p10, p11, p12, h1, h2, h3, h4, h5, h6, h7, h8,
    _⟩ := parseChunkWith_eq_ok h
  have e1 := (readLuaString_eq_ok h1).1
  have e2 := (readPodInt_eq_ok h2).2.2
  have e3 := (readPodInt_eq_ok h3).2.2
  have e4 := (readPodUInt8_eq_ok h4).2
  have e5 := (readPodUInt8_eq_ok h5).2
  have e6 := (readPodUInt8_eq_ok h6).2
  have e7 := (readPodUInt8_eq_ok h7).2
  have e : p7 = pos + 4 + c.sourceName.length + 12 := by omega
  subst e
  obtain ⟨n, hn, hl, _, hget⟩ := readList_eq_ok h8
  exact ⟨n, hn, hl, hget⟩

/-- Every nested prototype of a chunk returned by `parseChunk` was returned by a call of
`parseChunk` on the same buffer. -/
theorem parseChunk_protos {T : ConstantTags} {fuel : Nat} {data : List Byte} {pos : Nat}
    {c : LuaChunk} {next : Nat} (h : parseChunk T fuel data pos = .ok c next) :
    ∀ c1 ∈ c.protos, ∃ f p q, parseChunk T f data p = .ok c1 q := by
  obtain ⟨f, _, h⟩ := parseChunk_eq_ok h
  obtain ⟨p1, p2, p3, p4, p5, p6, p7, p8, p9, p10, p11, p12, _, _, _, _, _, _, _, _, _, h10,
    _⟩ := parseChunkWith_eq_ok h
  unfold parseProtos at h10
  obtain ⟨n, mid, _, h2⟩ := Reader.bind_eq_ok h10
  intro c1 hc1
  obtain ⟨p, q, hpq⟩ := (repeatRead_mem _ data _ _ _ _ h2).2 c1 hc1
  exact ⟨f, p, q, hpq⟩

theorem parseHeader_eq_ok {data : List Byte} {hdr : LuaHeader} {next : Nat}
    (h : parseHeader data 0 = .ok hdr next) : 12 ≤ data.length := by
  have h1 := sound_parseHeader.inBounds _ _ _ _ h (Nat.zero_le _)
  unfold parseHeader at h
  obtain ⟨v1, p1, h1, h⟩ := Reader.bind_eq_ok h
  obtain ⟨v2, p2, h2, h⟩ := Reader.bind_eq_ok h
  obtain ⟨v3, p3, h3, h⟩ := Reader.bind_eq_ok h
  obtain ⟨v4, p4, h4, h⟩ := Reader.bind_eq_ok h
  obtain ⟨v5, p5, h5, h⟩ := Reader.bind_eq_ok h
  obtain ⟨v6, p6, h6, h⟩ := Reader.bind_eq_ok h
  obtain ⟨v7, p7, h7, h⟩ := Reader.bind_eq_ok h
  obtain ⟨v8, p8, h8, h⟩ := Reader.bind_eq_ok h
  obtain ⟨v9, p9, h9, h⟩ := Reader.bind_eq_ok h
  have e1 := (readPod_eq_ok (w := 4) h1).2.2
  have e2 := (readPodUInt8_eq_ok h2).2
  have e3 := (readPodUInt8_eq_ok h3).2
  have e4 := (readPodUInt8_eq_ok h4).2
  have e5 := (readPodUInt8_eq_ok h5).2
  have e6 := (readPodUInt8_eq_ok h6).2
  have e7 := (readPodUInt8_eq_ok h7).2
  have e8 := (readPodUInt8_eq_ok h8).2
  have e9 := (readPodUInt8_eq_ok h9)
  omega

/-- A successful `Parse` has found the supported header and returns what `parseChunk` returns
at offset 12. -/
theorem Parse_eq_ok {T : ConstantTags} {data : List Byte} {c : LuaChunk} {next : Nat}
    (h : Parse T data = .ok c next) :
    12 ≤ data.length ∧ data.take 12 = supportedHeader.bytes ∧
      parseChunk T data.length data 12 = .ok c next := by
  have hlen : 12 ≤ data.length := by
    unfold Parse ParseWithFuel at h
    obtain ⟨hdr, mid, h1, _⟩ := Reader.bind_eq_ok h
    exact parseHeader_eq_ok h1
  unfold Parse at h
  rw [ParseWithFuel_eq T _ data hlen] at h
  split at h
  · rename_i hc
    exact ⟨hlen, hc, h⟩
  · cases h

/-- Every chunk of a tree returned by `parseChunk` was returned by a call of `parseChunk` on
the same buffer. -/
theorem within_decoded (T : ConstantTags) (data : List Byte) {c r : LuaChunk}
    (hc : LuaChunk.Within c r) (hr : ∃ f p q, parseChunk T f data p = .ok r q) :
    ∃ f p q, parseChunk T f data p = .ok c q := by
  induction hc with
  | root c => exact hr
  | nested hmem _ ih =>
    obtain ⟨f, p, q, hpq⟩ := hr
    exact ih (parseChunk_protos hpq _ hmem)

/-! ## The instruction count -/

/-- C8 (as stated, refuted): on `negativeInstructionCountChunk` the declared instruction count
is the `int` -2, `Parse` succeeds, and the root chunk has 0 instructions. -/
theorem negative_instruction_count :
    readPodInt negativeInstructionCountChunk 28 = .ok (-2) 32 ∧
    Parse lua51Tags negativeInstructionCountChunk =
      .ok (LuaChunk.mk [] 0 0 0 0 2 2 [] [] [] [] [] []) 52 ∧
    (((LuaChunk.mk [] 0 0 0 0 2 2 [] [] [] [] [] []).instructions.length : Int) ≠ -2) :=
  ⟨rfl, rfl, by decide⟩

/-- C8 (amended): when `Parse` succeeds, every chunk of the tree (the root and each nested
prototype, at any depth) was returned by a call of `parseChunk` at some offset `pos`; the
4-byte signed count `n` that follows its source name and 12 more bytes is the declared
instruction count, the chunk has `n` instructions when `n` is not negative and none when it
is, and instruction `i` is built from the `i`-th 4-byte word after the count. -/
theorem instruction_count (T : ConstantTags) (data : List Byte) (root c : LuaChunk)
    (next : Nat) (h : Parse T data = .ok root next) (hc : LuaChunk.Within c root) :
    ∃ fuel pos next1, parseChunk T fuel data pos = .ok c next1 ∧
      ∃ n : Int,
        readPodInt data (pos + 4 + c.sourceName.length + 12) =
          .ok n (pos + 4 + c.sourceName.length + 16) ∧
        (0 ≤ n → (c.instructions.length : Int) = n) ∧
        (n < 0 → c.instructions.length = 0) ∧
        ∀ i, i < c.instructions.length → c.instructions.get? i =
          some ⟨leValue ((data.drop (pos + 4 + c.sourceName.length + 16 + 4 * i)).take 4)⟩ := by
  obtain ⟨fuel, pos, next1, hpc⟩ :=
    within_decoded T data hc ⟨_, _, _, (Parse_eq_ok h).2.2⟩
  obtain ⟨n, hn, hl, hget⟩ := parseChunk_instructions hpc
  refine ⟨fuel, pos, next1, hpc, n, hn, ?_, ?_, hget⟩
  · intro h0; rw [hl]; omega
  · intro h0; rw [hl]; omega


/-! ## Decoding what the encoder wrote -/

theorem length_leBytes (w v : Nat) : (leBytes w v).length = w := by
  induction w generalizing v with
  | zero => rfl
  | succ w ih => simp [leBytes, ih]

theorem leValue_leBytes (w v : Nat) : leValue (leBytes w v) = v % 256 ^ w := by
  induction w generalizing v with
  | zero => simp [leBytes, leValue, Nat.mod_one]
  | succ w ih =>
    simp only [leBytes, leValue, ih, byteOf]
    rw [pow_succ', Nat.mod_mul]

theorem toInt32_encodeInt (v : Int) (hv : IsInt32 v) :
    toInt32 (leValue (encodeInt v)) = v := by
  unfold encodeInt
  rw [leValue_leBytes]
  unfold toInt32
  obtain ⟨h1, h2⟩ := hv
  norm_num at h1 h2 ⊢
  split <;> omega

theorem length_encodeInt (v : Int) : (encodeInt v).length = 4 := length_leBytes _ _

theorem decodes_pure {α : Type} (a : α) : Reader.Decodes (Pure.pure a : Reader α) [] a := by
  intro pre post
  simp [Reader.pure_apply]

theorem decodes_bind {α β : Type} {r : Reader α} {f : α → Reader β} {e1 e2 : List Byte}
    {a : α} {b : β} (h1 : Reader.Decodes r e1 a) (h2 : Reader.Decodes (f a) e2 b) :
    Reader.Decodes (r >>= f) (e1 ++ e2) b := by
  intro pre post
  have k1 := h1 pre (e2 ++ post)
  have k2 := h2 (pre ++ e1) post
  have e : pre ++ (e1 ++ e2) ++ post = pre ++ e1 ++ (e2 ++ post) := by
    simp [List.append_assoc]
  have e' : pre ++ e1 ++ e2 ++ post = pre ++ e1 ++ (e2 ++ post) := by
    simp [List.append_assoc]
  rw [e, Reader.bind_ok k1]
  rw [e'] at k2
  rw [List.length_append] at k2
  rw [k2, List.length_append, Nat.add_assoc]

theorem decodes_bind_pure {α β : Type} {r : Reader α} {g : α → β} {e : List Byte} {a : α}
    (h : Reader.Decodes r e a) : Reader.Decodes (r >>= fun x => Pure.pure (g x)) e (g a) := by
  have := decodes_bind (f := fun x => (Pure.pure (g x) : Reader β)) h (decodes_pure (g a))
  rwa [List.append_nil] at this

theorem decodes_readPod (bytes : List Byte) :
    Reader.Decodes (readPod bytes.length) bytes bytes := by
  intro pre post
  rw [readPod_of_le (by simp)]
  simp [List.append_assoc]

theorem decodes_readPodUInt8 (b : Byte) : Reader.Decodes readPodUInt8 [b] b :=
  decodes_bind_pure (decodes_readPod [b])

theorem decodes_readPodUInt32 (v : Nat) (hv : v < 2 ^ 32) :
    Reader.Decodes readPodUInt32 (leBytes 4 v) v := by
  have h := decodes_bind_pure (g := leValue) (decodes_readPod (leBytes 4 v))
  rw [length_leBytes, leValue_leBytes, Nat.mod_eq_of_lt (by simpa using hv)] at h
  exact h

theorem decodes_readPodInt (v : Int) (hv : IsInt32 v) :
    Reader.Decodes readPodInt (encodeInt v) v := by
  have h := decodes_bind_pure (g := fun obj => toInt32 (leValue obj))
    (decodes_readPod (encodeInt v))
  rw [length_encodeInt] at h
  simp only [toInt32_encodeInt v hv] at h
  exact h

theorem decodes_readPodDouble (bits : Nat) (hv : bits < 2 ^ 64) :
    Reader.Decodes readPodDouble (leBytes 8 bits) bits := by
  have h := decodes_bind_pure (g := leValue) (decodes_readPod (leBytes 8 bits))
  rw [length_leBytes, leValue_leBytes, Nat.mod_eq_of_lt (by simpa using hv)] at h
  exact h

theorem decodes_readPodBool (b : Bool) :
    Reader.Decodes readPodBool [if b then 1 else 0] b := by
  have h0 : Reader.Decodes (Pure.pure b : Reader Bool) [] b := decodes_pure b
  have h := decodes_bind
    (f := fun obj => if leValue obj = 0 then (Pure.pure false : Reader Bool)
      else if leValue obj = 1 then Pure.pure true else Reader.invalidBool (obj.headD 0))
    (decodes_readPod [if b then (1 : Byte) else 0]) (b := b)
    (by cases b <;> exact h0)
  rw [List.append_nil] at h
  exact h

theorem decodes_readPodConstantType (t : Nat) (ht : t < 256) :
    Reader.Decodes readPodConstantType [byteOf t] t := by
  have h := decodes_bind_pure (g := leValue) (decodes_readPod [byteOf t])
  have e : leValue [byteOf t] = t := by
    simp [leValue, byteOf, Nat.mod_eq_of_lt ht]
  rw [e] at h
  exact h

theorem decodes_readChars (s : List Byte) :
    Reader.Decodes (repeatRead readChar s.length) s s := by
  intro pre post
  rw [repeatRead_readChar_of_le _ _ _ (by simp)]
  simp [List.append_assoc]

theorem decodes_readLuaString (s : List Byte) (hs : s.length < 2 ^ 32) :
    Reader.Decodes readLuaString (encodeString s) s :=
  decodes_bind (decodes_readPodUInt32 s.length hs) (decodes_readChars s)

/-- A loop that runs once for each element of `xs` decodes their encodings. -/
theorem decodes_repeatRead {α : Type} {body : Reader α} {enc : α → List Byte} (xs : List α)
    (h : ∀ x ∈ xs, Reader.Decodes body (enc x) x) :
    Reader.Decodes (repeatRead body xs.length) (encodeAll enc xs) xs := by
  induction xs with
  | nil => exact decodes_pure _
  | cons x xs ih =>
    exact decodes_bind (h x (List.mem_cons_self _ _))
      (decodes_bind_pure (ih (fun y hy => h y (List.mem_cons_of_mem _ hy))))

/-- A count followed by a loop decodes the encoding of a list of fewer than 2^31 elements. -/
theorem decodes_counted {α : Type} {body : Reader α} {enc : α → List Byte} (xs : List α)
    (hlen : xs.length < 2 ^ 31) (h : ∀ x ∈ xs, Reader.Decodes body (enc x) x) :
    Reader.Decodes (readPodInt >>= fun size => forCount size body) (encodeList enc xs) xs := by
  have hi : IsInt32 (xs.length : Int) := by
    constructor
    · have : (0 : Int) ≤ xs.length := Int.natCast_nonneg _
      omega
    · exact_mod_cast hlen
  refine decodes_bind (decodes_readPodInt _ hi) ?_
  show Reader.Decodes (repeatRead body (Int.toNat (xs.length : Int))) _ _
  rw [Int.toNat_natCast]
  exact decodes_repeatRead xs h

theorem decodes_readList (is : List LuaInstruction) (hlen : is.length < 2 ^ 31)
    (h : ∀ i ∈ is, i.raw < 2 ^ 32) :
    Reader.Decodes (readList LuaInstruction.mk) (encodeList encodeInstruction is) is :=
  decodes_counted is hlen
    (fun i hi => decodes_bind_pure (g := LuaInstruction.mk) (decodes_readPodUInt32 i.raw (h i hi)))

theorem decodes_parseConstant (T : ConstantTags) (hT : T.Distinct) (c : LuaConstant)
    (hc : c.Representable) : Reader.Decodes (parseConstant T) (encodeConstant T c) c := by
  obtain ⟨b1, b2, b3, b4, d12, d13, d14, d23, d24, d34⟩ := hT
  unfold parseConstant
  cases c with
  | nil =>
    show Reader.Decodes _ ([byteOf T.LUA_TNIL] ++ []) _
    refine decodes_bind (decodes_readPodConstantType _ b1) ?_
    rw [if_pos rfl]
    exact decodes_pure _
  | boolean b =>
    show Reader.Decodes _ ([byteOf T.LUA_TBOOLEAN] ++ [if b then 1 else 0]) _
    refine decodes_bind (decodes_readPodConstantType _ b2) ?_
    rw [if_neg (Ne.symm d12), if_pos rfl]
    exact decodes_bind_pure (decodes_readPodBool b)
  | number bits =>
    show Reader.Decodes _ ([byteOf T.LUA_TNUMBER] ++ leBytes 8 bits) _
    refine decodes_bind (decodes_readPodConstantType _ b3) ?_
    rw [if_neg (Ne.symm d13), if_neg (Ne.symm d23), if_pos rfl]
    exact decodes_bind_pure (decodes_readPodDouble bits hc)
  | string s =>
    show Reader.Decodes _ ([byteOf T.LUA_TSTRING] ++ encodeString s) _
    refine decodes_bind (decodes_readPodConstantType _ b4) ?_
    rw [if_neg (Ne.symm d14), if_neg (Ne.symm d24), if_neg (Ne.symm d34), if_pos rfl]
    exact decodes_bind_pure (decodes_readLuaString s hc)

theorem decodes_parseConstants (T : ConstantTags) (hT : T.Distinct) (cs : List LuaConstant)
    (hlen : cs.length < 2 ^ 31) (h : ∀ c ∈ cs, c.Representable) :
    Reader.Decodes (parseConstants T) (encodeList (encodeConstant T) cs) cs :=
  decodes_counted cs hlen (fun c hc => decodes_parseConstant T hT c (h c hc))

theorem decodes_parseLocal (l : LuaLocal) (hl : l.Representable) :
    Reader.Decodes parseLocal (encodeLocal l) l := by
  obtain ⟨h1, h2, h3⟩ := hl
  unfold parseLocal encodeLocal
  refine decodes_bind (decodes_readLuaString l.name h1) ?_
  refine decodes_bind (decodes_readPodUInt32 _ (Nat.mod_lt _ (by norm_num))) ?_
  have e1 : (1 + (l.startPc + (2 ^ 32 - 1)) % 2 ^ 32) % 2 ^ 32 = l.startPc := by omega
  have e2 : (1 + (l.endPc + (2 ^ 32 - 1)) % 2 ^ 32) % 2 ^ 32 = l.endPc := by omega
  have h := decodes_bind_pure
    (g := fun endPc => (⟨l.name, l.startPc, (1 + endPc) % 2 ^ 32⟩ : LuaLocal))
    (decodes_readPodUInt32 ((l.endPc + (2 ^ 32 - 1)) % 2 ^ 32) (Nat.mod_lt _ (by norm_num)))
  beta_reduce at h
  rw [e2] at h
  rw [e1]
  exact h

theorem decodes_parseLocals (ls : List LuaLocal) (hlen : ls.length < 2 ^ 31)
    (h : ∀ l ∈ ls, l.Representable) :
    Reader.Decodes parseLocals (encodeList encodeLocal ls) ls :=
  decodes_counted ls hlen (fun l hl => decodes_parseLocal l (h l hl))

theorem decodes_parseUpvalues (us : List (List Byte)) (hlen : us.length < 2 ^ 31)
    (h : ∀ u ∈ us, u.length < 2 ^ 32) :
    Reader.Decodes parseUpvalues (encodeList encodeString us) us :=
  decodes_counted us hlen (fun u hu => decodes_readLuaString u (h u hu))

theorem decodes_readPodList (ls : List Int) (hlen : ls.length < 2 ^ 31)
    (h : ∀ l ∈ ls, IsInt32 l) : Reader.Decodes readPodList (encodeList encodeInt ls) ls :=
  decodes_counted ls hlen (fun l hl => decodes_readPodInt l (h l hl))

theorem encodeChunks_eq (T : ConstantTags) (ps : List LuaChunk) :
    encodeChunks T ps = encodeAll (encodeChunk T) ps := by
  induction ps with
  | nil => simp [encodeChunks, encodeAll]
  | cons p ps ih => simp [encodeChunks, encodeAll, ih]

theorem decodes_parseProtos (T : ConstantTags) (self : Reader LuaChunk) (ps : List LuaChunk)
    (hlen : ps.length < 2 ^ 31) (h : ∀ p ∈ ps, Reader.Decodes self (encodeChunk T p) p) :
    Reader.Decodes (parseProtos self) (encodeInt ps.length ++ encodeChunks T ps) ps := by
  rw [encodeChunks_eq]
  exact decodes_counted ps hlen h

/-- The body of `parseChunk` decodes the encoding of a chunk when the recursive call decodes
the encodings of its nested prototypes. -/
theorem decodes_parseChunkWith (T : ConstantTags) (hT : T.Distinct) (self : Reader LuaChunk)
    (sourceName : List Byte) (lineDefined lastLineDefined : Int)
    (numUpvalues numParameters varargFlags maxStackSize : Byte)
    (instructions : List LuaInstruction) (constants : List LuaConstant)
    (protos : List LuaChunk) (sourceLines : List Int) (locals : List LuaLocal)
    (upvalues : List (List Byte))
    (h1 : sourceName.length < 2 ^ 32) (h2 : IsInt32 lineDefined)
    (h3 : IsInt32 lastLineDefined)
    (h4 : instructions.length < 2 ^ 31) (h5 : ∀ i ∈ instructions, i.raw < 2 ^ 32)
    (h6 : constants.length < 2 ^ 31) (h7 : ∀ c ∈ constants, c.Representable)
    (h8 : protos.length < 2 ^ 31)
    (h9 : ∀ p ∈ protos, Reader.Decodes self (encodeChunk T p) p)
    (h10 : sourceLines.length < 2 ^ 31) (h11 : ∀ l ∈ sourceLines, IsInt32 l)
    (h12 : locals.length < 2 ^ 31) (h13 : ∀ l ∈ locals, l.Representable)
    (h14 : upvalues.length < 2 ^ 31) (h15 : ∀ u ∈ upvalues, u.length < 2 ^ 32) :
    Reader.Decodes (parseChunkWith T self)
      (encodeChunk T (LuaChunk.mk sourceName lineDefined lastLineDefined numUpvalues
        numParameters varargFlags maxStackSize instructions constants protos sourceLines
        locals upvalues))
      (LuaChunk.mk sourceName lineDefined lastLineDefined numUpvalues
        numParameters varargFlags maxStackSize instructions constants protos sourceLines
        locals upvalues) := by
  unfold parseChunkWith
  rw [encodeChunk]
  refine decodes_bind (decodes_readLuaString _ h1) ?_
  refine decodes_bind (decodes_readPodInt _ h2) ?_
  refine decodes_bind (decodes_readPodInt _ h3) ?_
  refine decodes_bind (decodes_readPodUInt8 _) ?_
  refine decodes_bind (decodes_readPodUInt8 _) ?_
  refine decodes_bind (decodes_readPodUInt8 _) ?_
  refine decodes_bind (decodes_readPodUInt8 _) ?_
  refine decodes_bind (decodes_readList _ h4 h5) ?_
  refine decodes_bind (decodes_parseConstants T hT _ h6 h7) ?_
  refine decodes_bind (decodes_parseProtos T self _ h8 h9) ?_
  refine decodes_bind (decodes_readPodList _ h10 h11) ?_
  refine decodes_bind (decodes_parseLocals _ h12 h13) ?_
  exact decodes_bind_pure (decodes_parseUpvalues _ h14 h15)

theorem decodes_fuel_mono (T : ConstantTags) {f1 f2 : Nat} (h : f1 ≤ f2) {e : List Byte}
    {c : LuaChunk} (hd : Reader.Decodes (parseChunk T f1) e c) :
    Reader.Decodes (parseChunk T f2) e c := by
  intro pre post
  rcases parseChunk_fuel_mono T h (pre ++ e ++ post) pre.length with h1 | h1
  · rw [hd pre post] at h1; cases h1
  · rw [h1]; exact hd pre post

/-- One fuel is enough for all the chunks of a list when each has a fuel that is enough. -/
theorem decodes_uniform_fuel (T : ConstantTags) (ps : List LuaChunk)
    (h : ∀ p ∈ ps, ∃ f, Reader.Decodes (parseChunk T f) (encodeChunk T p) p) :
    ∃ f, ∀ p ∈ ps, Reader.Decodes (parseChunk T f) (encodeChunk T p) p := by
  induction ps with
  | nil => exact ⟨0, fun p hp => by cases hp⟩
  | cons q qs ih =>
    obtain ⟨f1, hf1⟩ := h q (List.mem_cons_self _ _)
    obtain ⟨f2, hf2⟩ := ih (fun p hp => h p (List.mem_cons_of_mem _ hp))
    refine ⟨max f1 f2, ?_⟩
    intro p hp
    rcases List.mem_cons.mp hp with rfl | hp
    · exact decodes_fuel_mono T (Nat.le_max_left _ _) hf1
    · exact decodes_fuel_mono T (Nat.le_max_right _ _) (hf2 p hp)

/-- With some fuel, `parseChunk` decodes the encoding of a representable chunk tree. -/
theorem decodes_parseChunk (T : ConstantTags) (hT : T.Distinct) (c : LuaChunk)
    (hc : c.Representable) : ∃ f, Reader.Decodes (parseChunk T f) (encodeChunk T c) c := by
  induction hc with
  | mk sourceName lineDefined lastLineDefined numUpvalues numParameters varargFlags
      maxStackSize instructions constants protos sourceLines locals upvalues
      h1 h2 h3 h4 h5 h6 h7 h8 _ h10 h11 h12 h13 h14 h15 ih =>
    obtain ⟨f, hf⟩ := decodes_uniform_fuel T protos ih
    exact ⟨f + 1, decodes_parseChunkWith T hT (parseChunk T f) _ _ _ _ _ _ _ _ _ _ _ _ _
      h1 h2 h3 h4 h5 h6 h7 h8 hf h10 h11 h12 h13 h14 h15⟩

/-! ## The round trip -/

/-- C5: for every chunk tree that the C++ types hold, with all list lengths below 2^31 and
all string lengths below 2^32, `Parse` on the supported header followed by the encoding of the
tree (local indices written as the stored value minus one) returns the tree and stops at the
end of the buffer. -/
theorem Parse_encodeFile (T : ConstantTags) (hT : T.Distinct) (c : LuaChunk)
    (hc : c.Representable) :
    Parse T (encodeFile T c) = .ok c (encodeFile T c).length := by
  obtain ⟨f, hf⟩ := decodes_parseChunk T hT c hc
  have h := hf supportedHeader.bytes []
  rw [List.append_nil] at h
  have h12 : supportedHeader.bytes.length = 12 := rfl
  have hlen : (encodeFile T c).length = 12 + (encodeChunk T c).length := by
    unfold encodeFile
    rw [List.length_append, h12]
  have hhdr : (encodeFile T c).take 12 = supportedHeader.bytes := by
    unfold encodeFile
    rw [← h12, List.take_left']
    rfl
  rw [Parse_eq_of_header T _ hhdr]
  have hfold : supportedHeader.bytes ++ encodeChunk T c = encodeFile T c := rfl
  rw [hfold, h12] at h
  have hne := parseChunk_fuel_enough T (encodeFile T c) (encodeFile T c).length 12
    (by omega) (by omega)
  have key : parseChunk T (encodeFile T c).length (encodeFile T c) 12 =
      .ok c (12 + (encodeChunk T c).length) := by
    rcases Nat.le_total f (encodeFile T c).length with hle | hle
    · rcases parseChunk_fuel_mono T hle (encodeFile T c) 12 with h1 | h1
      · rw [h] at h1; cases h1
      · rw [h1]; exact h
    · rcases parseChunk_fuel_mono T hle (encodeFile T c) 12 with h1 | h1
      · exact absurd h1 hne
      · rw [← h1]; exact h
  rw [key, hlen]

theorem lua51Tags_distinct : lua51Tags.Distinct := by
  unfold ConstantTags.Distinct lua51Tags
  decide

theorem sampleProto_representable : sampleProto.Representable := by
  refine LuaChunk.Representable.mk _ _ _ _ _ _ _ _ _ _ _ _ _ (by decide) ?_ ?_ (by decide) ?_
    (by decide) ?_ (by decide) ?_ (by decide) ?_ (by decide) ?_ (by decide) ?_
  · unfold IsInt32; decide
  · unfold IsInt32; decide
  · simp
  · simp [LuaConstant.Representable]
  · simp
  · simp [IsInt32]
  · simp [LuaLocal.Representable]
  · simp

theorem sampleTree_representable : sampleTree.Representable := by
  refine LuaChunk.Representable.mk _ _ _ _ _ _ _ _ _ _ _ _ _ (by decide) ?_ ?_ (by decide) ?_
    (by decide) ?_ (by decide) ?_ (by decide) ?_ (by decide) ?_ (by decide) ?_
  · unfold IsInt32; decide
  · unfold IsInt32; decide
  · simp
  · simp [LuaConstant.Representable]
  · intro p hp
    rw [List.mem_singleton.mp hp]
    exact sampleProto_representable
  · simp [IsInt32]
  · simp
  · simp

set_option maxRecDepth 100000 in
theorem Parse_encodeFile_witness :
    lua51Tags.Distinct ∧ sampleTree.Representable ∧
    (encodeFile lua51Tags sampleTree).length = 167 ∧
    Parse lua51Tags (encodeFile lua51Tags sampleTree) =
      .ok sampleTree (encodeFile lua51Tags sampleTree).length :=
  ⟨lua51Tags_distinct, sampleTree_representable, by rfl,
    Parse_encodeFile lua51Tags lua51Tags_distinct sampleTree sampleTree_representable⟩

/-! ## Truncated input -/

theorem sound_ParseWithFuel (T : ConstantTags) (fuel : Nat) :
    Reader.Sound (ParseWithFuel T fuel) :=
  sound_bind sound_parseHeader
    (fun _ => sound_ite (sound_throw _) (sound_parseChunk T fuel))

/-- The result of `Parse` does not depend on the fuel, from the length of the buffer on. -/
theorem ParseWithFuel_fuel_irrelevant (T : ConstantTags) (data : List Byte) (f1 f2 : Nat)
    (h1 : data.length ≤ f1) (h2 : data.length ≤ f2) :
    ParseWithFuel T f1 data 0 = ParseWithFuel T f2 data 0 := by
  by_cases hlen : 12 ≤ data.length
  · rw [ParseWithFuel_eq T f1 data hlen, ParseWithFuel_eq T f2 data hlen]
    split
    · exact parseChunk_fuel_irrelevant T data f1 f2 12 hlen (by omega) (by omega)
    · rfl
  · unfold ParseWithFuel
    cases h : parseHeader data 0 with
    | ok hdr mid => exact absurd (parseHeader_eq_ok h) hlen
    | throws e => rw [Reader.bind_throws h, Reader.bind_throws h]
    | outOfBounds q => rw [Reader.bind_outOfBounds h, Reader.bind_outOfBounds h]
    | invalidBool b => rw [Reader.bind_invalidBool h, Reader.bind_invalidBool h]
    | outOfFuel => rw [Reader.bind_outOfFuel h, Reader.bind_outOfFuel h]

/-- C2 (as stated, refuted): `Parse` succeeds on the 52 bytes of `minimalChunk`; on their first
51 bytes it throws nothing: it reads the byte at offset 51, past the end of the buffer. -/
theorem truncated_input_not_reported :
    Parse lua51Tags minimalChunk = .ok (LuaChunk.mk [] 0 0 0 0 2 2 [] [] [] [] [] []) 52 ∧
    Parse lua51Tags (minimalChunk.take 51) = .outOfBounds 52 ∧
    ¬ ∃ e, Parse lua51Tags (minimalChunk.take 51) = .throws e := by
  refine ⟨rfl, rfl, ?_⟩
  rintro ⟨e, he⟩
  have h : Parse lua51Tags (minimalChunk.take 51) = .outOfBounds 52 := rfl
  rw [h] at he
  cases he

/-- C2 (amended): when `Parse` succeeds on a buffer after consuming `n` bytes, then on the
first `k < n` bytes of that buffer it neither returns nor throws: it reaches a read that needs
bytes past the end of the buffer, up to an offset `q > k`, and makes it with no check. -/
theorem truncated_input_reads_past_end (T : ConstantTags) (data : List Byte) (c : LuaChunk)
    (n k : Nat) (h : Parse T data = .ok c n) (hk : k < n) :
    ∃ q, k < q ∧ Parse T (data.take k) = .outOfBounds q := by
  unfold Parse at h
  obtain ⟨q, hq, hq2⟩ :=
    (sound_ParseWithFuel T data.length).truncate data 0 c n h k (Nat.zero_le k) hk
  refine ⟨q, hq, ?_⟩
  unfold Parse
  rw [ParseWithFuel_fuel_irrelevant T (data.take k) (data.take k).length data.length
    (Nat.le_refl _) (by rw [List.length_take]; omega)]
  exact hq2

theorem truncated_input_reads_past_end_witness :
    ∃ q, 30 < q ∧ Parse lua51Tags (minimalChunk.take 30) = .outOfBounds q :=
  truncated_input_reads_past_end lua51Tags minimalChunk _ 52 30 (by rfl) (by decide)

/-! ## The instruction count on the sample tree -/

set_option maxRecDepth 100000 in
theorem instruction_count_witness :
    ∃ fuel pos next1,
      parseChunk lua51Tags fuel (encodeFile lua51Tags sampleTree) pos =
        .ok sampleProto next1 ∧
      ∃ n : Int,
        readPodInt (encodeFile lua51Tags sampleTree)
            (pos + 4 + sampleProto.sourceName.length + 12) =
          .ok n (pos + 4 + sampleProto.sourceName.length + 16) ∧
        (0 ≤ n → (sampleProto.instructions.length : Int) = n) ∧
        (n < 0 → sampleProto.instructions.length = 0) ∧
        ∀ i, i < sampleProto.instructions.length → sampleProto.instructions.get? i =
          some ⟨leValue (((encodeFile lua51Tags sampleTree).drop
            (pos + 4 + sampleProto.sourceName.length + 16 + 4 * i)).take 4)⟩ :=
  instruction_count lua51Tags (encodeFile lua51Tags sampleTree) sampleTree sampleProto 167
    (by rfl) (LuaChunk.Within.nested (List.Mem.head _) (LuaChunk.Within.root _))

/-! ## Length-prefixed strings -/

/-- C11 (as stated, refuted): with a length prefix of 3 and one byte left, and with the prefix
`FF FF FF FF` and two bytes left, `readLuaString` throws nothing: it reads the byte at the end
of the buffer. -/
theorem short_string_not_reported :
    readLuaString shortString 0 = .outOfBounds 6 ∧
    readLuaString hugeLengthString 0 = .outOfBounds 7 ∧
    (¬ ∃ e, readLuaString shortString 0 = .throws e) ∧
    (¬ ∃ e, readLuaString hugeLengthString 0 = .throws e) := by
  have h1 : readLuaString shortString 0 = .outOfBounds 6 := by rfl
  have h2 : readLuaString hugeLengthString 0 = .outOfBounds 7 := by
    rw [readLuaString_eq]
    decide
  refine ⟨h1, h2, ?_, ?_⟩
  · rintro ⟨e, he⟩
    rw [h1] at he
    cases he
  · rintro ⟨e, he⟩
    rw [h2] at he
    cases he

/-- C11 (amended): when the cursor is followed by the bytes `l0 l1 l2 l3` and then by `rest`,
and `n = l0 + 256*l1 + 65536*l2 + 16777216*l3` (little-endian, unsigned), `readLuaString`
returns the first `n` bytes of `rest` and advances the cursor by `4 + n` if `rest` has at least
`n` bytes; if it has fewer, `readLuaString` reads past the end of the buffer with no check and
throws nothing. -/
theorem readLuaString_length_prefixed (data : List Byte) (pos : Nat) (l0 l1 l2 l3 : Byte)
    (rest : List Byte) (hd : data.drop pos = l0 :: l1 :: l2 :: l3 :: rest) :
    (l0.val + 256 * l1.val + 65536 * l2.val + 16777216 * l3.val ≤ rest.length →
      readLuaString data pos =
        .ok (rest.take (l0.val + 256 * l1.val + 65536 * l2.val + 16777216 * l3.val))
          (pos + 4 + (l0.val + 256 * l1.val + 65536 * l2.val + 16777216 * l3.val))) ∧
    (rest.length < l0.val + 256 * l1.val + 65536 * l2.val + 16777216 * l3.val →
      readLuaString data pos = .outOfBounds (data.length + 1)) := by
  have hlen : data.length = pos + 4 + rest.length := by
    have h := congrArg List.length hd
    simp only [List.length_drop, List.length_cons] at h
    omega
  have hval : leValue ((data.drop pos).take 4) =
      l0.val + 256 * l1.val + 65536 * l2.val + 16777216 * l3.val := by
    rw [hd]
    simp only [List.take, leValue]
    omega
  have hrest : data.drop (pos + 4) = rest := by
    have h : data.drop (pos + 4) = (data.drop pos).drop 4 := by
      rw [List.drop_drop, Nat.add_comm]
    rw [h, hd]
    rfl
  rw [readLuaString_eq, hval, hrest]
  constructor
  · intro h
    rw [if_pos (by omega)]
  · intro h
    rw [if_neg (by omega), if_pos (by omega)]

theorem readLuaString_length_prefixed_witness :
    readLuaString sampleLocal 0 = .ok [0x78] 5 ∧
    readLuaString hugeLengthString 0 = .outOfBounds 7 :=
  ⟨(readLuaString_length_prefixed sampleLocal 0 1 0 0 0 [0x78, 2, 0, 0, 0, 7, 0, 0, 0]
      (by rfl)).1 (by decide),
   (readLuaString_length_prefixed hugeLengthString 0 0xFF 0xFF 0xFF 0xFF [0x41, 0x42]
      (by rfl)).2 (by decide)⟩

/-! ## Boolean and number constants -/

theorem readPod_one_of_get (data : List Byte) (p : Nat) (b : Byte)
    (h : data.get? p = some b) : readPod 1 data p = .ok [b] (p + 1) := by
  have hlt : p < data.length := (List.get?_eq_some.mp h).1
  have hget : data[p] = b := by
    have := (List.get?_eq_some.mp h).2
    simpa using this
  rw [readPod_of_le (show p + 1 ≤ data.length by omega), List.drop_eq_getElem_cons hlt, hget]
  simp

theorem readPodBool_of_get (data : List Byte) (p : Nat) (b : Byte)
    (h : data.get? p = some b) :
    readPodBool data p =
      if b = 0 then .ok false (p + 1)
      else if b = 1 then .ok true (p + 1)
      else .invalidBool b := by
  have hv : leValue [b] = b.val := by simp [leValue]
  have h0 : b = 0 ↔ b.val = 0 := ⟨fun e => by rw [e]; rfl, fun e => Fin.ext e⟩
  have h1 : b = 1 ↔ b.val = 1 := ⟨fun e => by rw [e]; rfl, fun e => Fin.ext e⟩
  unfold readPodBool
  rw [Reader.bind_ok (readPod_one_of_get data p b h), hv]
  by_cases e0 : b = 0
  · rw [if_pos (h0.mp e0), if_pos e0]
    rfl
  · rw [if_neg (fun e => e0 (h0.mpr e)), if_neg e0]
    by_cases e1 : b = 1
    · rw [if_pos (h1.mp e1), if_pos e1]
      rfl
    · rw [if_neg (fun e => e1 (h1.mpr e)), if_neg e1]
      rfl

theorem parseConstant_boolean (T : ConstantTags) (data : List Byte) (pos : Nat)
    (t payload : Byte) (hT : T.LUA_TBOOLEAN ≠ T.LUA_TNIL)
    (htag : data.get? pos = some t) (ht : t.val = T.LUA_TBOOLEAN)
    (hpayload : data.get? (pos + 1) = some payload) :
    parseConstant T data pos =
      if payload = 0 then .ok (LuaConstant.boolean false) (pos + 2)
      else if payload = 1 then .ok (LuaConstant.boolean true) (pos + 2)
      else .invalidBool payload := by
  have hb := readPodBool_of_get data (pos + 1) payload hpayload
  unfold parseConstant
  rw [Reader.bind_ok (readPodConstantType_of_get data pos t htag), ht, if_neg hT, if_pos rfl]
  by_cases e0 : payload = 0
  · rw [if_pos e0] at hb
    rw [if_pos e0, Reader.bind_ok hb]
    rfl
  · rw [if_neg e0] at hb
    rw [if_neg e0]
    by_cases e1 : payload = 1
    · rw [if_pos e1] at hb
      rw [if_pos e1, Reader.bind_ok hb]
      rfl
    · rw [if_neg e1] at hb
      rw [if_neg e1, Reader.bind_invalidBool hb]

/-- C13 (as stated, refuted): the payload bytes `0x02` and `0xFF` of a boolean constant do
not decode to `Boolean(true)`: `readPod<bool>` copies the byte into a `bool` object, which
then holds neither `false` nor `true`, and the read of it has no defined value. -/
theorem boolean_payload_not_converted :
    readPodBool [1, 0x02] 1 = .invalidBool 0x02 ∧
    parseConstant lua51Tags [1, 0x02] 0 = .invalidBool 0x02 ∧
    parseConstant lua51Tags [1, 0x02] 0 ≠ .ok (LuaConstant.boolean true) 2 ∧
    parseConstant lua51Tags [1, 0xFF] 0 = .invalidBool 0xFF ∧
    parseConstant lua51Tags [1, 0xFF] 0 ≠ .ok (LuaConstant.boolean true) 2 :=
  ⟨by rfl, by rfl, by decide, by rfl, by decide⟩

/-- C13 (amended): a constant whose tag byte is the boolean tag decodes to `Boolean(false)`
when its payload byte is `0x00` and to `Boolean(true)` when it is `0x01`, the cursor moving
past the tag and the payload; for every other payload byte the byte is copied unchanged into
a `bool`, no comparison with zero is made, and the read has no defined value.  So whenever a
boolean constant is decoded, its value is true if and only if the payload byte is `0x01`. -/
theorem boolean_constant (T : ConstantTags) (data : List Byte) (pos : Nat) (t payload : Byte)
    (hT : T.LUA_TBOOLEAN ≠ T.LUA_TNIL)
    (htag : data.get? pos = some t) (ht : t.val = T.LUA_TBOOLEAN)
    (hpayload : data.get? (pos + 1) = some payload) :
    (payload = 0 → readPodBool data (pos + 1) = .ok false (pos + 2) ∧
      parseConstant T data pos = .ok (LuaConstant.boolean false) (pos + 2)) ∧
    (payload = 1 → readPodBool data (pos + 1) = .ok true (pos + 2) ∧
      parseConstant T data pos = .ok (LuaConstant.boolean true) (pos + 2)) ∧
    (payload ≠ 0 → payload ≠ 1 → readPodBool data (pos + 1) = .invalidBool payload ∧
      parseConstant T data pos = .invalidBool payload) ∧
    (∀ c next, parseConstant T data pos = .ok c next →
      (payload = 0 ∨ payload = 1) ∧ c = LuaConstant.boolean (decide (payload = 1)) ∧
        next = pos + 2) := by
  have hb := readPodBool_of_get data (pos + 1) payload hpayload
  have hc := parseConstant_boolean T data pos t payload hT htag ht hpayload
  refine ⟨?_, ?_, ?_, ?_⟩
  · intro e0
    rw [if_pos e0] at hb hc
    exact ⟨hb, hc⟩
  · intro e1
    have e0 : payload ≠ 0 := by rw [e1]; decide
    rw [if_neg e0, if_pos e1] at hb hc
    exact ⟨hb, hc⟩
  · intro e0 e1
    rw [if_neg e0, if_neg e1] at hb hc
    exact ⟨hb, hc⟩
  · intro c next h
    rw [hc] at h
    by_cases e0 : payload = 0
    · rw [if_pos e0] at h
      cases h
      refine ⟨Or.inl e0, ?_, rfl⟩
      rw [e0]
      rfl
    · rw [if_neg e0] at h
      by_cases e1 : payload = 1
      · rw [if_pos e1] at h
        cases h
        refine ⟨Or.inr e1, ?_, rfl⟩
        rw [e1]
        rfl
      · rw [if_neg e1] at h
        cases h

theorem boolean_constant_witness :
    parseConstant lua51Tags [1, 0x00] 0 = .ok (LuaConstant.boolean false) 2 ∧
    parseConstant lua51Tags [1, 0x01] 0 = .ok (LuaConstant.boolean true) 2 ∧
    parseConstant lua51Tags [1, 0x80] 0 = .invalidBool 0x80 :=
  ⟨((boolean_constant lua51Tags [1, 0x00] 0 1 0x00 (by decide) (by rfl) (by rfl)
      (by rfl)).1 (by decide)).2,
   ((boolean_constant lua51Tags [1, 0x01] 0 1 0x01 (by decide) (by rfl) (by rfl)
      (by rfl)).2.1 (by decide)).2,
   ((boolean_constant lua51Tags [1, 0x80] 0 1 0x80 (by decide) (by rfl) (by rfl)
      (by rfl)).2.2.1 (by decide) (by decide)).2⟩

theorem leBytes_leValue (bs : List Byte) : leBytes bs.length (leValue bs) = bs := by
  induction bs with
  | nil => rfl
  | cons b bs ih =>
    have h1 : byteOf (b.val + 256 * leValue bs) = b := by
      apply Fin.ext
      simp only [byteOf]
      omega
    have h2 : (b.val + 256 * leValue bs) / 256 = leValue bs := by omega
    simp only [List.length_cons, leBytes, leValue, h1, h2, ih]

theorem readPodDouble_of_le (data : List Byte) (p : Nat) (h : p + 8 ≤ data.length) :
    readPodDouble data p = .ok (leValue ((data.drop p).take 8)) (p + 8) := by
  unfold readPodDouble
  rw [Reader.bind_ok (readPod_of_le h)]
  rfl

/-- C14: a constant whose tag byte is the number tag decodes to the Number variant that
carries the 8 payload bytes read little-endian, with no change of bits; for the payload
`00 00 00 00 00 00 0C 40` this is the pattern `0x400C000000000000`, the double 3.5. -/
theorem number_constant (T : ConstantTags) (data : List Byte) (pos : Nat) (t : Byte)
    (hT1 : T.LUA_TNUMBER ≠ T.LUA_TNIL) (hT2 : T.LUA_TNUMBER ≠ T.LUA_TBOOLEAN)
    (htag : data.get? pos = some t) (ht : t.val = T.LUA_TNUMBER)
    (hlen : pos + 1 + 8 ≤ data.length) :
    parseConstant T data pos =
      .ok (LuaConstant.number (leValue ((data.drop (pos + 1)).take 8))) (pos + 1 + 8) ∧
    leBytes 8 (leValue ((data.drop (pos + 1)).take 8)) = (data.drop (pos + 1)).take 8 ∧
    ((data.drop (pos + 1)).take 8 = [0x00, 0x00, 0x00, 0x00, 0x00, 0x00, 0x0C, 0x40] →
      parseConstant T data pos = .ok (LuaConstant.number 0x400C000000000000) (pos + 1 + 8)) ∧
    normalDoubleValue 0x400C000000000000 = 7 / 2 := by
  have hc : parseConstant T data pos =
      .ok (LuaConstant.number (leValue ((data.drop (pos + 1)).take 8))) (pos + 1 + 8) := by
    unfold parseConstant
    rw [Reader.bind_ok (readPodConstantType_of_get data pos t htag), ht, if_neg hT1,
      if_neg hT2, if_pos rfl, Reader.bind_ok (readPodDouble_of_le data (pos + 1) hlen)]
    rfl
  refine ⟨hc, ?_, ?_, ?_⟩
  · have hl : ((data.drop (pos + 1)).take 8).length = 8 := by
      rw [List.length_take, List.length_drop]
      omega
    have := leBytes_leValue ((data.drop (pos + 1)).take 8)
    rwa [hl] at this
  · intro h
    rw [hc, h]
    rfl
  · unfold normalDoubleValue
    norm_num

theorem number_constant_witness :
    parseConstant lua51Tags [3, 0x00, 0x00, 0x00, 0x00, 0x00, 0x00, 0x0C, 0x40] 0 =
      .ok (LuaConstant.number 0x400C000000000000) 9 :=
  (number_constant lua51Tags [3, 0x00, 0x00, 0x00, 0x00, 0x00, 0x00, 0x0C, 0x40] 0 3
    (by decide) (by decide) (by rfl) (by rfl) (by decide)).2.2.1 (by rfl)

/-! ## Source lines and instructions -/

theorem readPodList_length {data : List Byte} {pos : Nat} {ls : List Int} {next : Nat}
    (h : readPodList data pos = .ok ls next) :
    ∃ n : Int, readPodInt data pos = .ok n (pos + 4) ∧ ls.length = n.toNat := by
  unfold readPodList at h
  obtain ⟨n, mid, h1, h2⟩ := Reader.bind_eq_ok h
  obtain ⟨_, _, hmid⟩ := readPodInt_eq_ok h1
  subst hmid
  exact ⟨n, h1, (repeatRead_mem _ data _ _ _ _ h2).1⟩

/-- C15: on `mismatchChunk`, which has the supported header, `Parse` succeeds and returns a
chunk with no instruction and one source line; in every chunk returned by `parseChunk` the
number of source lines is the count declared in front of them, whatever the number of
instructions. -/
theorem source_lines_not_cross_checked (T : ConstantTags) :
    mismatchChunk.take 12 = supportedHeader.bytes ∧
    Parse T mismatchChunk = .ok (LuaChunk.mk [] 0 0 0 0 2 2 [] [] [] [7] [] []) 56 ∧
    (LuaChunk.mk [] 0 0 0 0 2 2 [] [] [] [7] [] []).sourceLines.length ≠
      (LuaChunk.mk [] 0 0 0 0 2 2 [] [] [] [7] [] []).instructions.length ∧
    (∀ (data : List Byte) (fuel pos : Nat) (c : LuaChunk) (next : Nat),
      parseChunk T fuel data pos = .ok c next →
      ∃ (p : Nat) (n : Int), readPodInt data p = .ok n (p + 4) ∧
        c.sourceLines.length = n.toNat) := by
  refine ⟨rfl, rfl, by decide, ?_⟩
  intro data fuel pos c next h
  obtain ⟨f, _, h⟩ := parseChunk_eq_ok h
  obtain ⟨p1, p2, p3, p4, p5, p6, p7, p8, p9, p10, p11, p12, _, _, _, _, _, _, _, _, _, _,
    h11, _⟩ := parseChunkWith_eq_ok h
  obtain ⟨n, hn, hl⟩ := readPodList_length h11
  exact ⟨p10, n, hn, hl⟩

/-! ## The bytes of a constant -/

/-- The rounds of a loop follow one another: round `k` starts where round `k - 1` ended. -/
theorem repeatRead_chain {α : Type} (body : Reader α) (data : List Byte) :
    ∀ (n start next : Nat) (xs : List α), repeatRead body n data start = .ok xs next →
      ∃ starts : List Nat, starts.length = n + 1 ∧ starts.head? = some start ∧
        starts.getLast? = some next ∧
        ∀ k, k < n → ∃ x p q, xs.get? k = some x ∧ starts.get? k = some p ∧
          starts.get? (k + 1) = some q ∧ body data p = .ok x q := by
  intro n
  induction n with
  | zero =>
    intro start next xs h
    simp only [repeatRead, Reader.pure_apply] at h
    cases h
    exact ⟨[start], rfl, rfl, rfl, fun k hk => by omega⟩
  | succ n ih =>
    intro start next xs h
    unfold repeatRead at h
    obtain ⟨x, mid, h1, h2⟩ := Reader.bind_eq_ok h
    obtain ⟨ys, mid2, h3, h4⟩ := Reader.bind_eq_ok h2
    rw [Reader.pure_apply] at h4
    cases h4
    obtain ⟨starts, hl, hh, hlast, hk⟩ := ih mid _ ys h3
    refine ⟨start :: starts, by simp [hl], rfl, ?_, ?_⟩
    · cases starts with
      | nil => simp at hl
      | cons s ss => simpa using hlast
    · intro k hkn
      cases k with
      | zero =>
        refine ⟨x, start, mid, rfl, rfl, ?_, h1⟩
        cases starts with
        | nil => simp at hl
        | cons s ss =>
          simp only [List.head?_cons, Option.some.injEq] at hh
          subst hh
          rfl
      | succ k =>
        obtain ⟨y, p, q, e1, e2, e3, e4⟩ := hk k (by omega)
        exact ⟨y, p, q, by simpa using e1, by simpa using e2, by simpa using e3, e4⟩

theorem readPodConstantType_eq_ok {data : List Byte} {pos : Nat} {v : Nat} {next : Nat}
    (h : readPodConstantType data pos = .ok v next) :
    ∃ t : Byte, data.get? pos = some t ∧ v = t.val ∧ next = pos + 1 := by
  obtain ⟨obj, mid, h1, h2⟩ := Reader.bind_eq_ok h
  rw [Reader.pure_apply] at h2
  cases h2
  obtain ⟨hle, hobj, hmid⟩ := readPod_eq_ok h1
  have hlt : pos < data.length := by omega
  refine ⟨data[pos], by simp [List.getElem?_eq_getElem hlt], ?_, hmid⟩
  rw [hobj, List.drop_eq_getElem_cons hlt]
  simp [leValue]

theorem readPodBool_eq_ok {data : List Byte} {pos : Nat} {v : Bool} {next : Nat}
    (h : readPodBool data pos = .ok v next) : next = pos + 1 := by
  obtain ⟨obj, mid, h1, h2⟩ := Reader.bind_eq_ok h
  have hmid : next = mid := by
    split at h2
    · rw [Reader.pure_apply] at h2
      cases h2
      rfl
    · split at h2
      · rw [Reader.pure_apply] at h2
        cases h2
        rfl
      · cases h2
  rw [hmid]
  exact (readPod_eq_ok h1).2.2

theorem readPodDouble_eq_ok {data : List Byte} {pos : Nat} {v : Nat} {next : Nat}
    (h : readPodDouble data pos = .ok v next) : next = pos + 8 := by
  obtain ⟨obj, mid, h1, h2⟩ := Reader.bind_eq_ok h
  rw [Reader.pure_apply] at h2
  cases h2
  exact (readPod_eq_ok h1).2.2

/-- The bytes consumed by one round of the constants loop, by the tag byte at the cursor (the
cases are those of the switch, in its order). -/
theorem parseConstant_eq_ok {T : ConstantTags} {data : List Byte} {pos : Nat}
    {c : LuaConstant} {next : Nat} (h : parseConstant T data pos = .ok c next) :
    ∃ t : Byte, data.get? pos = some t ∧
      (t.val = T.LUA_TNIL → c = LuaConstant.nil ∧ next = pos + 1 + 0) ∧
      (t.val ≠ T.LUA_TNIL → t.val = T.LUA_TBOOLEAN →
        (∃ b, c = LuaConstant.boolean b) ∧ next = pos + 1 + 1) ∧
      (t.val ≠ T.LUA_TNIL → t.val ≠ T.LUA_TBOOLEAN → t.val = T.LUA_TNUMBER →
        (∃ d, c = LuaConstant.number d) ∧ next = pos + 1 + 8) ∧
      (t.val ≠ T.LUA_TNIL → t.val ≠ T.LUA_TBOOLEAN → t.val ≠ T.LUA_TNUMBER →
        t.val = T.LUA_TSTRING ∧ (∃ s, c = LuaConstant.string s) ∧
        next = pos + 1 + (4 + leValue ((data.drop (pos + 1)).take 4))) := by
  unfold parseConstant at h
  obtain ⟨ct, mid, h1, h2⟩ := Reader.bind_eq_ok h
  obtain ⟨t, ht, hct, hmid⟩ := readPodConstantType_eq_ok h1
  subst hmid hct
  refine ⟨t, ht, ?_, ?_, ?_, ?_⟩
  · intro e
    rw [if_pos e, Reader.pure_apply] at h2
    cases h2
    exact ⟨rfl, rfl⟩
  · intro e1 e2
    rw [if_neg e1, if_pos e2] at h2
    obtain ⟨b, mid2, h3, h4⟩ := Reader.bind_eq_ok h2
    rw [Reader.pure_apply] at h4
    cases h4
    exact ⟨⟨b, rfl⟩, readPodBool_eq_ok h3⟩
  · intro e1 e2 e3
    rw [if_neg e1, if_neg e2, if_pos e3] at h2
    obtain ⟨d, mid2, h3, h4⟩ := Reader.bind_eq_ok h2
    rw [Reader.pure_apply] at h4
    cases h4
    exact ⟨⟨d, rfl⟩, readPodDouble_eq_ok h3⟩
  · intro e1 e2 e3
    rw [if_neg e1, if_neg e2, if_neg e3] at h2
    by_cases e4 : t.val = T.LUA_TSTRING
    · rw [if_pos e4] at h2
      obtain ⟨s, mid2, h3, h4⟩ := Reader.bind_eq_ok h2
      rw [Reader.pure_apply] at h4
      cases h4
      obtain ⟨k1, _, k3, _⟩ := readLuaString_eq_ok h3
      exact ⟨e4, ⟨s, rfl⟩, by omega⟩
    · rw [if_neg e4] at h2
      cases h2

/-- C12: in a chunk returned by `parseChunk`, constant `k` was read from offset `starts[k]` to
offset `starts[k + 1]`, the first one just after the constant count: each constant starts
where the one before ended, and after its tag byte it takes 0 bytes for nil, 1 for boolean, 8
for number and 4 plus the declared length for string. -/
theorem constant_widths (T : ConstantTags) (fuel : Nat) (data : List Byte) (pos : Nat)
    (c : LuaChunk) (next : Nat) (h : parseChunk T fuel data pos = .ok c next) :
    ∃ (p0 : Nat) (n : Int) (starts : List Nat),
      readPodInt data p0 = .ok n (p0 + 4) ∧ c.constants.length = n.toNat ∧
      starts.length = c.constants.length + 1 ∧ starts.head? = some (p0 + 4) ∧
      ∀ k, k < c.constants.length → ∃ (x : LuaConstant) (p q : Nat) (t : Byte),
        c.constants.get? k = some x ∧ starts.get? k = some p ∧
        starts.get? (k + 1) = some q ∧ parseConstant T data p = .ok x q ∧
        data.get? p = some t ∧
        (t.val = T.LUA_TNIL → x = LuaConstant.nil ∧ q = p + 1 + 0) ∧
        (t.val ≠ T.LUA_TNIL → t.val = T.LUA_TBOOLEAN →
          (∃ b, x = LuaConstant.boolean b) ∧ q = p + 1 + 1) ∧
        (t.val ≠ T.LUA_TNIL → t.val ≠ T.LUA_TBOOLEAN → t.val = T.LUA_TNUMBER →
          (∃ d, x = LuaConstant.number d) ∧ q = p + 1 + 8) ∧
        (t.val ≠ T.LUA_TNIL → t.val ≠ T.LUA_TBOOLEAN → t.val ≠ T.LUA_TNUMBER →
          t.val = T.LUA_TSTRING ∧ (∃ s, x = LuaConstant.string s) ∧
          q = p + 1 + (4 + leValue ((data.drop (p + 1)).take 4))) := by
  obtain ⟨f, _, h⟩ := parseChunk_eq_ok h
  obtain ⟨p1, p2, p3, p4, p5, p6, p7, p8, p9, p10, p11, p12, _, _, _, _, _, _, _, _, h9,
    _⟩ := parseChunkWith_eq_ok h
  unfold parseConstants at h9
  obtain ⟨n, mid, k1, k2⟩ := Reader.bind_eq_ok h9
  obtain ⟨_, _, hmid⟩ := readPodInt_eq_ok k1
  subst hmid
  have hlen := (repeatRead_mem _ data _ _ _ _ k2).1
  obtain ⟨starts, hl, hh, _, hk⟩ := repeatRead_chain _ data _ _ _ _ k2
  refine ⟨p8, n, starts, k1, hlen, by rw [hl, hlen], hh, ?_⟩
  intro k hkn
  obtain ⟨x, p, q, e1, e2, e3, e4⟩ := hk k (by rw [← hlen]; exact hkn)
  obtain ⟨t, ht, c1, c2, c3, c4⟩ := parseConstant_eq_ok e4
  exact ⟨x, p, q, t, e1, e2, e3, e4, ht, c1, c2, c3, c4⟩

set_option maxRecDepth 100000 in
theorem constant_widths_witness :
    ∃ (p0 : Nat) (n : Int) (starts : List Nat),
      readPodInt (encodeFile lua51Tags sampleTree) p0 = .ok n (p0 + 4) ∧
      sampleTree.constants.length = n.toNat ∧
      starts.length = sampleTree.constants.length + 1 ∧ starts.head? = some (p0 + 4) ∧
      ∀ k, k < sampleTree.constants.length → ∃ (x : LuaConstant) (p q : Nat) (t : Byte),
        sampleTree.constants.get? k = some x ∧ starts.get? k = some p ∧
        starts.get? (k + 1) = some q ∧
        parseConstant lua51Tags (encodeFile lua51Tags sampleTree) p = .ok x q ∧
        (encodeFile lua51Tags sampleTree).get? p = some t ∧
        (t.val = lua51Tags.LUA_TNIL → x = LuaConstant.nil ∧ q = p + 1 + 0) ∧
        (t.val ≠ lua51Tags.LUA_TNIL → t.val = lua51Tags.LUA_TBOOLEAN →
          (∃ b, x = LuaConstant.boolean b) ∧ q = p + 1 + 1) ∧
        (t.val ≠ lua51Tags.LUA_TNIL → t.val ≠ lua51Tags.LUA_TBOOLEAN →
          t.val = lua51Tags.LUA_TNUMBER → (∃ d, x = LuaConstant.number d) ∧ q = p + 1 + 8) ∧
        (t.val ≠ lua51Tags.LUA_TNIL → t.val ≠ lua51Tags.LUA_TBOOLEAN →
          t.val ≠ lua51Tags.LUA_TNUMBER →
          t.val = lua51Tags.LUA_TSTRING ∧ (∃ s, x = LuaConstant.string s) ∧
          q = p + 1 + (4 + leValue (((encodeFile lua51Tags sampleTree).drop (p + 1)).take
            4))) :=
  constant_widths lua51Tags 167 (encodeFile lua51Tags sampleTree) 12 sampleTree 167 (by rfl)

/-! ## Trailing bytes -/

theorem fuelLe_ParseWithFuel (T : ConstantTags) {f1 f2 : Nat} (h : f1 ≤ f2) :
    Reader.FuelLe (ParseWithFuel T f1) (ParseWithFuel T f2) := by
  refine fuelLe_bind (fuelLe_refl _) (fun hdr => ?_)
  by_cases hc : hdr.bytes ≠ supportedHeader.bytes
  · simp only [if_pos hc]
    exact fuelLe_refl _
  · simp only [if_neg hc]
    exact parseChunk_fuel_mono T h

/-- C18: when `Parse` succeeds on `b` with the tree `t` after consuming `n` bytes, it succeeds
on `b` followed by any bytes `x`, with the same tree and the same `n`; the bytes after offset
`n` are never read. -/
theorem trailing_bytes_ignored (T : ConstantTags) (b x : List Byte) (t : LuaChunk) (n : Nat)
    (h : Parse T b = .ok t n) : Parse T (b ++ x) = .ok t n ∧ n ≤ b.length := by
  unfold Parse at h
  have hs := sound_ParseWithFuel T b.length
  have hn : n ≤ b.length := hs.inBounds b 0 t n h (Nat.zero_le _)
  have hext : ParseWithFuel T b.length (b ++ x) 0 = .ok t n :=
    hs.extend b 0 t n h (b ++ x) (List.take_append_of_le_length hn)
  refine ⟨?_, hn⟩
  unfold Parse
  have hle : b.length ≤ (b ++ x).length := by
    rw [List.length_append]
    omega
  rcases fuelLe_ParseWithFuel T hle (b ++ x) 0 with h1 | h1
  · rw [hext] at h1
    cases h1
  · rw [h1]
    exact hext

theorem trailing_bytes_ignored_witness :
    Parse lua51Tags (minimalChunk ++ [0xDE, 0xAD, 0xBE, 0xEF]) =
      .ok (LuaChunk.mk [] 0 0 0 0 2 2 [] [] [] [] [] []) 52 ∧ 52 ≤ minimalChunk.length :=
  trailing_bytes_ignored lua51Tags minimalChunk [0xDE, 0xAD, 0xBE, 0xEF] _ 52 (by rfl)

/-! ## Termination -/

theorem readList_advance {α : Type} {func : Nat → α} {data : List Byte} {pos : Nat}
    {xs : List α} {next : Nat} (h : readList func data pos = .ok xs next) :
    next = pos + 4 + 4 * xs.length := by
  obtain ⟨n, _, _, hnext, _⟩ := readList_eq_ok h
  exact hnext

/-- The offset reached by the statements of `parseChunk` before the constants. -/
theorem chunkHead_eq_ok {data : List Byte} {pos : Nat} {hd : ChunkHead} {next : Nat}
    (h : chunkHead data pos = .ok hd next) :
    next = pos + 4 + hd.sourceName.length + 16 + 4 * hd.instructions.length ∧
      next ≤ data.length := by
  unfold chunkHead at h
  obtain ⟨v1, p1, h1, h⟩ := Reader.bind_eq_ok h
  obtain ⟨v2, p2, h2, h⟩ := Reader.bind_eq_ok h
  obtain ⟨v3, p3, h3, h⟩ := Reader.bind_eq_ok h
  obtain ⟨v4, p4, h4, h⟩ := Reader.bind_eq_ok h
  obtain ⟨v5, p5, h5, h⟩ := Reader.bind_eq_ok h
  obtain ⟨v6, p6, h6, h⟩ := Reader.bind_eq_ok h
  obtain ⟨v7, p7, h7, h⟩ := Reader.bind_eq_ok h
  obtain ⟨v8, p8, h8, h⟩ := Reader.bind_eq_ok h
  rw [Reader.pure_apply] at h
  cases h
  have e1 := (readLuaString_eq_ok h1).1
  have e2 := (readPodInt_eq_ok h2).2.2
  have e3 := (readPodInt_eq_ok h3).2.2
  have e4 := (readPodUInt8_eq_ok h4).2
  have e5 := (readPodUInt8_eq_ok h5).2
  have e6 := (readPodUInt8_eq_ok h6).2
  have e7 := (readPodUInt8_eq_ok h7)
  have e8 := readList_advance h8
  have e9 := (sound_readList LuaInstruction.mk).inBounds _ _ _ _ h8 (by omega)
  exact ⟨by show next = pos + 4 + v1.length + 16 + 4 * v8.length; omega, e9⟩

/-- A recursive call of `parseChunk` is made at least 28 bytes after the start of the call that
makes it, and inside the buffer. -/
theorem callsAt_advance {T : ConstantTags} {data : List Byte} {fuel pos p : Nat}
    (h : CallsAt T data fuel pos p) : pos + 28 ≤ p ∧ p ≤ data.length := by
  obtain ⟨hd, p0, cs, p1, n, p2, k, ps, h1, h2, h3, _, h5⟩ := h
  obtain ⟨e1, e2⟩ := chunkHead_eq_ok h1
  have a2 := (sound_parseConstants T).advance _ _ _ _ h2
  have b2 := (sound_parseConstants T).inBounds _ _ _ _ h2 e2
  unfold parseConstants at h2
  obtain ⟨m, mid, k1, k2⟩ := Reader.bind_eq_ok h2
  have c1 := (readPodInt_eq_ok k1).2.2
  have c2 := (sound_repeatRead (sound_parseConstant T) _).advance _ _ _ _ k2
  have e3 := (readPodInt_eq_ok h3)
  have a5 := (sound_repeatRead (sound_parseChunk T fuel) k).advance _ _ _ _ h5
  have b5 := (sound_repeatRead (sound_parseChunk T fuel) k).inBounds _ _ _ _ h5 (by omega)
  constructor
  · omega
  · exact b5

theorem nested_advance {T : ConstantTags} {data : List Byte} {f pos f1 p1 : Nat}
    (h : Nested T data f pos f1 p1) : pos + 28 ≤ p1 ∧ p1 ≤ data.length ∧ f1 < f := by
  induction h with
  | child hc =>
    obtain ⟨h1, h2⟩ := callsAt_advance hc
    exact ⟨h1, h2, Nat.lt_succ_self _⟩
  | deeper hc _ ih =>
    obtain ⟨h1, _⟩ := callsAt_advance hc
    obtain ⟨h3, h4, h5⟩ := ih
    exact ⟨by omega, h4, by omega⟩

theorem fueled_parseHeader (data : List Byte) (lo : Nat) :
    Reader.Fueled parseHeader data lo := by
  unfold Konfet.parseHeader
  repeat' first
    | exact fueled_pure _ _ _
    | exact fueled_readPod _ _ _
    | exact fueled_readPodUInt8 _ _
    | exact sound_readBytes _
    | exact sound_readPodUInt8
    | refine fueled_bind ?_ ?_ (fun _ => ?_)

/-- The fuel that `Parse` gives to `parseChunk` is never used up. -/
theorem Parse_ne_outOfFuel (T : ConstantTags) (data : List Byte) :
    Parse T data ≠ .outOfFuel := by
  unfold Parse
  by_cases hlen : 12 ≤ data.length
  · rw [ParseWithFuel_eq T _ data hlen]
    split
    · exact parseChunk_fuel_enough T data data.length 12 hlen (by omega)
    · exact fun h => by cases h
  · unfold ParseWithFuel
    cases h : parseHeader data 0 with
    | ok hdr mid => exact absurd (parseHeader_eq_ok h) hlen
    | throws e => rw [Reader.bind_throws h]; exact fun h => by cases h
    | outOfBounds q => rw [Reader.bind_outOfBounds h]; exact fun h => by cases h
    | invalidBool b => rw [Reader.bind_invalidBool h]; exact fun h => by cases h
    | outOfFuel => exact absurd h (fueled_parseHeader data 0 0 (Nat.le_refl _) (Nat.zero_le _))

/-! ## The size of the decoded tree -/

theorem LuaChunk.size_eq (c : LuaChunk) : c.size = 1 + LuaChunk.sizeAll c.protos := by
  cases c
  simp [LuaChunk.size, LuaChunk.protos]

theorem LuaChunk.depth_eq (c : LuaChunk) : c.depth = 1 + LuaChunk.depthAll c.protos := by
  cases c
  simp [LuaChunk.depth, LuaChunk.protos]

/-- A count followed by a loop takes at least the four bytes of the count. -/
theorem counted_advance {α : Type} {body : Reader α} (hb : Reader.Sound body)
    {data : List Byte} {pos : Nat} {xs : List α} {next : Nat}
    (h : (readPodInt >>= fun size => forCount size body) data pos = .ok xs next) :
    pos + 4 ≤ next := by
  obtain ⟨n, mid, h1, h2⟩ := Reader.bind_eq_ok h
  have e1 := (readPodInt_eq_ok h1).2.2
  have e2 := (sound_forCount hb n).advance _ _ _ _ h2
  omega

/-- The nested chunks read by a loop take at least 40 bytes each. -/
theorem repeatRead_size {self : Reader LuaChunk} {data : List Byte}
    (hself : ∀ pos c next, self data pos = .ok c next →
      pos + 40 * c.size ≤ next ∧ c.depth ≤ c.size) :
    ∀ (n start next : Nat) (ps : List LuaChunk), repeatRead self n data start = .ok ps next →
      start + 40 * LuaChunk.sizeAll ps ≤ next ∧
        LuaChunk.depthAll ps ≤ LuaChunk.sizeAll ps := by
  intro n
  induction n with
  | zero =>
    intro start next ps h
    simp only [repeatRead, Reader.pure_apply] at h
    cases h
    simp [LuaChunk.sizeAll, LuaChunk.depthAll]
  | succ n ih =>
    intro start next ps h
    unfold repeatRead at h
    obtain ⟨x, mid, h1, h2⟩ := Reader.bind_eq_ok h
    obtain ⟨ys, mid2, h3, h4⟩ := Reader.bind_eq_ok h2
    rw [Reader.pure_apply] at h4
    cases h4
    obtain ⟨a1, a2⟩ := hself _ _ _ h1
    obtain ⟨b1, b2⟩ := ih _ _ _ h3
    simp only [LuaChunk.sizeAll, LuaChunk.depthAll]
    constructor
    · omega
    · omega

/-- A chunk returned by the body of `parseChunk` took at least 40 bytes for each chunk of its
tree, when this holds for the chunks returned by the recursive call. -/
theorem parseChunkWith_size {T : ConstantTags} {self : Reader LuaChunk} {data : List Byte}
    (hself : ∀ pos c next, self data pos = .ok c next →
      pos + 40 * c.size ≤ next ∧ c.depth ≤ c.size)
    {pos : Nat} {c : LuaChunk} {next : Nat}
    (h : parseChunkWith T self data pos = .ok c next) :
    pos + 40 * c.size ≤ next ∧ c.depth ≤ c.size := by
  obtain ⟨p1, p2, p3, p4, p5, p6, p7, p8, p9, p10, p11, p12, h1, h2, h3, h4, h5, h6, h7, h8,
    h9, h10, h11, h12, h13⟩ := parseChunkWith_eq_ok h
  have e1 := (readLuaString_eq_ok h1).1
  have e2 := (readPodInt_eq_ok h2).2.2
  have e3 := (readPodInt_eq_ok h3).2.2
  have e4 := (readPodUInt8_eq_ok h4).2
  have e5 := (readPodUInt8_eq_ok h5).2
  have e6 := (readPodUInt8_eq_ok h6).2
  have e7 := (readPodUInt8_eq_ok h7).2
  have e8 := readList_advance h8
  have e9 := counted_advance (sound_parseConstant T) h9
  have e11 := counted_advance sound_readPodInt h11
  have e12 := counted_advance sound_parseLocal h12
  have e13 := counted_advance sound_readLuaString h13
  unfold parseProtos at h10
  obtain ⟨n, mid, k1, k2⟩ := Reader.bind_eq_ok h10
  have e10 := (readPodInt_eq_ok k1).2.2
  obtain ⟨s1, s2⟩ := repeatRead_size hself _ _ _ _ k2
  rw [LuaChunk.size_eq, LuaChunk.depth_eq]
  constructor
  · omega
  · omega

theorem parseChunk_size (T : ConstantTags) (data : List Byte) :
    ∀ (fuel pos : Nat) (c : LuaChunk) (next : Nat), parseChunk T fuel data pos = .ok c next →
      pos + 40 * c.size ≤ next ∧ c.depth ≤ c.size := by
  intro fuel
  induction fuel with
  | zero => intro pos c next h; cases h
  | succ fuel ih =>
    intro pos c next h
    exact parseChunkWith_size ih h

/-! ## The recursion of `parseChunk` -/

/-- A call of `parseChunk` with fewer than four bytes left reads the length of the source
name past the end of the buffer. -/
theorem parseChunk_short (T : ConstantTags) (data : List Byte) (fuel pos : Nat)
    (h : data.length < pos + 4) :
    parseChunk T (fuel + 1) data pos = .outOfBounds (pos + 4) := by
  have hs : readLuaString data pos = .outOfBounds (pos + 4) := by
    rw [readLuaString_eq, if_neg (by omega), if_neg (by omega)]
  show parseChunkWith T (parseChunk T fuel) data pos = _
  unfold parseChunkWith
  exact Reader.bind_outOfBounds hs

/-- C17 (as stated, refuted): in a buffer of 40 bytes whose main chunk declares `0x7FFFFFFF`
nested prototypes, the recursive invocation for the first prototype starts at offset 40, with
no byte left: it does not consume the four bytes of a source-name length, its first read is
past the end of the buffer, and neither it nor `Parse` ends by returning or by throwing. -/
theorem nested_call_reads_past_end :
    hugeProtoCountChunk.length = 40 ∧
    Nested lua51Tags hugeProtoCountChunk 41 12 40 40 ∧
    readLuaString hugeProtoCountChunk 40 = .outOfBounds 44 ∧
    parseChunk lua51Tags 40 hugeProtoCountChunk 40 = .outOfBounds 44 ∧
    parseChunk lua51Tags 41 hugeProtoCountChunk 12 = .outOfBounds 44 ∧
    Parse lua51Tags hugeProtoCountChunk = .outOfBounds 44 ∧
    (Parse lua51Tags hugeProtoCountChunk).ended = false := by
  have hs : readLuaString hugeProtoCountChunk 40 = .outOfBounds 44 := by rfl
  have hc : CallsAt lua51Tags hugeProtoCountChunk 40 12 40 :=
    ⟨⟨[], 0, 0, 0, 0, 2, 2, []⟩, 32, [], 36, 2147483647, 40, 0, [],
      by rfl, by rfl, by rfl, by decide, by rfl⟩
  have h40 : parseChunk lua51Tags 40 hugeProtoCountChunk 40 = .outOfBounds 44 :=
    parseChunk_short lua51Tags hugeProtoCountChunk 39 40 (by decide)
  have h41 : parseChunk lua51Tags 41 hugeProtoCountChunk 12 = .outOfBounds 44 := by
    show parseChunkWith lua51Tags (parseChunk lua51Tags 40) hugeProtoCountChunk 12 = _
    rw [parseChunkWith_eq]
    have e1 : chunkHead hugeProtoCountChunk 12 = .ok ⟨[], 0, 0, 0, 0, 2, 2, []⟩ 32 := by rfl
    have e2 : parseConstants lua51Tags hugeProtoCountChunk 32 = .ok [] 36 := by rfl
    have e3 : readPodInt hugeProtoCountChunk 36 = .ok 2147483647 40 := by rfl
    have e4 : parseProtos (parseChunk lua51Tags 40) hugeProtoCountChunk 36 =
        .outOfBounds 44 := by
      unfold parseProtos
      rw [Reader.bind_ok e3]
      show repeatRead (parseChunk lua51Tags 40) (2147483646 + 1) hugeProtoCountChunk 40 = _
      unfold repeatRead
      exact Reader.bind_outOfBounds h40
    rw [Reader.bind_ok e1, Reader.bind_ok e2]
    exact Reader.bind_outOfBounds e4
  have hP : Parse lua51Tags hugeProtoCountChunk = .outOfBounds 44 := by
    rw [Parse_eq_of_header lua51Tags hugeProtoCountChunk (by rfl)]
    rw [parseChunk_fuel_irrelevant lua51Tags hugeProtoCountChunk hugeProtoCountChunk.length 41
      12 (by decide) (by decide) (by decide)]
    exact h41
  refine ⟨by rfl, Nested.child hc, hs, h40, h41, hP, ?_⟩
  rw [hP]
  rfl

/-- C17 (amended): on every buffer, every recursive invocation of `parseChunk`, at any depth,
is made at least 28 bytes after the start of its caller, not past the end of the buffer, and
with less fuel, so the bytes left strictly decrease along every chain of nested calls and the
depth of the recursion is bounded by the bytes left, whatever counts the input declares: a
call inside the buffer with more fuel than bytes left never uses up the fuel, gives the same
outcome for every such fuel, and so does `Parse`.  That outcome is a return, a throw, or a
read that the code makes with no check past the end of the buffer or of an invalid `bool`,
after which nothing is established; a call that returns has stayed inside the buffer, and an
invocation that starts with fewer than four bytes left reads the source-name length past the
end of the buffer. -/
theorem parseChunk_recursion_bounded (T : ConstantTags) (data : List Byte) (pos fuel : Nat)
    (hpos : pos ≤ data.length) (hfuel : data.length - pos < fuel) :
    parseChunk T fuel data pos ≠ .outOfFuel ∧
    (∀ fuel1, data.length - pos < fuel1 →
      parseChunk T fuel1 data pos = parseChunk T fuel data pos) ∧
    (∀ f f1 p1, Nested T data f pos f1 p1 →
      pos + 28 ≤ p1 ∧ p1 ≤ data.length ∧ data.length - p1 < data.length - pos ∧ f1 < f) ∧
    Parse T data ≠ .outOfFuel ∧
    ((parseChunk T fuel data pos).ended = true ∨
      (∃ q, parseChunk T fuel data pos = .outOfBounds q) ∨
      (∃ b, parseChunk T fuel data pos = .invalidBool b)) ∧
    (∀ c next, parseChunk T fuel data pos = .ok c next → pos + 40 ≤ next ∧
      next ≤ data.length) ∧
    (∀ f1 p1, data.length < p1 + 4 →
      parseChunk T (f1 + 1) data p1 = .outOfBounds (p1 + 4)) := by
  have hne := parseChunk_fuel_enough T data fuel pos hpos (by omega)
  refine ⟨hne, ?_, ?_, Parse_ne_outOfFuel T data, ?_, ?_, ?_⟩
  · intro fuel1 h1
    exact parseChunk_fuel_irrelevant T data fuel1 fuel pos hpos (by omega) (by omega)
  · intro f f1 p1 hn
    obtain ⟨h1, h2, h3⟩ := nested_advance hn
    exact ⟨h1, h2, by omega, h3⟩
  · cases h : parseChunk T fuel data pos with
    | ok c next => exact Or.inl rfl
    | throws e => exact Or.inl rfl
    | outOfBounds q => exact Or.inr (Or.inl ⟨q, rfl⟩)
    | invalidBool b => exact Or.inr (Or.inr ⟨b, rfl⟩)
    | outOfFuel => exact absurd h hne
  · intro c next h
    have ha := (parseChunk_size T data fuel pos c next h).1
    have hb := (sound_parseChunk T fuel).inBounds _ _ _ _ h hpos
    have hc : 1 ≤ c.size := by rw [LuaChunk.size_eq]; omega
    exact ⟨by nlinarith, hb⟩
  · intro f1 p1 h
    exact parseChunk_short T data f1 p1 h

theorem parseChunk_recursion_bounded_witness :
    parseChunk lua51Tags 58 nestedBadTagChunk 12 ≠ .outOfFuel ∧
    (∀ f f1 p1, Nested lua51Tags nestedBadTagChunk f 12 f1 p1 →
      12 + 28 ≤ p1 ∧ p1 ≤ nestedBadTagChunk.length ∧
        nestedBadTagChunk.length - p1 < nestedBadTagChunk.length - 12 ∧ f1 < f) ∧
    Parse lua51Tags nestedBadTagChunk ≠ .outOfFuel :=
  have h := parseChunk_recursion_bounded lua51Tags nestedBadTagChunk 12 58 (by decide)
    (by decide)
  ⟨h.1, h.2.2.1, h.2.2.2.1⟩

/-! ## The bound on the decoded tree -/

/-- C19: when `Parse` succeeds after consuming `n` bytes, the 12 bytes of the header are
followed by at least 40 bytes for each chunk of the returned tree, so the number of chunks
(the root and all nested prototypes, at every depth) is at most `(n - 12) / 40`, and so is the
nesting depth. -/
theorem tree_bounded_by_input (T : ConstantTags) (data : List Byte) (c : LuaChunk) (n : Nat)
    (h : Parse T data = .ok c n) :
    12 + 40 * c.size ≤ n ∧ c.size ≤ (n - 12) / 40 ∧ c.depth ≤ (n - 12) / 40 := by
  obtain ⟨_, _, hp⟩ := Parse_eq_ok h
  obtain ⟨h1, h2⟩ := parseChunk_size T data _ _ _ _ hp
  have h3 : c.size ≤ (n - 12) / 40 := by
    rw [Nat.le_div_iff_mul_le (by decide)]
    omega
  exact ⟨h1, h3, Nat.le_trans h2 h3⟩

set_option maxRecDepth 100000 in
theorem tree_bounded_by_input_witness :
    sampleTree.size = 2 ∧ sampleTree.depth = 2 ∧
    12 + 40 * sampleTree.size ≤ 167 ∧ sampleTree.size ≤ (167 - 12) / 40 ∧
    sampleTree.depth ≤ (167 - 12) / 40 :=
  ⟨by rfl, by rfl,
    tree_bounded_by_input lua51Tags (encodeFile lua51Tags sampleTree) sampleTree 167 (by rfl)⟩

/-! ## Reads go forward -/

theorem forward_pure {α : Type} (a : α) : Reader.Forward (Pure.pure a : Reader α) :=
  fun _ _ _ _ _ => rfl

theorem forward_throw {α : Type} (e : ParseError) : Reader.Forward (Reader.throw e : Reader α) :=
  fun _ _ _ _ _ => rfl

theorem forward_invalidBool {α : Type} (b : Byte) :
    Reader.Forward (Reader.invalidBool b : Reader α) :=
  fun _ _ _ _ _ => rfl

theorem drop_eq_of_le {data data' : List Byte} {pos mid : Nat} (h : pos ≤ mid)
    (hd : data'.drop pos = data.drop pos) : data'.drop mid = data.drop mid := by
  have e : ∀ l : List Byte, l.drop mid = (l.drop pos).drop (mid - pos) := by
    intro l
    rw [List.drop_drop]
    congr 1
    omega
  rw [e data', e data, hd]

theorem forward_bind {α β : Type} {r : Reader α} {f : α → Reader β}
    (hr : Reader.Forward r) (hs : Reader.Sound r) (hf : ∀ a, Reader.Forward (f a)) :
    Reader.Forward (r >>= f) := by
  intro data data' pos hlen hd
  have h := hr data data' pos hlen hd
  cases k : r data pos with
  | ok a mid =>
    rw [k] at h
    rw [Reader.bind_ok k, Reader.bind_ok h]
    exact hf a data data' mid hlen (drop_eq_of_le (hs.advance _ _ _ _ k) hd)
  | throws e => rw [k] at h; rw [Reader.bind_throws k, Reader.bind_throws h]
  | outOfBounds q => rw [k] at h; rw [Reader.bind_outOfBounds k, Reader.bind_outOfBounds h]
  | invalidBool b => rw [k] at h; rw [Reader.bind_invalidBool k, Reader.bind_invalidBool h]
  | outOfFuel => rw [k] at h; rw [Reader.bind_outOfFuel k, Reader.bind_outOfFuel h]

theorem forward_ite {α : Type} {c : Prop} [Decidable c] {r1 r2 : Reader α}
    (h1 : Reader.Forward r1) (h2 : Reader.Forward r2) :
    Reader.Forward (if c then r1 else r2) := by
  split
  · exact h1
  · exact h2

theorem forward_readPod (w : Nat) : Reader.Forward (readPod w) := by
  intro data data' pos hlen hd
  unfold readPod
  rw [hlen, hd]

theorem forward_readChar : Reader.Forward readChar := by
  intro data data' pos hlen hd
  unfold readChar
  have e : ∀ l : List Byte, l.get? pos = (l.drop pos).head? := by
    intro l
    simp [List.head?_drop]
  rw [e data', e data, hd]

theorem forward_repeatRead {α : Type} {body : Reader α} (hb : Reader.Forward body)
    (hs : Reader.Sound body) (n : Nat) : Reader.Forward (repeatRead body n) := by
  induction n with
  | zero => exact forward_pure _
  | succ n ih =>
    exact forward_bind hb hs
      (fun x => forward_bind ih (sound_repeatRead hs n) (fun xs => forward_pure _))

theorem forward_readPodUInt8 : Reader.Forward readPodUInt8 :=
  forward_bind (forward_readPod 1) (sound_readPod 1) (fun _ => forward_pure _)

theorem forward_readPodUInt32 : Reader.Forward readPodUInt32 :=
  forward_bind (forward_readPod 4) (sound_readPod 4) (fun _ => forward_pure _)

theorem forward_readPodInt : Reader.Forward readPodInt :=
  forward_bind (forward_readPod 4) (sound_readPod 4) (fun _ => forward_pure _)

theorem forward_readPodBool : Reader.Forward readPodBool :=
  forward_bind (forward_readPod 1) (sound_readPod 1)
    (fun _ => forward_ite (forward_pure _) (forward_ite (forward_pure _)
      (forward_invalidBool _)))

theorem forward_readPodDouble : Reader.Forward readPodDouble :=
  forward_bind (forward_readPod 8) (sound_readPod 8) (fun _ => forward_pure _)

theorem forward_readPodConstantType : Reader.Forward readPodConstantType :=
  forward_bind (forward_readPod 1) (sound_readPod 1) (fun _ => forward_pure _)

theorem forward_readLuaString : Reader.Forward readLuaString :=
  forward_bind forward_readPodUInt32 sound_readPodUInt32
    (fun _ => forward_repeatRead forward_readChar sound_readChar _)

theorem forward_readPodList : Reader.Forward readPodList :=
  forward_bind forward_readPodInt sound_readPodInt
    (fun _ => forward_repeatRead forward_readPodInt sound_readPodInt _)

theorem forward_parseConstant (T : ConstantTags) : Reader.Forward (parseConstant T) := by
  unfold Konfet.parseConstant
  repeat' first
    | exact forward_pure _
    | exact forward_throw _
    | exact forward_readPodConstantType
    | exact forward_readPodBool
    | exact forward_readPodDouble
    | exact forward_readLuaString
    | exact sound_readPodConstantType
    | exact sound_readPodBool
    | exact sound_readPodDouble
    | exact sound_readLuaString
    | refine forward_ite ?_ ?_
    | refine forward_bind ?_ ?_ (fun _ => ?_)

theorem forward_parseConstants (T : ConstantTags) : Reader.Forward (parseConstants T) :=
  forward_bind forward_readPodInt sound_readPodInt
    (fun _ => forward_repeatRead (forward_parseConstant T) (sound_parseConstant T) _)

theorem forward_parseProtos {self : Reader LuaChunk} (hf : Reader.Forward self)
    (hs : Reader.Sound self) : Reader.Forward (parseProtos self) :=
  forward_bind forward_readPodInt sound_readPodInt (fun _ => forward_repeatRead hf hs _)

theorem forward_parseLocal : Reader.Forward parseLocal := by
  unfold Konfet.parseLocal
  repeat' first
    | exact forward_pure _
    | exact forward_readPodUInt32
    | exact forward_readLuaString
    | exact sound_readPodUInt32
    | exact sound_readLuaString
    | refine forward_bind ?_ ?_ (fun _ => ?_)

theorem forward_parseLocals : Reader.Forward parseLocals :=
  forward_bind forward_readPodInt sound_readPodInt
    (fun _ => forward_repeatRead forward_parseLocal sound_parseLocal _)

theorem forward_parseUpvalues : Reader.Forward parseUpvalues :=
  forward_bind forward_readPodInt sound_readPodInt
    (fun _ => forward_repeatRead forward_readLuaString sound_readLuaString _)

theorem forward_chunkTail (T : ConstantTags) {self : Reader LuaChunk}
    (hf : Reader.Forward self) (hs : Reader.Sound self) :
    Reader.Forward (chunkTail T self) := by
  unfold Konfet.chunkTail
  repeat' first
    | exact forward_pure _
    | exact forward_parseConstants T
    | exact forward_parseProtos hf hs
    | exact forward_readPodList
    | exact forward_parseLocals
    | exact forward_parseUpvalues
    | exact sound_parseConstants T
    | exact sound_parseProtos hs
    | exact sound_readPodList
    | exact sound_parseLocals
    | exact sound_parseUpvalues
    | refine forward_bind ?_ ?_ (fun _ => ?_)

theorem forward_parseChunkWith (T : ConstantTags) {self : Reader LuaChunk}
    (hf : Reader.Forward self) (hs : Reader.Sound self) :
    Reader.Forward (parseChunkWith T self) := by
  unfold Konfet.parseChunkWith
  repeat' first
    | exact forward_pure _
    | exact forward_readLuaString
    | exact forward_readPodInt
    | exact forward_readPodUInt8
    | exact forward_bind forward_readPodInt sound_readPodInt
        (fun _ => forward_repeatRead
          (forward_bind forward_readPodUInt32 sound_readPodUInt32 (fun _ => forward_pure _))
          (sound_bind sound_readPodUInt32 (fun _ => sound_pure _)) _)
    | exact forward_parseConstants T
    | exact forward_parseProtos hf hs
    | exact forward_readPodList
    | exact forward_parseLocals
    | exact forward_parseUpvalues
    | exact sound_readLuaString
    | exact sound_readPodInt
    | exact sound_readPodUInt8
    | exact sound_readList _
    | exact sound_parseConstants T
    | exact sound_parseProtos hs
    | exact sound_readPodList
    | exact sound_parseLocals
    | exact sound_parseUpvalues
    | refine forward_bind ?_ ?_ (fun _ => ?_)

theorem forward_parseChunk (T : ConstantTags) (fuel : Nat) :
    Reader.Forward (parseChunk T fuel) := by
  induction fuel with
  | zero => exact fun _ _ _ _ _ => rfl
  | succ fuel ih => exact forward_parseChunkWith T ih (sound_parseChunk T fuel)

theorem parseChunkWith_eq_head_tail (T : ConstantTags) (self : Reader LuaChunk) :
    parseChunkWith T self =
      chunkHead >>= fun hd => chunkTail T self >>= fun tl =>
        Pure.pure (LuaChunk.assemble hd tl) := by
  unfold chunkHead chunkTail parseChunkWith
  simp only [Reader.bind_assoc, Reader.pure_bind]
  rfl

/-! ## The instruction words -/

/-- The loop of `readList` returns one element for each 4-byte word when the words are in the
buffer, and reads past the end otherwise, whatever the words are. -/
theorem repeatRead_words_eq {α : Type} (func : Nat → α) (data : List Byte) :
    ∀ (n start : Nat), start ≤ data.length →
      repeatRead (readPodUInt32 >>= fun w => Pure.pure (func w)) n data start =
        if start + 4 * n ≤ data.length then .ok (wordsAt func data start n) (start + 4 * n)
        else .outOfBounds (start + 4 * ((data.length - start) / 4) + 4) := by
  intro n
  induction n with
  | zero =>
    intro start hs
    simp [repeatRead, Reader.pure_apply, wordsAt, hs]
  | succ n ih =>
    intro start hs
    unfold repeatRead
    by_cases h4 : start + 4 ≤ data.length
    · have hw : (readPodUInt32 >>= fun w => (Pure.pure (func w) : Reader α)) data start =
          .ok (func (leValue ((data.drop start).take 4))) (start + 4) := by
        have h := readPodUInt32_eq data start
        rw [if_pos h4] at h
        rw [Reader.bind_ok h]
        rfl
      rw [Reader.bind_ok hw]
      by_cases hfit : start + 4 * (n + 1) ≤ data.length
      · have h2 := ih (start + 4) h4
        rw [if_pos (by omega)] at h2
        rw [Reader.bind_ok h2, if_pos hfit, Reader.pure_apply]
        simp only [wordsAt]
        congr 1
        omega
      · have h2 := ih (start + 4) h4
        rw [if_neg (by omega)] at h2
        rw [Reader.bind_outOfBounds h2, if_neg hfit]
        congr 1
        omega
    · have hw : (readPodUInt32 >>= fun w => (Pure.pure (func w) : Reader α)) data start =
          .outOfBounds (start + 4) := by
        have h := readPodUInt32_eq data start
        rw [if_neg h4] at h
        exact Reader.bind_outOfBounds h
      rw [Reader.bind_outOfBounds hw, if_neg (by omega)]
      congr 1
      omega

theorem wordsAt_get {α : Type} (func : Nat → α) (data : List Byte) :
    ∀ (n start i : Nat), i < n →
      (wordsAt func data start n).get? i =
        some (func (leValue ((data.drop (start + 4 * i)).take 4))) := by
  intro n
  induction n with
  | zero => intro start i hi; omega
  | succ n ih =>
    intro start i hi
    cases i with
    | zero => simp [wordsAt]
    | succ i =>
      have := ih (start + 4) i (by omega)
      have e : start + 4 + 4 * i = start + 4 * (i + 1) := by omega
      rw [e] at this
      simpa [wordsAt] using this

theorem length_wordsAt {α : Type} (func : Nat → α) (data : List Byte) :
    ∀ (n start : Nat), (wordsAt func data start n).length = n := by
  intro n
  induction n with
  | zero => intro start; rfl
  | succ n ih => intro start; simp [wordsAt, ih]

/-- What `readList` does, by the count at the cursor and the length of the buffer. -/
theorem readList_eq {α : Type} (func : Nat → α) (data : List Byte) (pos : Nat) (n : Int)
    (hcount : readPodInt data pos = .ok n (pos + 4)) :
    readList func data pos =
      if pos + 4 + 4 * n.toNat ≤ data.length then
        .ok (wordsAt func data (pos + 4) n.toNat) (pos + 4 + 4 * n.toNat)
      else .outOfBounds (pos + 4 + 4 * ((data.length - (pos + 4)) / 4) + 4) := by
  unfold readList
  rw [Reader.bind_ok hcount]
  exact repeatRead_words_eq func data n.toNat (pos + 4) (readPodInt_eq_ok hcount).1

theorem take_eq_of_le {data data' : List Byte} {a m : Nat} (h : m ≤ a)
    (ht : data'.take a = data.take a) : data'.take m = data.take m := by
  have := congrArg (List.take m) ht
  simpa [List.take_take, Nat.min_eq_left h] using this

theorem readPodUInt8_of_le {data : List Byte} {pos : Nat} (h : pos + 1 ≤ data.length) :
    readPodUInt8 data pos = .ok (((data.drop pos).take 1).headD 0) (pos + 1) := by
  unfold readPodUInt8
  rw [Reader.bind_ok (readPod_of_le h)]
  rfl

/-- The statements of `parseChunk` before the constants, on two buffers of the same length
that have the same bytes up to the first instruction word: both return, at the same offset and
with values that differ only in the instructions, or both read past the end at the same
offset. -/
theorem chunkHead_words (data data' : List Byte) (pos L : Nat) (n : Int)
    (hlen : data'.length = data.length)
    (hL : L = leValue ((data.drop pos).take 4))
    (hn : n = toInt32 (leValue ((data.drop (pos + 4 + L + 12)).take 4)))
    (ha : pos + 4 + L + 16 ≤ data.length)
    (hbefore : data'.take (pos + 4 + L + 16) = data.take (pos + 4 + L + 16)) :
    (∃ hd : ChunkHead,
      hd.instructions = wordsAt LuaInstruction.mk data (pos + 4 + L + 16) n.toNat ∧
      chunkHead data pos = .ok hd (pos + 4 + L + 16 + 4 * n.toNat) ∧
      chunkHead data' pos =
        .ok ⟨hd.sourceName, hd.lineDefined, hd.lastLineDefined, hd.numUpvalues,
          hd.numParameters, hd.varargFlags, hd.maxStackSize,
          wordsAt LuaInstruction.mk data' (pos + 4 + L + 16) n.toNat⟩
          (pos + 4 + L + 16 + 4 * n.toNat)) ∨
    (∃ q, chunkHead data pos = .outOfBounds q ∧ chunkHead data' pos = .outOfBounds q) := by
  have h1 : readLuaString data pos =
      .ok ((data.drop (pos + 4)).take L) (pos + 4 + L) := by
    rw [readLuaString_eq, ← hL, if_pos (by omega)]
  have h2 : readPodInt data (pos + 4 + L) =
      .ok (toInt32 (leValue ((data.drop (pos + 4 + L)).take 4))) (pos + 4 + L + 4) := by
    rw [readPodInt_eq, if_pos (by omega)]
  have h3 : readPodInt data (pos + 4 + L + 4) =
      .ok (toInt32 (leValue ((data.drop (pos + 4 + L + 4)).take 4)))
        (pos + 4 + L + 4 + 4) := by
    rw [readPodInt_eq, if_pos (by omega)]
  have h4 : readPodUInt8 data (pos + 4 + L + 4 + 4) =
      .ok (((data.drop (pos + 4 + L + 4 + 4)).take 1).headD 0) (pos + 4 + L + 4 + 4 + 1) :=
    readPodUInt8_of_le (by omega)
  have h5 : readPodUInt8 data (pos + 4 + L + 4 + 4 + 1) =
      .ok (((data.drop (pos + 4 + L + 4 + 4 + 1)).take 1).headD 0)
        (pos + 4 + L + 4 + 4 + 1 + 1) := readPodUInt8_of_le (by omega)
  have h6 : readPodUInt8 data (pos + 4 + L + 4 + 4 + 1 + 1) =
      .ok (((data.drop (pos + 4 + L + 4 + 4 + 1 + 1)).take 1).headD 0)
        (pos + 4 + L + 4 + 4 + 1 + 1 + 1) := readPodUInt8_of_le (by omega)
  have h7 : readPodUInt8 data (pos + 4 + L + 4 + 4 + 1 + 1 + 1) =
      .ok (((data.drop (pos + 4 + L + 4 + 4 + 1 + 1 + 1)).take 1).headD 0)
        (pos + 4 + L + 4 + 4 + 1 + 1 + 1 + 1) := readPodUInt8_of_le (by omega)
  have e7 : pos + 4 + L + 4 + 4 + 1 + 1 + 1 + 1 = pos + 4 + L + 12 := by omega
  have h8 : readPodInt data (pos + 4 + L + 12) = .ok n (pos + 4 + L + 12 + 4) := by
    rw [readPodInt_eq, if_pos (by omega), hn]
  have k1 := sound_readLuaString.extend _ _ _ _ h1 data' (take_eq_of_le (by omega) hbefore)
  have k2 := sound_readPodInt.extend _ _ _ _ h2 data' (take_eq_of_le (by omega) hbefore)
  have k3 := sound_readPodInt.extend _ _ _ _ h3 data' (take_eq_of_le (by omega) hbefore)
  have k4 := sound_readPodUInt8.extend _ _ _ _ h4 data' (take_eq_of_le (by omega) hbefore)
  have k5 := sound_readPodUInt8.extend _ _ _ _ h5 data' (take_eq_of_le (by omega) hbefore)
  have k6 := sound_readPodUInt8.extend _ _ _ _ h6 data' (take_eq_of_le (by omega) hbefore)
  have k7 := sound_readPodUInt8.extend _ _ _ _ h7 data' (take_eq_of_le (by omega) hbefore)
  have k8 := sound_readPodInt.extend _ _ _ _ h8 data' (take_eq_of_le (by omega) hbefore)
  have r := readList_eq LuaInstruction.mk data (pos + 4 + L + 12) n h8
  have r' := readList_eq LuaInstruction.mk data' (pos + 4 + L + 12) n k8
  rw [hlen] at r'
  have e16 : pos + 4 + L + 12 + 4 = pos + 4 + L + 16 := by omega
  rw [e16] at r r'
  have c : ∀ d : List Byte,
      readLuaString d pos = .ok ((data.drop (pos + 4)).take L) (pos + 4 + L) →
      readPodInt d (pos + 4 + L) =
        .ok (toInt32 (leValue ((data.drop (pos + 4 + L)).take 4))) (pos + 4 + L + 4) →
      readPodInt d (pos + 4 + L + 4) =
        .ok (toInt32 (leValue ((data.drop (pos + 4 + L + 4)).take 4)))
          (pos + 4 + L + 4 + 4) →
      readPodUInt8 d (pos + 4 + L + 4 + 4) =
        .ok (((data.drop (pos + 4 + L + 4 + 4)).take 1).headD 0) (pos + 4 + L + 4 + 4 + 1) →
      readPodUInt8 d (pos + 4 + L + 4 + 4 + 1) =
        .ok (((data.drop (pos + 4 + L + 4 + 4 + 1)).take 1).headD 0)
          (pos + 4 + L + 4 + 4 + 1 + 1) →
      readPodUInt8 d (pos + 4 + L + 4 + 4 + 1 + 1) =
        .ok (((data.drop (pos + 4 + L + 4 + 4 + 1 + 1)).take 1).headD 0)
          (pos + 4 + L + 4 + 4 + 1 + 1 + 1) →
      readPodUInt8 d (pos + 4 + L + 4 + 4 + 1 + 1 + 1) =
        .ok (((data.drop (pos + 4 + L + 4 + 4 + 1 + 1 + 1)).take 1).headD 0)
          (pos + 4 + L + 4 + 4 + 1 + 1 + 1 + 1) →
      chunkHead d pos =
        (readList LuaInstruction.mk >>= fun is => (Pure.pure
          ⟨(data.drop (pos + 4)).take L,
            toInt32 (leValue ((data.drop (pos + 4 + L)).take 4)),
            toInt32 (leValue ((data.drop (pos + 4 + L + 4)).take 4)),
            ((data.drop (pos + 4 + L + 4 + 4)).take 1).headD 0,
            ((data.drop (pos + 4 + L + 4 + 4 + 1)).take 1).headD 0,
            ((data.drop (pos + 4 + L + 4 + 4 + 1 + 1)).take 1).headD 0,
            ((data.drop (pos + 4 + L + 4 + 4 + 1 + 1 + 1)).take 1).headD 0, is⟩ :
          Reader ChunkHead)) d (pos + 4 + L + 12) := by
    intro d g1 g2 g3 g4 g5 g6 g7
    unfold chunkHead
    rw [Reader.bind_ok g1, Reader.bind_ok g2, Reader.bind_ok g3, Reader.bind_ok g4,
      Reader.bind_ok g5, Reader.bind_ok g6, Reader.bind_ok g7, e7]
  have cd := c data h1 h2 h3 h4 h5 h6 h7
  have cd' := c data' k1 k2 k3 k4 k5 k6 k7
  by_cases hfit : pos + 4 + L + 16 + 4 * n.toNat ≤ data.length
  · rw [if_pos hfit] at r r'
    left
    refine ⟨⟨(data.drop (pos + 4)).take L,
      toInt32 (leValue ((data.drop (pos + 4 + L)).take 4)),
      toInt32 (leValue ((data.drop (pos + 4 + L + 4)).take 4)),
      ((data.drop (pos + 4 + L + 4 + 4)).take 1).headD 0,
      ((data.drop (pos + 4 + L + 4 + 4 + 1)).take 1).headD 0,
      ((data.drop (pos + 4 + L + 4 + 4 + 1 + 1)).take 1).headD 0,
      ((data.drop (pos + 4 + L + 4 + 4 + 1 + 1 + 1)).take 1).headD 0,
      wordsAt LuaInstruction.mk data (pos + 4 + L + 16) n.toNat⟩, rfl, ?_, ?_⟩
    · rw [cd, Reader.bind_ok r]
      rfl
    · rw [cd', Reader.bind_ok r']
      rfl
  · rw [if_neg hfit] at r r'
    right
    exact ⟨_, by rw [cd, Reader.bind_outOfBounds r], by rw [cd', Reader.bind_outOfBounds r']⟩

theorem assemble_withInstructions (hd : ChunkHead) (tl : ChunkTail)
    (is : List LuaInstruction) :
    (LuaChunk.assemble hd tl).withInstructions is =
      LuaChunk.assemble ⟨hd.sourceName, hd.lineDefined, hd.lastLineDefined, hd.numUpvalues,
        hd.numParameters, hd.varargFlags, hd.maxStackSize, is⟩ tl := rfl

theorem assemble_instructions (hd : ChunkHead) (tl : ChunkTail) :
    (LuaChunk.assemble hd tl).instructions = hd.instructions := rfl

/-- The body of `parseChunk` on two buffers of the same length that differ only in the
instruction words of the chunk: both return, at the same offset and with chunks that differ
only in the instructions, or both fail in the same way. -/
theorem parseChunkWith_words (T : ConstantTags) {self : Reader LuaChunk}
    (hf : Reader.Forward self) (hs : Reader.Sound self) (data data' : List Byte)
    (pos L : Nat) (n : Int)
    (hlen : data'.length = data.length)
    (hL : L = leValue ((data.drop pos).take 4))
    (hn : n = toInt32 (leValue ((data.drop (pos + 4 + L + 12)).take 4)))
    (hbefore : data'.take (pos + 4 + L + 16) = data.take (pos + 4 + L + 16))
    (hafter : data'.drop (pos + 4 + L + 16 + 4 * n.toNat) =
      data.drop (pos + 4 + L + 16 + 4 * n.toNat)) :
    (∃ (c : LuaChunk) (next : Nat),
      c.instructions = wordsAt LuaInstruction.mk data (pos + 4 + L + 16) n.toNat ∧
      parseChunkWith T self data pos = .ok c next ∧
      parseChunkWith T self data' pos =
        .ok (c.withInstructions (wordsAt LuaInstruction.mk data' (pos + 4 + L + 16) n.toNat))
          next) ∨
    (parseChunkWith T self data' pos = parseChunkWith T self data pos ∧
      ∀ c next, parseChunkWith T self data pos ≠ .ok c next) := by
  by_cases ha : pos + 4 + L + 16 ≤ data.length
  · rcases chunkHead_words data data' pos L n hlen hL hn ha hbefore with
      ⟨hd, hi, hh, hh'⟩ | ⟨q, hq, hq'⟩
    · have ht := forward_chunkTail T hf hs data data' _ hlen hafter
      rw [parseChunkWith_eq_head_tail]
      cases k : chunkTail T self data (pos + 4 + L + 16 + 4 * n.toNat) with
      | ok tl next =>
        rw [k] at ht
        left
        refine ⟨LuaChunk.assemble hd tl, next, ?_, ?_, ?_⟩
        · rw [assemble_instructions]; exact hi
        · rw [Reader.bind_ok hh, Reader.bind_ok k]; rfl
        · rw [Reader.bind_ok hh', Reader.bind_ok ht]; rfl
      | throws e =>
        rw [k] at ht
        right
        rw [Reader.bind_ok hh, Reader.bind_ok hh', Reader.bind_throws k, Reader.bind_throws ht]
        exact ⟨rfl, fun c next h => by cases h⟩
      | outOfBounds q =>
        rw [k] at ht
        right
        rw [Reader.bind_ok hh, Reader.bind_ok hh', Reader.bind_outOfBounds k,
          Reader.bind_outOfBounds ht]
        exact ⟨rfl, fun c next h => by cases h⟩
      | invalidBool b =>
        rw [k] at ht
        right
        rw [Reader.bind_ok hh, Reader.bind_ok hh', Reader.bind_invalidBool k,
          Reader.bind_invalidBool ht]
        exact ⟨rfl, fun c next h => by cases h⟩
      | outOfFuel =>
        rw [k] at ht
        right
        rw [Reader.bind_ok hh, Reader.bind_ok hh', Reader.bind_outOfFuel k,
          Reader.bind_outOfFuel ht]
        exact ⟨rfl, fun c next h => by cases h⟩
    · right
      rw [parseChunkWith_eq_head_tail, Reader.bind_outOfBounds hq, Reader.bind_outOfBounds hq']
      exact ⟨rfl, fun c next h => by cases h⟩
  · right
    have hd : data' = data := by
      have h1 : data'.take (pos + 4 + L + 16) = data' :=
        List.take_of_length_le (by omega)
      have h2 : data.take (pos + 4 + L + 16) = data := List.take_of_length_le (by omega)
      rw [h1, h2] at hbefore
      exact hbefore
    refine ⟨by rw [hd], ?_⟩
    intro c next h
    obtain ⟨p1, p2, p3, p4, p5, p6, p7, p8, p9, p10, p11, p12, h1, h2, h3, h4, h5, h6, h7,
      h8, _⟩ := parseChunkWith_eq_ok h
    obtain ⟨e1, _, e1', _⟩ := readLuaString_eq_ok h1
    have e2 := (readPodInt_eq_ok h2).2.2
    have e3 := (readPodInt_eq_ok h3).2.2
    have e4 := (readPodUInt8_eq_ok h4).2
    have e5 := (readPodUInt8_eq_ok h5).2
    have e6 := (readPodUInt8_eq_ok h6).2
    have e7 := (readPodUInt8_eq_ok h7).2
    obtain ⟨m, hm, _⟩ := readList_eq_ok h8
    have e8 := (readPodInt_eq_ok hm).1
    omega

/-- C16: let two buffers of the same length differ only in the instruction words of the chunk
at `pos` (`L` is the declared length of its source name, `n` its declared instruction count).
Then `parseChunk` ends on both in the same way: the same exception or the same out-of-bounds
read on both, or a chunk on both, at the same offset and equal but for the instructions; the
words never make the decoding fail, and instruction `i` keeps the `i`-th word as its raw
value. -/
theorem instruction_words_irrelevant (T : ConstantTags) (fuel : Nat) (data data' : List Byte)
    (pos L : Nat) (n : Int)
    (hlen : data'.length = data.length)
    (hL : L = leValue ((data.drop pos).take 4))
    (hn : n = toInt32 (leValue ((data.drop (pos + 4 + L + 12)).take 4)))
    (hbefore : data'.take (pos + 4 + L + 16) = data.take (pos + 4 + L + 16))
    (hafter : data'.drop (pos + 4 + L + 16 + 4 * n.toNat) =
      data.drop (pos + 4 + L + 16 + 4 * n.toNat)) :
    (parseChunk T fuel data' pos).map (fun c => c.withInstructions []) =
      (parseChunk T fuel data pos).map (fun c => c.withInstructions []) ∧
    (∀ c next, parseChunk T fuel data pos = .ok c next →
      c.instructions = wordsAt LuaInstruction.mk data (pos + 4 + L + 16) n.toNat ∧
      parseChunk T fuel data' pos =
        .ok (c.withInstructions (wordsAt LuaInstruction.mk data' (pos + 4 + L + 16) n.toNat))
          next) ∧
    (∀ i, i < n.toNat →
      ((wordsAt LuaInstruction.mk data' (pos + 4 + L + 16) n.toNat).get? i).map
          LuaInstruction.raw =
        some (leValue ((data'.drop (pos + 4 + L + 16 + 4 * i)).take 4))) := by
  have h3 : ∀ i, i < n.toNat →
      ((wordsAt LuaInstruction.mk data' (pos + 4 + L + 16) n.toNat).get? i).map
          LuaInstruction.raw =
        some (leValue ((data'.drop (pos + 4 + L + 16 + 4 * i)).take 4)) := by
    intro i hi
    rw [wordsAt_get LuaInstruction.mk data' _ _ i hi]
    rfl
  cases fuel with
  | zero => exact ⟨rfl, fun c next h => (by cases h), h3⟩
  | succ fuel =>
    rcases parseChunkWith_words T (forward_parseChunk T fuel) (sound_parseChunk T fuel) data
      data' pos L n hlen hL hn hbefore hafter with ⟨c, next, hi, hc, hc'⟩ | ⟨heq, hne⟩
    · refine ⟨?_, ?_, h3⟩
      · show (parseChunkWith T (parseChunk T fuel) data' pos).map _ =
          (parseChunkWith T (parseChunk T fuel) data pos).map _
        rw [hc, hc']
        cases c
        rfl
      · intro c1 next1 h1
        have h1 : parseChunkWith T (parseChunk T fuel) data pos = .ok c1 next1 := h1
        rw [hc] at h1
        cases h1
        exact ⟨hi, hc'⟩
    · refine ⟨?_, ?_, h3⟩
      · show (parseChunkWith T (parseChunk T fuel) data' pos).map _ =
          (parseChunkWith T (parseChunk T fuel) data pos).map _
        rw [heq]
      · intro c1 next1 h1
        exact absurd h1 (hne c1 next1)

set_option maxRecDepth 100000 in
theorem instruction_words_irrelevant_witness :
    sampleTree.instructions =
      wordsAt LuaInstruction.mk (encodeFile lua51Tags sampleTree) 35 2 ∧
    parseChunk lua51Tags 167 patchedSample 12 =
      .ok (sampleTree.withInstructions (wordsAt LuaInstruction.mk patchedSample 35 2)) 167 ∧
    wordsAt LuaInstruction.mk patchedSample 35 2 = [⟨0xFFFFFFFF⟩, ⟨0⟩] :=
  have h := (instruction_words_irrelevant lua51Tags 167 (encodeFile lua51Tags sampleTree)
    patchedSample 12 3 2 (by rfl) (by rfl) (by rfl) (by rfl) (by rfl)).2.1 sampleTree 167
    (by rfl)
  ⟨h.1, h.2, by rfl⟩

end Konfet
